import Mathlib

/-!
Verification of the lsif-tsc indexer core (`tsc/src/lsif.ts`).

The development is a shallow embedding of the indexer's data model:
vertices and edges are records carrying a numeric id, the emitter is a
state (`EmitSt`) holding the next fresh id and the emitted trace, and the
stateful classes (`ProjectData`, `DocumentData`, `StandardSymbolData`,
`MethodSymbolData`, `SymbolDataPartition`, `DataManager`) become Lean
structures with explicit state passing.  Maps keyed by strings or nodes
become association lists preserving insertion order (matching the
iteration order of a JavaScript `Map`), and thrown exceptions become
`Except` errors.  TypeScript `ts.Node` values are compared by reference
identity; they are modelled by the handle type `TNode`, where a source
file node is identified by its file name (the TypeScript program holds
exactly one `SourceFile` object per file name).
-/

namespace Lsif

/-- Handle for a `ts.Node`: either a source-file node (identified by its
file name) or any other node (an opaque identity). -/
inductive TNode where
  | sourceFile (fileName : String)
  | other (ident : Nat)
deriving DecidableEq, Repr

/-- `ItemEdgeProperties`: the property tag carried by `item` edges. -/
inductive RefProp where
  | declarations
  | definitions
  | references
deriving DecidableEq, Repr

/-- Vertex labels used by the engine.  The `event` label carries the event
kind (`true` = begin) and the id of the element the event is about; that
id is vertex payload data, not an edge reference. -/
inductive VertexLabel where
  | metaData
  | project
  | document
  | range
  | resultSet
  | definitionResult
  | referenceResult
  | hoverResult
  | moniker
  | diagnosticResult
  | foldingRangeResult
  | documentSymbolResult
  | event (begin_ : Bool) (target : Nat)
deriving DecidableEq, Repr

/-- Edge labels used by the engine. -/
inductive EdgeLabel where
  | contains
  | next
  | item
  | definition
  | references
  | hover
  | moniker
  | diagnostic
  | foldingRange
  | documentSymbols
deriving DecidableEq, Repr

/-- An emitted LSIF element: a vertex, or an edge with an `outV`, one or
many `inV`s, and (for `item` edges) a document id and an optional
property tag. -/
inductive Element where
  | vertex (id : Nat) (label : VertexLabel)
  | edge (id : Nat) (label : EdgeLabel) (outV : Nat) (inVs : List Nat)
      (doc : Option Nat) (property : Option RefProp)
deriving DecidableEq, Repr

namespace Element

def id : Element → Nat
  | vertex i _ => i
  | edge i _ _ _ _ _ => i

def isVertex : Element → Bool
  | vertex _ _ => true
  | edge _ _ _ _ _ _ => false

def isEdge : Element → Bool
  | vertex _ _ => false
  | edge _ _ _ _ _ _ => true

/-- The ids an edge refers to: its `outV`, its `inV`s, and (for `item`
edges) the document id.  A vertex refers to nothing. -/
def refs : Element → List Nat
  | vertex _ _ => []
  | edge _ _ outV inVs doc _ => outV :: inVs ++ doc.toList

end Element

/-- Modelled from the spec: the Builder / id factory of `graph.ts` is not
part of the sources under verification; per the spec (§4.1) every call
produces a fresh id and the source used sequential integers.  `EmitSt`
holds the id counter and the trace of emitted elements in program
order. -/
structure EmitSt where
  nextId : Nat
  trace : List Element
deriving DecidableEq, Repr

/-- Allocate a fresh id for a vertex and emit it (in the source, vertex
construction through the builder allocates the id and every construction
site emits the vertex before any further element is created). -/
def emitVertex (st : EmitSt) (label : VertexLabel) : Nat × EmitSt :=
  (st.nextId, ⟨st.nextId + 1, st.trace ++ [Element.vertex st.nextId label]⟩)

/-- Allocate a fresh id for an edge and emit it. -/
def emitEdge (st : EmitSt) (label : EdgeLabel) (outV : Nat) (inVs : List Nat)
    (doc : Option Nat) (property : Option RefProp) : EmitSt :=
  ⟨st.nextId + 1, st.trace ++ [Element.edge st.nextId label outV inVs doc property]⟩

/-- Allocate a fresh id without emitting (vertex construction in the
source allocates the id; the construction sites relevant here, the
`document` and `resultSet` vertices, are emitted by the subsequent
`begin` with no intervening emission). -/
def allocId (st : EmitSt) : Nat × EmitSt :=
  (st.nextId, ⟨st.nextId + 1, st.trace⟩)

/-- Emit a previously constructed element. -/
def emitExisting (st : EmitSt) (e : Element) : EmitSt :=
  ⟨st.nextId, st.trace ++ [e]⟩

/-! ### Association lists

JavaScript `Map`s preserve insertion order; they are modelled by
association lists where `alSet` overwrites in place and appends new keys
at the end, exactly as `Map.set` behaves with respect to iteration
order. -/

def alGet {κ α : Type} [DecidableEq κ] (l : List (κ × α)) (k : κ) : Option α :=
  match l with
  | [] => none
  | (k', v) :: rest => if k' = k then some v else alGet rest k

def alSet {κ α : Type} [DecidableEq κ] (l : List (κ × α)) (k : κ) (v : α) :
    List (κ × α) :=
  match l with
  | [] => [(k, v)]
  | (k', v') :: rest => if k' = k then (k, v) :: rest else (k', v') :: alSet rest k v

def alRemove {κ α : Type} [DecidableEq κ] (l : List (κ × α)) (k : κ) :
    List (κ × α) :=
  match l with
  | [] => []
  | (k', v') :: rest => if k' = k then rest else (k', v') :: alRemove rest k

/-! ### SymbolDataPartition

Translated from `class SymbolDataPartition` (lsif.ts, lines 626-702).
The partition stores vertex ids: `definitionRanges` holds ids of
definition-range vertices, `referenceRanges` buckets reference-range ids
by property (a `Map` in insertion order), and `referenceResults` holds
ids of forwarded reference-result vertices.  `document` is the id of the
owning document vertex. -/
structure PartitionSt where
  document : Nat
  definitionRanges : Option (List Nat)
  referenceRanges : Option (List (RefProp × List Nat))
  referenceResults : Option (List Nat)
deriving DecidableEq, Repr

/-- A fresh partition for a document (the constructor initializes every
buffer to `undefined`). -/
def PartitionSt.fresh (docId : Nat) : PartitionSt :=
  ⟨docId, none, none, none⟩

/-- The value passed to `addReference`: a `range` vertex or a
`referenceResult` vertex, discriminated by its `label` in the source. -/
inductive RefValue where
  | rangeV (id : Nat)
  | referenceResultV (id : Nat)
deriving DecidableEq, Repr

/-- `SymbolDataPartition.addReference` (lines 664-683): a range with a
property tag goes into the property's bucket; a reference result goes
into `referenceResults`; a range without a property matches neither
branch and the state is unchanged. -/
def partitionAddReference (p : PartitionSt) (value : RefValue)
    (property : Option RefProp) : PartitionSt :=
  match value, property with
  | .rangeV i, some prop =>
    let buckets := p.referenceRanges.getD []
    let values := (alGet buckets prop).getD []
    { p with referenceRanges := some (alSet buckets prop (values ++ [i])) }
  | .rangeV _, none => p
  | .referenceResultV i, _ =>
    { p with referenceResults := some (p.referenceResults.getD [] ++ [i]) }

/-- `SymbolDataPartition.addDefinition` (lines 641-649). -/
def partitionAddDefinition (p : PartitionSt) (rangeId : Nat)
    (recordAsReference : Bool) : PartitionSt :=
  let p := { p with definitionRanges := some (p.definitionRanges.getD [] ++ [rangeId]) }
  if recordAsReference then
    partitionAddReference p (.rangeV rangeId) (some .definitions)
  else p

/-! ### Symbol, document, project and manager state -/

/-- The tristate of `StandardSymbolData.partitions`:
`Map<string, SymbolDataPartition | null> | null | undefined`.  `undef`
is `undefined`, `cleared` is the outer `null`, and inside a `live` map a
`none` slot is the per-file tombstone (`null`). -/
inductive Partitions where
  | undef
  | cleared
  | live (m : List (String × Option PartitionSt))
deriving DecidableEq, Repr

/-- Which `SymbolData` subclass a symbol was created with.  The `method`
constructor carries the (already normalized) optional list of base
symbol ids held by `MethodSymbolData` (lines 538-586); `aliased` carries
the id of the aliased symbol data and the `rename` flag of
`AliasedSymbolData` (lines 498-536, produced by `TypeAliasResolver`,
lines 916-937); `unionOrIntersection` carries the element symbol ids of
`UnionOrIntersectionSymbolData` (lines 588-624, produced by
`TransientResolver`, lines 962-1010). -/
inductive SymbolVariant where
  | standard
  | method (bases : Option (List String))
  | aliased (aliasedSym : String) (rename : Bool)
  | unionOrIntersection (elements : List String)
deriving DecidableEq, Repr

/-- `MethodSymbolData`'s constructor (lines 543-551) stores `undefined`
when the supplied bases list is empty, otherwise the list itself. -/
def methodCtorBases (bases : Option (List String)) : Option (List String) :=
  match bases with
  | some [] => none
  | x => x

/-- State of one `SymbolData`: the pre-allocated `resultSet` vertex id,
the optional scope node, the lazily created result vertices, and the
partition map. -/
structure SymbolSt where
  resultSet : Nat
  scope : Option TNode
  variant : SymbolVariant
  definitionResult : Option Nat
  referenceResult : Option Nat
  partitions : Partitions
deriving DecidableEq, Repr

/-- State of one `DocumentData`: the document vertex id, the moniker
path and external-library flag, the emitted ranges, and the optional
document-scoped results (their payloads are irrelevant to the graph
shape, so they are presence flags). -/
structure DocumentSt where
  document : Nat
  monikerPath : Option String
  externalLibrary : Bool
  ranges : List Nat
  diagnostics : Option Unit
  foldingRanges : Option Unit
  documentSymbols : Option Unit
deriving DecidableEq, Repr

/-- State of `ProjectData`: the project vertex id, the buffer of pending
`contains` document ids, and the pending diagnostics (payloads
irrelevant, only the count matters for `end`). -/
structure ProjectSt where
  project : Nat
  documents : List Nat
  diagnostics : List Unit
deriving DecidableEq, Repr

/-- Errors: each constructor corresponds to a `throw new Error(...)` in
the source, except `noSymbol`/`noBase`, which model a method call through
an object reference whose handle is no longer in the symbol map (in the
source the object outlives the map entry; every such call in a reachable
state is on a live entry). -/
inductive Err where
  | docAlreadyManaged
  | noDocumentData
  | symAlreadyManaged
  | partitionsCleared
  | partitionCleared
  | noPartition
  | multiPartition
  | badNode
  | noSymbol
  | noSourceFile
  | shouldNotBeCalled
deriving DecidableEq, Repr

/-- `DataManager` state plus the emitter. -/
structure DM where
  emit : EmitSt
  projectData : ProjectSt
  documentDatas : List (String × Option DocumentSt)
  symbolDatas : List (String × Option SymbolSt)
  clearOnNode : List (TNode × List String)
deriving DecidableEq, Repr

def dmEmitVertex (dm : DM) (label : VertexLabel) : Nat × DM :=
  let (i, e) := emitVertex dm.emit label
  (i, { dm with emit := e })

def dmEmitEdge (dm : DM) (label : EdgeLabel) (outV : Nat) (inVs : List Nat)
    (doc : Option Nat) (property : Option RefProp) : DM :=
  { dm with emit := emitEdge dm.emit label outV inVs doc property }

/-- `DataManager.getDocumentData` (lines 1054-1060): a tombstoned entry
throws, a missing entry is `undefined`. -/
def dmGetDocumentData (dm : DM) (fileName : String) : Except Err (Option DocumentSt) :=
  match alGet dm.documentDatas fileName with
  | some none => throw .docAlreadyManaged
  | some (some dd) => pure (some dd)
  | none => pure none

/-- `DataManager.getSymbolData` (lines 1082-1088). -/
def dmGetSymbolData (dm : DM) (symId : String) : Except Err (Option SymbolSt) :=
  match alGet dm.symbolDatas symId with
  | some none => throw .symAlreadyManaged
  | some (some s) => pure (some s)
  | none => pure none

/-- Dereference a symbol handle for a method call made through an object
reference in the source. -/
def getLiveSym (dm : DM) (symId : String) : Except Err SymbolSt :=
  match alGet dm.symbolDatas symId with
  | some (some s) => pure s
  | _ => throw .noSymbol

def updateSym (dm : DM) (symId : String) (s : SymbolSt) : DM :=
  { dm with symbolDatas := alSet dm.symbolDatas symId (some s) }

/-- Write back a partition slot of a live symbol (the source mutates the
partition object / `Map` in place; unreachable fallbacks leave the state
unchanged). -/
def setPartitionSlot (dm : DM) (symId fileName : String) (slot : Option PartitionSt) : DM :=
  match alGet dm.symbolDatas symId with
  | some (some s) =>
    match s.partitions with
    | .live m => updateSym dm symId { s with partitions := .live (alSet m fileName slot) }
    | _ => dm
  | _ => dm

/-- Set `this.partitions = null` on a live symbol. -/
def clearPartitions (dm : DM) (symId : String) : DM :=
  match alGet dm.symbolDatas symId with
  | some (some s) => updateSym dm symId { s with partitions := .cleared }
  | _ => dm

/-- `DataManager.manageLifeCycle` (lines 1100-1107). -/
def manageLifeCycle (dm : DM) (node : TNode) (symId : String) : DM :=
  let datas := (alGet dm.clearOnNode node).getD []
  { dm with clearOnNode := alSet dm.clearOnNode node (datas ++ [symId]) }

/-- `StandardSymbolData.getOrCreateDefinitionResult` (lines 405-412). -/
def getOrCreateDefinitionResult (dm : DM) (symId : String) : Except Err (Nat × DM) := do
  let s ← getLiveSym dm symId
  match s.definitionResult with
  | some i => pure (i, dm)
  | none =>
    let (i, dm) := dmEmitVertex dm .definitionResult
    let dm := dmEmitEdge dm .definition s.resultSet [i] none none
    pure (i, updateSym dm symId { s with definitionResult := some i })

/-- `StandardSymbolData.getOrCreateReferenceResult` (lines 414-421). -/
def getOrCreateReferenceResult (dm : DM) (symId : String) : Except Err (Nat × DM) := do
  let s ← getLiveSym dm symId
  match s.referenceResult with
  | some i => pure (i, dm)
  | none =>
    let (i, dm) := dmEmitVertex dm .referenceResult
    let dm := dmEmitEdge dm .references s.resultSet [i] none none
    pure (i, updateSym dm symId { s with referenceResult := some i })

/-- `getOrCreateReferenceResult` through a dynamically dispatched
`SymbolData` reference (the `base.getOrCreateReferenceResult()` calls of
`MethodSymbolData.begin` and `UnionOrIntersectionSymbolData.begin`):
`AliasedSymbolData` overrides it to throw (lines 533-535); every other
variant inherits the standard implementation. -/
def symGetOrCreateReferenceResult (dm : DM) (symId : String) : Except Err (Nat × DM) := do
  let s ← getLiveSym dm symId
  match s.variant with
  | .aliased _ _ => throw .shouldNotBeCalled
  | _ => getOrCreateReferenceResult dm symId

/-- First block of `SymbolDataPartition.end` (lines 686-689): flush the
definition ranges. -/
def partitionEndDefs (dm : DM) (symId : String) (p : PartitionSt) : Except Err DM :=
  match p.definitionRanges with
  | none => pure dm
  | some ranges => do
    let (dr, dm) ← getOrCreateDefinitionResult dm symId
    pure (dmEmitEdge dm .item dr ranges (some p.document) none)

/-- Second block of `SymbolDataPartition.end` (lines 690-696): flush the
reference-range buckets in insertion order. -/
def partitionEndRefs (dm : DM) (symId : String) (p : PartitionSt) : Except Err DM :=
  match p.referenceRanges with
  | none => pure dm
  | some buckets => do
    let (rr, dm) ← getOrCreateReferenceResult dm symId
    pure (buckets.foldl
      (fun dm bucket =>
        dmEmitEdge dm .item rr bucket.2 (some p.document) (some bucket.1)) dm)

/-- Third block of `SymbolDataPartition.end` (lines 697-700): flush the
forwarded reference results. -/
def partitionEndRRs (dm : DM) (symId : String) (p : PartitionSt) : Except Err DM :=
  match p.referenceResults with
  | none => pure dm
  | some rrs => do
    let (rr, dm) ← getOrCreateReferenceResult dm symId
    pure (dmEmitEdge dm .item rr rrs (some p.document) none)

/-- `SymbolDataPartition.end` (lines 685-701): the three blocks in
order.  The `this.symbolData.getOrCreateReferenceResult()` calls use the
standard implementation: the `AliasedSymbolData` override that throws is
unreachable here, because an aliased symbol's own partitions only ever
receive definition ranges (its `addReference` and non-rename
`addDefinition` always forward into the aliased symbol's partition). -/
def partitionEnd (dm : DM) (symId : String) (p : PartitionSt) : Except Err DM := do
  let dm ← partitionEndDefs dm symId p
  let dm ← partitionEndRefs dm symId p
  partitionEndRRs dm symId p

/-- Inner part of `getOrCreatePartition` operating on the live map `m`
(`undefined` partitions have just been replaced by an empty map). -/
def getOrCreatePartitionCore (dm : DM) (symId fileName : String) (s : SymbolSt)
    (m : List (String × Option PartitionSt)) : Except Err (PartitionSt × DM) :=
  match alGet m fileName with
  | some none => throw .partitionCleared
  | some (some p) => pure (p, dm)
  | none => do
    let dd? ← dmGetDocumentData dm fileName
    match dd? with
    | none => throw .noDocumentData
    | some dd =>
      let p := PartitionSt.fresh dd.document
      let dm := manageLifeCycle dm (.sourceFile fileName) symId
      -- partition.begin() does nothing
      let dm := updateSym dm symId { s with partitions := .live (alSet m fileName (some p)) }
      pure (p, dm)

/-- `StandardSymbolData.getOrCreatePartition` (lines 423-446). -/
def getOrCreatePartition (dm : DM) (symId fileName : String) : Except Err (PartitionSt × DM) := do
  let s ← getLiveSym dm symId
  match s.partitions with
  | .cleared => throw .partitionsCleared
  | .undef => getOrCreatePartitionCore dm symId fileName s []
  | .live m => getOrCreatePartitionCore dm symId fileName s m

/-- `StandardSymbolData.addDefinition` (lines 376-379). -/
def stdAddDefinition (dm : DM) (symId fileName : String) (rangeId : Nat)
    (recordAsReference : Bool) : Except Err DM := do
  let s ← getLiveSym dm symId
  let dm := dmEmitEdge dm .next rangeId [s.resultSet] none none
  let (p, dm) ← getOrCreatePartition dm symId fileName
  pure (setPartitionSlot dm symId fileName
    (some (partitionAddDefinition p rangeId recordAsReference)))

/-- `StandardSymbolData.addReference` (lines 398-403). -/
def stdAddReference (dm : DM) (symId fileName : String) (value : RefValue)
    (property : Option RefProp) : Except Err DM := do
  let s ← getLiveSym dm symId
  let dm := match value with
    | .rangeV i => dmEmitEdge dm .next i [s.resultSet] none none
    | .referenceResultV _ => dm
  let (p, dm) ← getOrCreatePartition dm symId fileName
  pure (setPartitionSlot dm symId fileName (some (partitionAddReference p value property)))

/-- The base loop shared by `MethodSymbolData.addDefinition` and
`addReference`: `base.getOrCreatePartition(sourceFile).addReference(...)`
for every base, in order. -/
def addRefToBases (dm : DM) (bases : List String) (fileName : String) (value : RefValue)
    (property : Option RefProp) : Except Err DM :=
  match bases with
  | [] => pure dm
  | b :: rest => do
    let (p, dm) ← getOrCreatePartition dm b fileName
    let dm := setPartitionSlot dm b fileName (some (partitionAddReference p value property))
    addRefToBases dm rest fileName value property

/-- `SymbolData.addDefinition` dispatched on the variant:
`StandardSymbolData.addDefinition` with `recordAsReference = true`,
`MethodSymbolData.addDefinition` (lines 565-572),
`AliasedSymbolData.addDefinition` (lines 508-515: with `rename` the
standard behaviour with `recordAsReference = false`, otherwise a `next`
edge to the own result set and a `references`-tagged forward into the
aliased symbol's partition), or `UnionOrIntersectionSymbolData`'s no-op
(lines 612-614). -/
def symAddDefinition (dm : DM) (symId fileName : String) (rangeId : Nat) : Except Err DM := do
  let s ← getLiveSym dm symId
  match s.variant with
  | .standard => stdAddDefinition dm symId fileName rangeId true
  | .method bases => do
    let dm ← stdAddDefinition dm symId fileName rangeId bases.isNone
    match bases with
    | none => pure dm
    | some bs => addRefToBases dm bs fileName (.rangeV rangeId) (some .definitions)
  | .aliased a rename =>
    if rename then
      stdAddDefinition dm symId fileName rangeId false
    else do
      let dm := dmEmitEdge dm .next rangeId [s.resultSet] none none
      let (p, dm) ← getOrCreatePartition dm a fileName
      pure (setPartitionSlot dm a fileName
        (some (partitionAddReference p (.rangeV rangeId) (some .references))))
  | .unionOrIntersection _ => pure dm

/-- `SymbolData.addReference` dispatched on the variant:
`StandardSymbolData.addReference`, `MethodSymbolData.addReference`
(lines 574-585), `AliasedSymbolData.addReference` (lines 526-531: a
`next` edge for ranges, then a forward into the aliased symbol's
partition), or `UnionOrIntersectionSymbolData.addReference` (lines
616-623: a `next` edge for ranges, then a forward into every element's
partition). -/
def symAddReference (dm : DM) (symId fileName : String) (value : RefValue)
    (property : Option RefProp) : Except Err DM := do
  let s ← getLiveSym dm symId
  match s.variant with
  | .standard => stdAddReference dm symId fileName value property
  | .method none => stdAddReference dm symId fileName value property
  | .method (some bs) =>
    let dm := match value with
      | .rangeV i => dmEmitEdge dm .next i [s.resultSet] none none
      | .referenceResultV _ => dm
    addRefToBases dm bs fileName value property
  | .aliased a _ => do
    let dm := match value with
      | .rangeV i => dmEmitEdge dm .next i [s.resultSet] none none
      | .referenceResultV _ => dm
    let (p, dm) ← getOrCreatePartition dm a fileName
    pure (setPartitionSlot dm a fileName (some (partitionAddReference p value property)))
  | .unionOrIntersection elems =>
    let dm := match value with
      | .rangeV i => dmEmitEdge dm .next i [s.resultSet] none none
      | .referenceResultV _ => dm
    addRefToBases dm elems fileName value property

/-- `StandardSymbolData.nodeProcessed` (lines 448-480). -/
def symNodeProcessed (dm : DM) (symId : String) (node : TNode) : Except Err (Bool × DM) := do
  let s ← getLiveSym dm symId
  match s.partitions with
  | .undef => pure (true, dm)
  | .cleared => throw .partitionsCleared
  | .live m =>
    if some node = s.scope then
      match m with
      | [(_, some p)] => do
        let dm ← partitionEnd dm symId p
        pure (true, clearPartitions dm symId)
      | [(_, none)] => pure (true, clearPartitions dm symId)
      | _ => throw .multiPartition
    else
      match node with
      | .sourceFile fileName =>
        match alGet m fileName with
        | some none => throw .partitionCleared
        | none => throw .noPartition
        | some (some p) => do
          let dm ← partitionEnd dm symId p
          pure (false, setPartitionSlot dm symId fileName none)
      | .other _ => throw .badNode

/-- The per-entry loop of `StandardSymbolData.end`, iterating over the
keys in insertion order and re-reading each slot. -/
def symEndEntries (dm : DM) (symId : String) (keys : List String) : Except Err DM :=
  match keys with
  | [] => pure dm
  | k :: rest => do
    let s ← getLiveSym dm symId
    match s.partitions with
    | .live m =>
      match alGet m k with
      | some (some p) => do
        let dm ← partitionEnd dm symId p
        symEndEntries (setPartitionSlot dm symId k none) symId rest
      | _ => symEndEntries dm symId rest
    | _ => symEndEntries dm symId rest

/-- `StandardSymbolData.end` (lines 482-495). -/
def symEnd (dm : DM) (symId : String) : Except Err DM := do
  let s ← getLiveSym dm symId
  match s.partitions with
  | .undef => pure dm
  | .cleared => throw .partitionsCleared
  | .live m => symEndEntries dm symId (m.map Prod.fst)

/-- `ProjectData.addDocument` (lines 206-212): buffer the document id and
flush a `contains` edge once the buffer holds more than 32 entries. -/
def projAddDocument (dm : DM) (docId : Nat) : DM :=
  let docs := dm.projectData.documents ++ [docId]
  if docs.length > 32 then
    let dm := dmEmitEdge dm .contains dm.projectData.project docs none none
    { dm with projectData := { dm.projectData with documents := [] } }
  else
    { dm with projectData := { dm.projectData with documents := docs } }

/-- `ProjectData.end` (lines 218-229). -/
def projEnd (dm : DM) : DM :=
  let dm :=
    if dm.projectData.documents.length > 0 then
      let dm := dmEmitEdge dm .contains dm.projectData.project dm.projectData.documents none none
      { dm with projectData := { dm.projectData with documents := [] } }
    else dm
  let dm :=
    if dm.projectData.diagnostics.length > 0 then
      let (dr, dm) := dmEmitVertex dm .diagnosticResult
      dmEmitEdge dm .diagnostic dm.projectData.project [dr] none none
    else dm
  (dmEmitVertex dm (.event false dm.projectData.project)).2

/-- `DocumentData.end` (lines 266-286): the ranges `contains` edge is
emitted unconditionally (the guard `ranges.length >= 0` always holds),
then one result vertex plus edge per present category, then the end
event. -/
def docEnd (dm : DM) (dd : DocumentSt) : DM :=
  let dm := dmEmitEdge dm .contains dd.document dd.ranges none none
  let dm :=
    if dd.diagnostics.isSome then
      let (dr, dm) := dmEmitVertex dm .diagnosticResult
      dmEmitEdge dm .diagnostic dd.document [dr] none none
    else dm
  let dm :=
    if dd.foldingRanges.isSome then
      let (fr, dm) := dmEmitVertex dm .foldingRangeResult
      dmEmitEdge dm .foldingRange dd.document [fr] none none
    else dm
  let dm :=
    if dd.documentSymbols.isSome then
      let (ds, dm) := dmEmitVertex dm .documentSymbolResult
      dmEmitEdge dm .documentSymbols dd.document [ds] none none
    else dm
  (dmEmitVertex dm (.event false dd.document)).2

/-- `DataManager.getOrCreateDocumentData` (lines 1062-1071).  The
`document` vertex was allocated by the caller; `DocumentData.begin`
emits it together with the begin event, then the document is added to
the project's `contains` buffer. -/
def dmGetOrCreateDocumentData (dm : DM) (fileName : String) (docId : Nat)
    (monikerPath : Option String) (externalLibrary : Bool) :
    Except Err (DocumentSt × DM) := do
  let dd? ← dmGetDocumentData dm fileName
  match dd? with
  | some dd => pure (dd, dm)
  | none =>
    let dd : DocumentSt :=
      { document := docId, monikerPath := monikerPath, externalLibrary := externalLibrary,
        ranges := [], diagnostics := none, foldingRanges := none, documentSymbols := none }
    let dm := { dm with documentDatas := alSet dm.documentDatas fileName (some dd) }
    -- DocumentData.begin(): emit the document vertex and its begin event
    let dm := { dm with emit := emitExisting dm.emit (Element.vertex docId .document) }
    let dm := (dmEmitVertex dm (.event true docId)).2
    let dm := projAddDocument dm docId
    pure (dd, dm)

/-- `Visitor.getOrCreateDocumentData` (lines 1496-1531), with the
moniker-path computation (driven by the compiler-host oracle) supplied
as arguments: return the managed data if present, otherwise construct
the document vertex and hand it to the manager. -/
def visitorGetOrCreateDocumentData (dm : DM) (fileName : String)
    (monikerPath : Option String) (externalLibrary : Bool) :
    Except Err (DocumentSt × DM) := do
  let dd? ← dmGetDocumentData dm fileName
  match dd? with
  | some dd => pure (dd, dm)
  | none =>
    let (docId, e) := allocId dm.emit
    dmGetOrCreateDocumentData { dm with emit := e } fileName docId monikerPath externalLibrary

/-- `DataManager.documemntProcessed` (lines 1073-1080). -/
def dmDocumentProcessed (dm : DM) (fileName : String) : Except Err DM := do
  let dd? ← dmGetDocumentData dm fileName
  match dd? with
  | none => throw .noDocumentData
  | some dd =>
    let dm := docEnd dm dd
    pure { dm with documentDatas := alSet dm.documentDatas fileName none }

/-- The loop body of `DataManager.nodeProcessed` (lines 1109-1119): call
`nodeProcessed` on each registered symbol and delete the exhausted
ones. -/
def processDatas (dm : DM) (node : TNode) (datas : List String) : Except Err DM :=
  match datas with
  | [] => pure dm
  | symId :: rest => do
    let (done, dm) ← symNodeProcessed dm symId node
    let dm := if done then { dm with symbolDatas := alRemove dm.symbolDatas symId } else dm
    processDatas dm node rest

/-- `DataManager.nodeProcessed` (lines 1109-1119). -/
def dmNodeProcessed (dm : DM) (node : TNode) : Except Err DM :=
  match alGet dm.clearOnNode node with
  | none => pure dm
  | some datas => do
    let dm ← processDatas dm node datas
    pure { dm with clearOnNode := alRemove dm.clearOnNode node }

/-- Symbol phase of `DataManager.projectProcessed` (lines 1040-1045):
end every live symbol and tombstone its slot. -/
def endSymbols (dm : DM) (keys : List String) : Except Err DM :=
  match keys with
  | [] => pure dm
  | k :: rest =>
    match alGet dm.symbolDatas k with
    | some (some _) => do
      let dm ← symEnd dm k
      endSymbols { dm with symbolDatas := alSet dm.symbolDatas k none } rest
    | _ => endSymbols dm rest

/-- Document phase of `DataManager.projectProcessed` (lines 1046-1050):
end every live document (the slot is left live, as in the source). -/
def endDocuments (dm : DM) (keys : List String) : DM :=
  match keys with
  | [] => dm
  | k :: rest =>
    match alGet dm.documentDatas k with
    | some (some dd) => endDocuments (docEnd dm dd) rest
    | _ => endDocuments dm rest

/-- `DataManager.projectProcessed` (lines 1039-1052). -/
def dmProjectProcessed (dm : DM) : Except Err DM := do
  let dm ← endSymbols dm (dm.symbolDatas.map Prod.fst)
  let dm := endDocuments dm (dm.documentDatas.map Prod.fst)
  pure (projEnd dm)

/-! ### Symbol creation and the indexing driver

The `Visitor` walks the syntax tree under the direction of the semantic
oracle (the TypeScript type checker).  An indexing run is abstracted as
a sequence of driver operations, one per visitor action that touches the
manager; the oracle's answers (which symbols exist, their scopes, files,
bases and moniker data) become operation parameters.  Each operation is
translated from the corresponding visitor code. -/

/-- Create the document datas for every declaring file of a symbol
(`Visitor.getOrCreateSymbolData`, lines 1549-1557). -/
def createDocDatas (dm : DM) (files : List String) : Except Err DM :=
  match files with
  | [] => pure dm
  | f :: rest => do
    let (_, dm) ← visitorGetOrCreateDocumentData dm f none false
    createDocDatas dm rest

/-- The base loop shared by `MethodSymbolData.begin` (lines 553-563) and
`UnionOrIntersectionSymbolData.begin` (lines 599-606): for every base
(resp. element), forward its (lazily created, dynamically dispatched)
reference result into this symbol's partition for the clustering source
file via `super.addReference`. -/
def methodBeginBases (dm : DM) (symId : String) (sourceFile : String)
    (bases : List String) : Except Err DM :=
  match bases with
  | [] => pure dm
  | b :: rest => do
    let (rr, dm) ← symGetOrCreateReferenceResult dm b
    let dm ← stdAddReference dm symId sourceFile (.referenceResultV rr) none
    methodBeginBases dm symId sourceFile rest

/-- `DataManager.getOrCreateSymbolData` (lines 1090-1098) combined with
the resolver's `resolve` and `SymbolData.begin`: if the id is absent,
construct the variant's state (allocating the `resultSet` vertex in the
constructor), store it, and run `begin`, which emits the `resultSet`
and then the variant's extra work: a method with bases forwards every
base's reference result (lines 553-563); an alias additionally emits a
`next` edge from its result set to the aliased symbol's result set
(lines 503-506); a union or intersection forwards every element's
reference result (lines 599-606).  `UnionOrIntersectionSymbolData`'s
constructor passes `undefined` for the scope to the base constructor
(line 598). -/
def createSymbol (dm : DM) (symId : String) (scope : Option TNode)
    (variant : SymbolVariant) (files : List String) : Except Err DM := do
  let existing ← dmGetSymbolData dm symId
  match existing with
  | some _ => pure dm
  | none => do
    let dm ← createDocDatas dm files
    let (rsId, e) := allocId dm.emit
    let dm := { dm with emit := e }
    let s : SymbolSt :=
      { resultSet := rsId,
        scope := (match variant with | .unionOrIntersection _ => none | _ => scope),
        variant := variant,
        definitionResult := none, referenceResult := none, partitions := .undef }
    let dm := updateSym dm symId s
    -- SymbolData.begin(): emit the resultSet vertex
    let dm := { dm with emit := emitExisting dm.emit (Element.vertex rsId .resultSet) }
    match variant with
    | .standard => pure dm
    | .method none => pure dm
    | .method (some bs) =>
      -- MethodSymbolData.begin clusters on the partition scope, the
      -- first declaring source file (`getPartitionScope`, lines 891-896)
      match files with
      | [] => throw .noSourceFile
      | f0 :: _ => methodBeginBases dm symId f0 bs
    | .aliased a _ => do
      -- AliasedSymbolData.begin (lines 503-506)
      let sa ← getLiveSym dm a
      pure (dmEmitEdge dm .next rsId [sa.resultSet] none none)
    | .unionOrIntersection elems =>
      -- UnionOrIntersectionSymbolData.begin (lines 599-606), clustering
      -- on the first declaring source file as the method variant does
      match files with
      | [] => throw .noSourceFile
      | f0 :: _ => methodBeginBases dm symId f0 elems

/-- Record a definition range for a symbol at its declaration
(`Visitor.getOrCreateSymbolData`, lines 1587-1600): ensure the file's
document data, construct and emit the definition range vertex through
`DocumentData.addRange`, then `SymbolData.addDefinition`. -/
def recordDefinitionOp (dm : DM) (symId fileName : String) : Except Err DM := do
  let (dd, dm) ← visitorGetOrCreateDocumentData dm fileName none false
  let (rangeId, dm) := dmEmitVertex dm .range
  let dd := { dd with ranges := dd.ranges ++ [rangeId] }
  let dm := { dm with documentDatas := alSet dm.documentDatas fileName (some dd) }
  symAddDefinition dm symId fileName rangeId

/-- Record a reference range at an identifier occurrence
(`Visitor.visitIdentifier`, lines 1469-1486): the current document must
be live; construct and emit the reference range through `addRange`, then
`SymbolData.addReference` tagged `references`. -/
def recordReferenceOp (dm : DM) (symId fileName : String) : Except Err DM :=
  match alGet dm.documentDatas fileName with
  | some (some dd) =>
    let (rangeId, dm) := dmEmitVertex dm .range
    let dd := { dd with ranges := dd.ranges ++ [rangeId] }
    let dm := { dm with documentDatas := alSet dm.documentDatas fileName (some dd) }
    symAddReference dm symId fileName (.rangeV rangeId) (some .references)
  | _ => throw .noDocumentData

/-- `SymbolData.addHover` (lines 338-342). -/
def addHoverOp (dm : DM) (symId : String) : Except Err DM := do
  let s ← getLiveSym dm symId
  let (hr, dm) := dmEmitVertex dm .hoverResult
  pure (dmEmitEdge dm .hover s.resultSet [hr] none none)

/-- `SymbolData.addMoniker` (lines 344-348). -/
def addMonikerOp (dm : DM) (symId : String) : Except Err DM := do
  let s ← getLiveSym dm symId
  let (m, dm) := dmEmitVertex dm .moniker
  pure (dmEmitEdge dm .moniker s.resultSet [m] none none)

/-- `Visitor.endVisitSourceFile` (lines 1283-1330) restricted to its
manager-visible effects: optionally attach diagnostics, folding ranges
and document symbols to the document data, then declare the document
processed. -/
def documentDoneOp (dm : DM) (fileName : String)
    (diag foldingR docSyms : Bool) : Except Err DM :=
  let dm :=
    match alGet dm.documentDatas fileName with
    | some (some dd) =>
      let dd := { dd with
        diagnostics := if diag then some () else dd.diagnostics,
        foldingRanges := if foldingR then some () else dd.foldingRanges,
        documentSymbols := if docSyms then some () else dd.documentSymbols }
      { dm with documentDatas := alSet dm.documentDatas fileName (some dd) }
    | _ => dm
  dmDocumentProcessed dm fileName

/-- One abstract driver operation. -/
inductive Op where
  | createDocument (fileName : String) (monikerPath : Option String) (externalLibrary : Bool)
  | createSym (symId : String) (scope : Option TNode) (variant : SymbolVariant)
      (files : List String)
  | recordDefinition (symId : String) (fileName : String)
  | recordReference (symId : String) (fileName : String)
  | addHover (symId : String)
  | addMoniker (symId : String)
  | addProjectDiagnostic
  | nodeDone (node : TNode)
  | documentDone (fileName : String) (diag foldingR docSyms : Bool)
  | projectDone
deriving DecidableEq, Repr

def opStep (dm : DM) : Op → Except Err DM
  | .createDocument f mp ext => do
    let (_, dm) ← visitorGetOrCreateDocumentData dm f mp ext
    pure dm
  | .createSym symId scope variant files => createSymbol dm symId scope variant files
  | .recordDefinition symId f => recordDefinitionOp dm symId f
  | .recordReference symId f => recordReferenceOp dm symId f
  | .addHover symId => addHoverOp dm symId
  | .addMoniker symId => addMonikerOp dm symId
  | .addProjectDiagnostic =>
    pure { dm with projectData :=
      { dm.projectData with diagnostics := dm.projectData.diagnostics ++ [()] } }
  | .nodeDone node => dmNodeProcessed dm node
  | .documentDone f d fr ds => documentDoneOp dm f d fr ds
  | .projectDone => dmProjectProcessed dm

/-- Initial state: the `Visitor` constructor emits the metaData vertex
(line 1165) and constructs the project vertex (line 1166); the
`DataManager` constructor then runs `ProjectData.begin` (lines 201-204),
emitting the project vertex and its begin event. -/
def initDM : DM :=
  let e : EmitSt := ⟨1, []⟩
  let (_, e) := emitVertex e .metaData
  let (pId, e) := allocId e
  let e := emitExisting e (Element.vertex pId .project)
  let (_, e) := emitVertex e (.event true pId)
  { emit := e, projectData := ⟨pId, [], []⟩,
    documentDatas := [], symbolDatas := [], clearOnNode := [] }

/-- Run a sequence of driver operations from a state; a thrown error
aborts the run, leaving the trace as it stood at the throw. -/
def runFrom (dm : DM) : List Op → DM
  | [] => dm
  | op :: rest =>
    match opStep dm op with
    | .ok dm' => runFrom dm' rest
    | .error _ => dm

/-- One indexing run: the operation sequence applied to the initial
state. -/
def runOps (ops : List Op) : DM := runFrom initDM ops

/-! ### Declaration-info deduplication (`SymbolData`, lines 291-336) -/

/-- Modelled from the spec: `tss.DefinitionInfo` (in `typescripts.ts`,
which is not among the sources) identifies a declaration by its file and
its span; `tss.DefinitionInfo.equals` is structural equality on those
fields. -/
structure DefinitionInfo where
  file : String
  startLine : Nat
  startCharacter : Nat
  endLine : Nat
  endCharacter : Nat
deriving DecidableEq, Repr

/-- `SymbolData.declarationInfo`:
`tss.DefinitionInfo | tss.DefinitionInfo[] | undefined`. -/
inductive DeclarationInfo where
  | undef
  | single (i : DefinitionInfo)
  | many (l : List DefinitionInfo)
deriving DecidableEq, Repr

/-- `SymbolData.recordDefinitionInfo` (lines 312-321). -/
def recordDefinitionInfo (d : DeclarationInfo) (info : DefinitionInfo) : DeclarationInfo :=
  match d with
  | .undef => .single info
  | .many l => .many (l ++ [info])
  | .single i => .many [i, info]

/-- `SymbolData.hasDefinitionInfo` (lines 323-336). -/
def hasDefinitionInfo (d : DeclarationInfo) (info : DefinitionInfo) : Bool :=
  match d with
  | .undef => false
  | .many l => l.contains info
  | .single i => i = info

/-! ### Ignored files (`Visitor.isFullContentIgnored`, lines 1332-1353)

TypeScript file names are normalized absolute POSIX paths; a file name is
represented by its non-empty list of path components (directories
followed by the base name), over which `path.basename`, `path.dirname`
and `path.extname` act as below (the empty list is the root `/`). -/

/-- A source file as seen by `isFullContentIgnored`. -/
structure SrcFile where
  isDeclarationFile : Bool
  comps : List String
deriving DecidableEq, Repr

/-- `path.basename` on a component list (the root has base name `""`). -/
def pathBasename (comps : List String) : String :=
  comps.getLast?.getD ""

/-- `path.dirname` on a component list (stripping the last component;
the root is its own dirname). -/
def pathDirname (comps : List String) : List String :=
  comps.dropLast

/-- `path.extname` applied to a base name: the suffix from the last dot,
unless there is no dot or the only dot is the leading character. -/
def posixExtname (s : String) : String :=
  let cs := s.toList
  let pre := cs.reverse.takeWhile (fun c => c ≠ '.')
  if cs.length ≤ pre.length then ""
  else if pre.length + 1 = cs.length then ""
  else String.mk ('.' :: pre.reverse)

/-- The `do { ... } while (parent !== dirName)` loop of
`isFullContentIgnored` (lines 1343-1351): starting from the file's
directory, test whether any directory on the way up has base name
`node_modules`; the loop stops at the root, which is a fixpoint of
`dirname`. -/
def nmUpRev : List String → Bool
  | [] => false
  | c :: rest => if c = "node_modules" then true else nmUpRev rest

/-- The loop of `isFullContentIgnored` visits the last component of the
directory path, then the last component of its `dirname`, and so on
until the root; that is exactly a walk over the reversed component
list. -/
def nmUp (comps : List String) : Bool :=
  nmUpRev comps.reverse

/-- `Visitor.isFullContentIgnored` (lines 1332-1353). -/
def isFullContentIgnored (f : SrcFile) : Bool :=
  if f.isDeclarationFile then true
  else if pathBasename f.comps = "index.js" then false
  else if posixExtname (pathBasename f.comps) ≠ ".js" then false
  else nmUp (pathDirname f.comps)

/-- The claim's characterization of an ignored file, written from the
spec's words: a declaration file, or a `.js` file other than the literal
`index.js` with an ancestor directory component named `node_modules`. -/
def ignoredSpec (f : SrcFile) : Bool :=
  f.isDeclarationFile ||
    (posixExtname (pathBasename f.comps) = ".js" &&
      pathBasename f.comps ≠ "index.js" &&
      f.comps.dropLast.contains "node_modules")

/-! ### The `Symbols` semantic cache (lines 704-824)

Symbols handed out by the type checker are handles (`Nat`);
`tss.createSymbolKey` is injective on them, so the handle serves as the
cache key.  The `LRUCache` primitive lives in `utils/linkedMap`, outside
the sources; per the spec (§4.2, §9) it is a bounded memo table whose
bound is a tuning parameter, and the claim assumes no mid-run eviction,
so it is modelled as an unbounded association list.  The recursion of
`findBaseMembers` terminates because the base hierarchy produced by the
checker is finite and acyclic; the model makes this explicit with a fuel
argument, where `none` means the fuel ran out before the walk
finished. -/

/-- What the type-checker oracle answers about a symbol. -/
inductive SymKind where
  | typeLiteral
  | interfaceK
  | classK
  | otherK
deriving DecidableEq, Repr

/-- The type-checker oracle: pure, per the spec (§4.2 all cache-backed
operations are pure functions of the oracle state). -/
structure Oracle where
  kind : Nat → SymKind
  interfaceBases : Nat → Option (List Nat)
  classBases : Nat → Option (List Nat)
  hasMembers : Nat → Bool
  member : Nat → String → Option Nat

/-- The two caches of `Symbols` used by `findBaseMembers`. -/
structure SymbolsSt where
  baseSymbolCache : List (Nat × List Nat)
  baseMemberCache : List (Nat × List (String × List Nat))
deriving DecidableEq, Repr

/-- `Symbols.getBaseSymbols` (lines 716-732): consult the cache; type
literals are never computed or cached; interfaces and classes compute
their bases, and only non-absent results are cached. -/
def getBaseSymbols (o : Oracle) (st : SymbolsSt) (sym : Nat) :
    Option (List Nat) × SymbolsSt :=
  match alGet st.baseSymbolCache sym with
  | some r => (some r, st)
  | none =>
    match o.kind sym with
    | .typeLiteral => (none, st)
    | .interfaceK =>
      match o.interfaceBases sym with
      | none => (none, st)
      | some r => (some r, { st with baseSymbolCache := alSet st.baseSymbolCache sym r })
    | .classK =>
      match o.classBases sym with
      | none => (none, st)
      | some r => (some r, { st with baseSymbolCache := alSet st.baseSymbolCache sym r })
    | .otherK => (none, st)

/-- The inner member cache for a symbol, created on first access
(lines 783-787): an absent inner cache is stored as an empty one. -/
def materializeCache (st : SymbolsSt) (sym : Nat) : SymbolsSt :=
  match alGet st.baseMemberCache sym with
  | some _ => st
  | none => { st with baseMemberCache := alSet st.baseMemberCache sym [] }

/-- Store the walk's outcome in the member cache and return it
(lines 815-823): an absent result is cached as the empty list but
returned as absent. -/
def fbmFinish (st : SymbolsSt) (sym : Nat) (name : String)
    (result : Option (List Nat)) : Option (List Nat) × SymbolsSt :=
  let inner := (alGet st.baseMemberCache sym).getD []
  (result,
    { st with baseMemberCache := alSet st.baseMemberCache sym (alSet inner name (result.getD [])) })

mutual

/-- `Symbols.findBaseMembers` (lines 781-824). -/
def findBaseMembers (o : Oracle) (fuel : Nat) (st : SymbolsSt) (sym : Nat)
    (name : String) : Option (Option (List Nat) × SymbolsSt) :=
  match fuel with
  | 0 => none
  | fuel + 1 =>
    let st := materializeCache st sym
    let inner := (alGet st.baseMemberCache sym).getD []
    match alGet inner name with
    | some r => if r.length = 0 then some (none, st) else some (some r, st)
    | none =>
      match getBaseSymbols o st sym with
      | (none, st) => some (fbmFinish st sym name none)
      | (some bases, st) =>
        match fbmWalk o fuel st bases name none with
        | none => none
        | some (result, st) => some (fbmFinish st sym name result)
termination_by (fuel, 0)

/-- The base loop of `findBaseMembers` (lines 792-813): accumulate the
member of each base when present, otherwise the base's own transitive
result. -/
def fbmWalk (o : Oracle) (fuel : Nat) (st : SymbolsSt) (bases : List Nat)
    (name : String) (acc : Option (List Nat)) :
    Option (Option (List Nat) × SymbolsSt) :=
  match bases with
  | [] => some (acc, st)
  | b :: rest =>
    if o.hasMembers b then
      match o.member b name with
      | some m => fbmWalk o fuel st rest name (some (acc.getD [] ++ [m]))
      | none =>
        match findBaseMembers o fuel st b name with
        | none => none
        | some (baseResult, st) =>
          match baseResult with
          | none => fbmWalk o fuel st rest name acc
          | some l => fbmWalk o fuel st rest name (some (acc.getD [] ++ l))
    else fbmWalk o fuel st rest name acc
termination_by (fuel, bases.length + 1)

end

/-! ### Derived notions used in the statements -/

/-- The recorded declaration infos as a list (in recording order). -/
def DeclarationInfo.toList : DeclarationInfo → List DefinitionInfo
  | .undef => []
  | .single i => [i]
  | .many l => l

/-- The partition map a symbol in the given state would operate on:
`undefined` partitions behave as an empty map, cleared partitions have
none. -/
def livePartMap : Partitions → Option (List (String × Option PartitionSt))
  | .undef => some []
  | .cleared => none
  | .live m => some m

/-- The id `i` names a vertex present in the trace. -/
def GoodId (tr : List Element) (i : Nat) : Prop :=
  ∃ v ∈ tr, v.isVertex = true ∧ v.id = i

instance (tr : List Element) (i : Nat) : Decidable (GoodId tr i) := by
  unfold GoodId; infer_instance

/-- Well-formedness of the emitter state: every emitted id is below the
counter, ids strictly increase in emission order, and every element's
references name vertices already in the trace with strictly smaller
ids. -/
def EmitInv (e : EmitSt) : Prop :=
  (∀ x ∈ e.trace, x.id < e.nextId) ∧
  List.Pairwise (fun a b => a.id < b.id) e.trace ∧
  (∀ x ∈ e.trace, ∀ r ∈ x.refs, GoodId e.trace r ∧ r < x.id)

/-- All ids a document data stores name emitted vertices. -/
def DocGood (tr : List Element) (dd : DocumentSt) : Prop :=
  GoodId tr dd.document ∧ ∀ r ∈ dd.ranges, GoodId tr r

/-- All ids a partition stores name emitted vertices. -/
def PartGood (tr : List Element) (p : PartitionSt) : Prop :=
  GoodId tr p.document ∧
  (∀ l, p.definitionRanges = some l → ∀ r ∈ l, GoodId tr r) ∧
  (∀ bs, p.referenceRanges = some bs → ∀ b ∈ bs, ∀ r ∈ b.2, GoodId tr r) ∧
  (∀ l, p.referenceResults = some l → ∀ r ∈ l, GoodId tr r)

/-- All ids a symbol data stores name emitted vertices. -/
def SymGood (tr : List Element) (s : SymbolSt) : Prop :=
  GoodId tr s.resultSet ∧
  (∀ i, s.definitionResult = some i → GoodId tr i) ∧
  (∀ i, s.referenceResult = some i → GoodId tr i) ∧
  (∀ m, s.partitions = .live m → ∀ fp ∈ m, ∀ p, fp.2 = some p → PartGood tr p)

/-- The manager invariant: the emitter is well-formed and every id stored
anywhere in the state names an emitted vertex. -/
def DMInv (dm : DM) : Prop :=
  EmitInv dm.emit ∧
  GoodId dm.emit.trace dm.projectData.project ∧
  (∀ d ∈ dm.projectData.documents, GoodId dm.emit.trace d) ∧
  (∀ fd ∈ dm.documentDatas, ∀ dd, fd.2 = some dd → DocGood dm.emit.trace dd) ∧
  (∀ ss ∈ dm.symbolDatas, ∀ s, ss.2 = some s → SymGood dm.emit.trace s)

/-- An element is a `contains` edge with at most `n` targets, or is not a
`contains` edge at all. -/
def containsLe (n : Nat) : Element → Prop
  | .vertex _ _ => True
  | .edge _ label _ inVs _ _ => label = .contains → inVs.length ≤ n

/-- The second emitter state continues the first one's trace. -/
def TraceExtends (e e' : EmitSt) : Prop :=
  ∃ tail, e'.trace = e.trace ++ tail

/-- The target state is well-formed and its trace continues the source
state's trace. -/
def Inv2 (dm dm' : DM) : Prop :=
  DMInv dm' ∧ TraceExtends dm.emit dm'.emit

/-! ### Concrete states used to instantiate theorems with hypotheses -/

/-- The document data created by
`dmGetOrCreateDocumentData initDM "a.ts" 100 none false`. -/
def c10dd : DocumentSt := ⟨100, none, false, [], none, none, none⟩

/-- The manager state after `dmGetOrCreateDocumentData initDM "a.ts" 100 none false`. -/
def c10dm : DM :=
  { emit := ⟨5, [.vertex 1 .metaData, .vertex 2 .project, .vertex 3 (.event true 2),
      .vertex 100 .document, .vertex 4 (.event true 100)]⟩,
    projectData := ⟨2, [100], []⟩,
    documentDatas := [("a.ts", some c10dd)],
    symbolDatas := [], clearOnNode := [] }

/-- A partition with empty buffers over document vertex 9. -/
def c2p : PartitionSt := PartitionSt.fresh 9

/-- A live scoped symbol with a single live partition for `a.ts`. -/
def c2sym : SymbolSt :=
  ⟨5, some (.other 1), .standard, none, none, .live [("a.ts", some c2p)]⟩

/-- A manager state holding the symbol `s` as `c2sym`. -/
def c2dm : DM :=
  { emit := ⟨10, []⟩, projectData := ⟨0, [], []⟩, documentDatas := [],
    symbolDatas := [("s", some c2sym)], clearOnNode := [] }

/-- The symbol `c2sym` after its partitions were cleared. -/
def c2symCleared : SymbolSt := ⟨5, some (.other 1), .standard, none, none, .cleared⟩

/-- A manager state holding the symbol `s` as `c2symCleared`. -/
def c2dmCleared : DM :=
  { emit := ⟨10, []⟩, projectData := ⟨0, [], []⟩, documentDatas := [],
    symbolDatas := [("s", some c2symCleared)], clearOnNode := [] }

/-- A live symbol scoped to the non-source-file node `other 5` with no
partitions yet. -/
def c3sym : SymbolSt := ⟨5, some (.other 5), .standard, none, none, .undef⟩

/-- Document data for `a.ts` over document vertex 9. -/
def c3dd : DocumentSt := ⟨9, none, false, [], none, none, none⟩

/-- A manager state with document `a.ts` live and symbol `s` as
`c3sym`. -/
def c3dm : DM :=
  { emit := ⟨10, []⟩, projectData := ⟨0, [], []⟩,
    documentDatas := [("a.ts", some c3dd)],
    symbolDatas := [("s", some c3sym)], clearOnNode := [] }

/-- `c3dm` after `getOrCreatePartition c3dm "s" "a.ts"`. -/
def c3dm' : DM :=
  { emit := ⟨10, []⟩, projectData := ⟨0, [], []⟩,
    documentDatas := [("a.ts", some c3dd)],
    symbolDatas :=
      [("s", some ⟨5, some (.other 5), .standard, none, none,
        .live [("a.ts", some (PartitionSt.fresh 9))]⟩)],
    clearOnNode := [(.sourceFile "a.ts", ["s"])] }

/-- `c3dm` without any document data. -/
def c3dmNoDoc : DM :=
  { emit := ⟨10, []⟩, projectData := ⟨0, [], []⟩, documentDatas := [],
    symbolDatas := [("s", some c3sym)], clearOnNode := [] }

/-- A small oracle: symbol 2 is a class with base 1; symbol 1 has a
members table containing `m` (symbol 5) and nothing else. -/
def c6oracle : Oracle :=
  { kind := fun s => if s = 2 then .classK else .otherK,
    interfaceBases := fun _ => none,
    classBases := fun s => if s = 2 then some [1] else none,
    hasMembers := fun s => s == 1,
    member := fun s n => if s = 1 ∧ n = "m" then some 5 else none }

/-- Empty caches. -/
def c6st : SymbolsSt := ⟨[], []⟩

/-- A manager state with an empty project `contains` buffer. -/
def c4dm : DM :=
  { emit := ⟨1, []⟩, projectData := ⟨0, [], []⟩, documentDatas := [],
    symbolDatas := [], clearOnNode := [] }

/-- In state `dm`, base symbol `b` has a live partition for file `f`
whose `definitions` reference bucket contains the range id `rid`. -/
def baseHasDefRange (dm : DM) (b f : String) (rid : Nat) : Prop :=
  ∃ t m' p' l, alGet dm.symbolDatas b = some (some t) ∧
    t.partitions = .live m' ∧ alGet m' f = some (some p') ∧
    alGet (p'.referenceRanges.getD []) .definitions = some l ∧ rid ∈ l

/-- A standard base symbol with no partitions yet. -/
def c5base : SymbolSt := ⟨6, none, .standard, none, none, .undef⟩

/-- A method symbol with the single base `b`. -/
def c5m : SymbolSt := ⟨5, none, .method (some ["b"]), none, none, .undef⟩

/-- A manager state holding the method symbol `m`, its base `b` and the
document `a.ts` (vertex 9). -/
def c5dm : DM :=
  { emit := ⟨10, []⟩, projectData := ⟨0, [], []⟩,
    documentDatas := [("a.ts", some ⟨9, none, false, [], none, none, none⟩)],
    symbolDatas := [("m", some c5m), ("b", some c5base)], clearOnNode := [] }

/-- The state after `symAddDefinition c5dm "m" "a.ts" 42`. -/
def c5dmF : DM :=
  { emit := ⟨11, [.edge 10 .next 42 [5] none none]⟩,
    projectData := ⟨0, [], []⟩,
    documentDatas := [("a.ts", some ⟨9, none, false, [], none, none, none⟩)],
    symbolDatas :=
      [("m", some ⟨5, none, .method (some ["b"]), none, none,
        .live [("a.ts", some ⟨9, some [42], none, none⟩)]⟩),
       ("b", some ⟨6, none, .standard, none, none,
        .live [("a.ts", some ⟨9, none, some [(.definitions, [42])], none⟩)]⟩)],
    clearOnNode := [(.sourceFile "a.ts", ["m", "b"])] }

/-! ## Lemmas and theorems -/

theorem alGet_alSet_self {κ α : Type} [DecidableEq κ] (l : List (κ × α)) (k : κ) (v : α) :
    alGet (alSet l k v) k = some v := by
  induction l with
  | nil => simp [alGet, alSet]
  | cons hd tl ih =>
    obtain ⟨k', v'⟩ := hd
    by_cases h : k' = k <;> simp [alGet, alSet, h, ih]

theorem alGet_alSet_ne {κ α : Type} [DecidableEq κ] (l : List (κ × α)) (k k' : κ) (v : α)
    (h : k ≠ k') : alGet (alSet l k v) k' = alGet l k' := by
  induction l with
  | nil => simp [alGet, alSet, h]
  | cons hd tl ih =>
    obtain ⟨k₀, v₀⟩ := hd
    by_cases h₀ : k₀ = k
    · subst h₀; simp [alGet, alSet, h]
    · simp only [alSet, if_neg h₀, alGet]
      by_cases h₁ : k₀ = k' <;> simp [h₁, ih]

theorem mem_alSet {κ α : Type} [DecidableEq κ] {l : List (κ × α)} {k : κ} {v : α}
    {x : κ × α} (h : x ∈ alSet l k v) : x ∈ l ∨ x = (k, v) := by
  induction l with
  | nil => simp [alSet] at h; right; exact h
  | cons hd tl ih =>
    obtain ⟨k', v'⟩ := hd
    by_cases h' : k' = k
    · simp only [alSet, if_pos h', List.mem_cons] at h
      rcases h with h | h
      · right; exact h
      · left; exact List.mem_cons_of_mem _ h
    · simp only [alSet, if_neg h', List.mem_cons] at h
      rcases h with h | h
      · left; simp [h]
      · rcases ih h with h | h
        · left; exact List.mem_cons_of_mem _ h
        · right; exact h

theorem mem_alRemove {κ α : Type} [DecidableEq κ] {l : List (κ × α)} {k : κ}
    {x : κ × α} (h : x ∈ alRemove l k) : x ∈ l := by
  induction l with
  | nil => simp [alRemove] at h
  | cons hd tl ih =>
    obtain ⟨k', v'⟩ := hd
    by_cases h' : k' = k
    · simp only [alRemove, if_pos h'] at h
      exact List.mem_cons_of_mem _ h
    · simp only [alRemove, if_neg h', List.mem_cons] at h
      rcases h with h | h
      · simp [h]
      · exact List.mem_cons_of_mem _ (ih h)

theorem alGet_mem {κ α : Type} [DecidableEq κ] {l : List (κ × α)} {k : κ} {v : α}
    (h : alGet l k = some v) : (k, v) ∈ l := by
  induction l with
  | nil => simp [alGet] at h
  | cons hd tl ih =>
    obtain ⟨k', v'⟩ := hd
    by_cases h' : k' = k
    · subst h'
      simp only [alGet, if_true] at h
      simp_all
    · simp only [alGet, if_neg h'] at h
      exact List.mem_cons_of_mem _ (ih h)

/-! ### C9 -/

/-- C9: `SymbolDataPartition.addReference` with a `range`-labelled value
but no property tag matches neither branch of the dispatch, so the
partition state — reference-range buckets, forwarded reference results
and definition ranges alike — is completely unchanged, nothing is
emitted (the partition itself never emits on `addReference`), and a
subsequent `end` produces exactly the output it would have produced
without the call. -/
theorem partition_addReference_range_no_property_noop (p : PartitionSt) (i : Nat) :
    partitionAddReference p (.rangeV i) none = p ∧
    ∀ (dm : DM) (symId : String),
      partitionEnd dm symId (partitionAddReference p (.rangeV i) none) =
        partitionEnd dm symId p := by
  refine ⟨rfl, fun dm symId => rfl⟩

/-! ### C8 -/

theorem toList_recordDefinitionInfo (d : DeclarationInfo) (i : DefinitionInfo) :
    (recordDefinitionInfo d i).toList = d.toList ++ [i] := by
  cases d <;> rfl

theorem hasDefinitionInfo_iff_mem_toList (d : DeclarationInfo) (j : DefinitionInfo) :
    hasDefinitionInfo d j = true ↔ j ∈ d.toList := by
  cases d with
  | undef => simp [hasDefinitionInfo, DeclarationInfo.toList]
  | single i =>
    simp only [hasDefinitionInfo, DeclarationInfo.toList, List.mem_singleton,
      decide_eq_true_eq]
    exact eq_comm
  | many l =>
    simp only [hasDefinitionInfo, DeclarationInfo.toList]
    exact List.elem_iff

theorem toList_foldl_recordDefinitionInfo (infos : List DefinitionInfo)
    (d : DeclarationInfo) :
    (infos.foldl recordDefinitionInfo d).toList = d.toList ++ infos := by
  induction infos generalizing d with
  | nil => simp
  | cons i rest ih =>
    simp only [List.foldl_cons, ih, toList_recordDefinitionInfo, List.append_assoc,
      List.singleton_append]

/-- C8: after recording the infos `i1..in` (starting from the fresh
`undefined` state), `hasDefinitionInfo j` returns `true` exactly when `j`
equals one of the recorded infos under `DefinitionInfo` equality; in
particular it returns `false` when nothing was recorded. -/
theorem hasDefinitionInfo_foldl_iff (infos : List DefinitionInfo) (j : DefinitionInfo) :
    hasDefinitionInfo (infos.foldl recordDefinitionInfo .undef) j = true ↔ j ∈ infos := by
  rw [hasDefinitionInfo_iff_mem_toList, toList_foldl_recordDefinitionInfo]
  simp [DeclarationInfo.toList]

/-! ### C7 -/

theorem nmUpRev_iff_mem (l : List String) :
    nmUpRev l = true ↔ "node_modules" ∈ l := by
  induction l with
  | nil => simp [nmUpRev]
  | cons c rest ih =>
    by_cases h : c = "node_modules" <;> simp [nmUpRev, h, ih, eq_comm]

theorem nmUp_iff_mem (l : List String) : nmUp l = true ↔ "node_modules" ∈ l := by
  rw [nmUp, nmUpRev_iff_mem, List.mem_reverse]

/-- C7: `isFullContentIgnored` returns `true` exactly when the file is a
declaration file, or it has extension `.js`, its base name is not the
literal `index.js`, and some ancestor directory component of its path is
named `node_modules` (the do-while loop over `dirname` visits exactly the
directory components of the path). -/
theorem isFullContentIgnored_characterization (f : SrcFile) :
    isFullContentIgnored f = ignoredSpec f := by
  have hnm : nmUp f.comps.dropLast = f.comps.dropLast.contains "node_modules" := by
    rw [Bool.eq_iff_iff, nmUp_iff_mem]
    exact List.elem_iff.symm
  unfold isFullContentIgnored ignoredSpec pathDirname
  by_cases hd : f.isDeclarationFile
  · simp [hd]
  · by_cases hb : pathBasename f.comps = "index.js"
    · simp [hd, hb]
    · by_cases he : posixExtname (pathBasename f.comps) = ".js"
      · simp [hd, hb, he, hnm]
      · simp [hd, hb, he]

/-! ### C10 -/

theorem projAddDocument_documentDatas (dm : DM) (i : Nat) :
    (projAddDocument dm i).documentDatas = dm.documentDatas := by
  simp only [projAddDocument, dmEmitEdge]
  split <;> rfl

/-- C10: `DataManager.getOrCreateDocumentData` is idempotent per file
name: if a call returns `(dd1, dm1)` (in particular the document was not
yet processed — the tombstone case throws), a second call with the same
file name, whatever document vertex and moniker data it supplies,
returns exactly the data of the first call and leaves the state
untouched — so nothing is emitted and the project's `contains` buffer
is not extended a second time. -/
theorem dmGetOrCreateDocumentData_idempotent
    (dm : DM) (f : String) (docId : Nat) (mp : Option String) (ext : Bool)
    (dd1 : DocumentSt) (dm1 : DM) (docId' : Nat) (mp' : Option String) (ext' : Bool)
    (h : dmGetOrCreateDocumentData dm f docId mp ext = .ok (dd1, dm1)) :
    dmGetOrCreateDocumentData dm1 f docId' mp' ext' = .ok (dd1, dm1) := by
  cases halg : alGet dm.documentDatas f with
  | none =>
    have heval : dmGetOrCreateDocumentData dm f docId mp ext =
        .ok (⟨docId, mp, ext, [], none, none, none⟩,
          projAddDocument
            (dmEmitVertex
              { dm with
                  documentDatas :=
                    alSet dm.documentDatas f (some ⟨docId, mp, ext, [], none, none, none⟩),
                  emit := emitExisting dm.emit (Element.vertex docId .document) }
              (.event true docId)).2 docId) := by
      unfold dmGetOrCreateDocumentData dmGetDocumentData
      rw [halg]
      rfl
    rw [heval] at h
    simp only [Except.ok.injEq, Prod.mk.injEq] at h
    obtain ⟨hdd, hdm⟩ := h
    have hkey : alGet dm1.documentDatas f = some (some dd1) := by
      rw [← hdm, projAddDocument_documentDatas]
      simp only [dmEmitVertex]
      rw [← hdd]
      exact alGet_alSet_self _ _ _
    unfold dmGetOrCreateDocumentData dmGetDocumentData
    rw [hkey]
    rfl
  | some slot =>
    cases slot with
    | none =>
      have heval : dmGetOrCreateDocumentData dm f docId mp ext =
          .error .docAlreadyManaged := by
        unfold dmGetOrCreateDocumentData dmGetDocumentData
        rw [halg]
        rfl
      rw [heval] at h
      exact Except.noConfusion h
    | some dd =>
      have heval : dmGetOrCreateDocumentData dm f docId mp ext = .ok (dd, dm) := by
        unfold dmGetOrCreateDocumentData dmGetDocumentData
        rw [halg]
        rfl
      rw [heval] at h
      simp only [Except.ok.injEq, Prod.mk.injEq] at h
      obtain ⟨hdd, hdm⟩ := h
      subst hdm
      have heval2 : dmGetOrCreateDocumentData dm f docId' mp' ext' = .ok (dd, dm) := by
        unfold dmGetOrCreateDocumentData dmGetDocumentData
        rw [halg]
        rfl
      rw [heval2, hdd]

/-- Witness for C10 at a concrete input. -/
theorem dmGetOrCreateDocumentData_idempotent_witness :
    dmGetOrCreateDocumentData c10dm "a.ts" 7 (some "p") true = .ok (c10dd, c10dm) :=
  dmGetOrCreateDocumentData_idempotent initDM "a.ts" 100 none false c10dd c10dm
    7 (some "p") true (by rfl)

/-! ### Frame lemmas -/

@[simp] theorem dmEmitEdge_symbolDatas (dm : DM) (l : EdgeLabel) (o : Nat) (i : List Nat)
    (d : Option Nat) (pr : Option RefProp) :
    (dmEmitEdge dm l o i d pr).symbolDatas = dm.symbolDatas := rfl

@[simp] theorem dmEmitVertex_symbolDatas (dm : DM) (l : VertexLabel) :
    (dmEmitVertex dm l).2.symbolDatas = dm.symbolDatas := rfl

@[simp] theorem updateSym_symbolDatas (dm : DM) (symId : String) (s : SymbolSt) :
    (updateSym dm symId s).symbolDatas = alSet dm.symbolDatas symId (some s) := rfl

theorem foldl_dmEmitEdge_symbolDatas (l : List (RefProp × List Nat)) (dm : DM)
    (rr : Nat) (doc : Option Nat) :
    (l.foldl (fun dm b => dmEmitEdge dm .item rr b.2 doc (some b.1)) dm).symbolDatas =
      dm.symbolDatas := by
  induction l generalizing dm with
  | nil => rfl
  | cons b rest ih => simp [List.foldl_cons, ih]

theorem bindOk {α β : Type} (a : α) (f : α → Except Err β) :
    ((Except.ok a : Except Err α) >>= f) = f a := rfl

theorem bindErr {α β : Type} (e : Err) (f : α → Except Err β) :
    ((Except.error e : Except Err α) >>= f) = Except.error e := rfl

theorem bindPure {α : Type} (e : Except Err α) : (e >>= pure) = e := by
  cases e <;> rfl

theorem getLiveSym_fail_none {dm : DM} {symId : String}
    (h : alGet dm.symbolDatas symId = none) : getLiveSym dm symId = .error .noSymbol := by
  unfold getLiveSym
  rw [h]
  rfl

theorem getLiveSym_fail_dead {dm : DM} {symId : String}
    (h : alGet dm.symbolDatas symId = some none) :
    getLiveSym dm symId = .error .noSymbol := by
  unfold getLiveSym
  rw [h]
  rfl

theorem dmGetDocumentData_eq_none {dm : DM} {f : String}
    (h : alGet dm.documentDatas f = none) : dmGetDocumentData dm f = .ok none := by
  unfold dmGetDocumentData
  rw [h]
  rfl

theorem dmGetDocumentData_eq_live {dm : DM} {f : String} {dd : DocumentSt}
    (h : alGet dm.documentDatas f = some (some dd)) :
    dmGetDocumentData dm f = .ok (some dd) := by
  unfold dmGetDocumentData
  rw [h]
  rfl

theorem dmGetDocumentData_eq_dead {dm : DM} {f : String}
    (h : alGet dm.documentDatas f = some none) :
    dmGetDocumentData dm f = .error .docAlreadyManaged := by
  unfold dmGetDocumentData
  rw [h]
  rfl

theorem getLiveSym_eq {dm : DM} {symId : String} {s : SymbolSt}
    (h : alGet dm.symbolDatas symId = some (some s)) : getLiveSym dm symId = .ok s := by
  unfold getLiveSym
  rw [h]
  rfl

/-- `getOrCreateDefinitionResult` succeeds on a live symbol and only
touches the symbol's `definitionResult` field (and the emitter). -/
theorem getOrCreateDefinitionResult_live {dm : DM} {symId : String} {s : SymbolSt}
    (hs : alGet dm.symbolDatas symId = some (some s)) :
    ∃ i dm' s', getOrCreateDefinitionResult dm symId = .ok (i, dm') ∧
      alGet dm'.symbolDatas symId = some (some s') ∧
      s'.partitions = s.partitions ∧ s'.scope = s.scope ∧ s'.variant = s.variant ∧
      s'.referenceResult = s.referenceResult := by
  unfold getOrCreateDefinitionResult
  rw [getLiveSym_eq hs]
  simp only [bindOk]
  cases hd : s.definitionResult with
  | some i => exact ⟨i, dm, s, rfl, hs, rfl, rfl, rfl, rfl⟩
  | none =>
    refine ⟨(dmEmitVertex dm .definitionResult).1, _,
      { s with definitionResult := some (dmEmitVertex dm .definitionResult).1 },
      rfl, ?_, rfl, rfl, rfl, rfl⟩
    simp [alGet_alSet_self]

/-- `getOrCreateReferenceResult` succeeds on a live symbol and only
touches the symbol's `referenceResult` field (and the emitter). -/
theorem getOrCreateReferenceResult_live {dm : DM} {symId : String} {s : SymbolSt}
    (hs : alGet dm.symbolDatas symId = some (some s)) :
    ∃ i dm' s', getOrCreateReferenceResult dm symId = .ok (i, dm') ∧
      alGet dm'.symbolDatas symId = some (some s') ∧
      s'.partitions = s.partitions ∧ s'.scope = s.scope ∧ s'.variant = s.variant ∧
      s'.definitionResult = s.definitionResult := by
  unfold getOrCreateReferenceResult
  rw [getLiveSym_eq hs]
  simp only [bindOk]
  cases hd : s.referenceResult with
  | some i => exact ⟨i, dm, s, rfl, hs, rfl, rfl, rfl, rfl⟩
  | none =>
    refine ⟨(dmEmitVertex dm .referenceResult).1, _,
      { s with referenceResult := some (dmEmitVertex dm .referenceResult).1 },
      rfl, ?_, rfl, rfl, rfl, rfl⟩
    simp [alGet_alSet_self]

/-- `partitionEndDefs` succeeds on a live symbol, and the symbol stays
live with its partitions, scope and variant untouched. -/
theorem partitionEndDefs_live {dm : DM} {symId : String} {s : SymbolSt} (p : PartitionSt)
    (hs : alGet dm.symbolDatas symId = some (some s)) :
    ∃ dm' s', partitionEndDefs dm symId p = .ok dm' ∧
      alGet dm'.symbolDatas symId = some (some s') ∧
      s'.partitions = s.partitions ∧ s'.scope = s.scope ∧ s'.variant = s.variant := by
  unfold partitionEndDefs
  cases hdr : p.definitionRanges with
  | none => exact ⟨dm, s, rfl, hs, rfl, rfl, rfl⟩
  | some ranges =>
    obtain ⟨i₁, dm₁, s₁, he₁, hs₁, hp₁, hsc₁, hv₁, _⟩ := getOrCreateDefinitionResult_live hs
    dsimp only
    rw [he₁, bindOk]
    exact ⟨_, s₁, rfl, hs₁, hp₁, hsc₁, hv₁⟩

/-- `partitionEndRefs` succeeds on a live symbol, and the symbol stays
live with its partitions, scope and variant untouched. -/
theorem partitionEndRefs_live {dm : DM} {symId : String} {s : SymbolSt} (p : PartitionSt)
    (hs : alGet dm.symbolDatas symId = some (some s)) :
    ∃ dm' s', partitionEndRefs dm symId p = .ok dm' ∧
      alGet dm'.symbolDatas symId = some (some s') ∧
      s'.partitions = s.partitions ∧ s'.scope = s.scope ∧ s'.variant = s.variant := by
  unfold partitionEndRefs
  cases hrr : p.referenceRanges with
  | none => exact ⟨dm, s, rfl, hs, rfl, rfl, rfl⟩
  | some buckets =>
    obtain ⟨i₂, dm₂, s₂, he₂, hs₂, hp₂, hsc₂, hv₂, _⟩ := getOrCreateReferenceResult_live hs
    dsimp only
    rw [he₂, bindOk]
    refine ⟨_, s₂, rfl, ?_, hp₂, hsc₂, hv₂⟩
    rw [foldl_dmEmitEdge_symbolDatas]
    exact hs₂

/-- `partitionEndRRs` succeeds on a live symbol, and the symbol stays
live with its partitions, scope and variant untouched. -/
theorem partitionEndRRs_live {dm : DM} {symId : String} {s : SymbolSt} (p : PartitionSt)
    (hs : alGet dm.symbolDatas symId = some (some s)) :
    ∃ dm' s', partitionEndRRs dm symId p = .ok dm' ∧
      alGet dm'.symbolDatas symId = some (some s') ∧
      s'.partitions = s.partitions ∧ s'.scope = s.scope ∧ s'.variant = s.variant := by
  unfold partitionEndRRs
  cases hrs : p.referenceResults with
  | none => exact ⟨dm, s, rfl, hs, rfl, rfl, rfl⟩
  | some rrs =>
    obtain ⟨i₃, dm₃, s₃, he₃, hs₃, hp₃, hsc₃, hv₃, _⟩ := getOrCreateReferenceResult_live hs
    dsimp only
    rw [he₃, bindOk]
    exact ⟨_, s₃, rfl, hs₃, hp₃, hsc₃, hv₃⟩

/-- `partitionEnd` succeeds on a live symbol, and the symbol stays live
with its partitions, scope and variant untouched. -/
theorem partitionEnd_live {dm : DM} {symId : String} {s : SymbolSt} (p : PartitionSt)
    (hs : alGet dm.symbolDatas symId = some (some s)) :
    ∃ dm' s', partitionEnd dm symId p = .ok dm' ∧
      alGet dm'.symbolDatas symId = some (some s') ∧
      s'.partitions = s.partitions ∧ s'.scope = s.scope ∧ s'.variant = s.variant := by
  obtain ⟨dm₁, s₁, he₁, hs₁, hp₁, hsc₁, hv₁⟩ := partitionEndDefs_live p hs
  obtain ⟨dm₂, s₂, he₂, hs₂, hp₂, hsc₂, hv₂⟩ := partitionEndRefs_live p hs₁
  obtain ⟨dm₃, s₃, he₃, hs₃, hp₃, hsc₃, hv₃⟩ := partitionEndRRs_live p hs₂
  refine ⟨dm₃, s₃, ?_, hs₃, by rw [hp₃, hp₂, hp₁], by rw [hsc₃, hsc₂, hsc₁],
    by rw [hv₃, hv₂, hv₁]⟩
  unfold partitionEnd
  rw [he₁, bindOk, he₂, bindOk, he₃]

/-! ### C2 -/

/-- C2: `StandardSymbolData.nodeProcessed` on a live symbol: (1) when the
node is the recorded scope and the single partition is live, the
partition is flushed, the partition map transitions to the cleared
state, and the call returns `true`; (2) when the node is a source-file
node other than the scope whose partition is live, that partition is
flushed, its slot becomes a tombstone, and the call returns `false`;
(3) a node that is neither the scope nor a source file raises; (4) a
call after the symbol's partitions have been cleared raises. -/
theorem nodeProcessed_spec (dm : DM) (symId : String) (node : TNode) (s : SymbolSt)
    (hs : alGet dm.symbolDatas symId = some (some s)) :
    (∀ f p, s.partitions = .live [(f, some p)] → some node = s.scope →
      ∃ dm' t, partitionEnd dm symId p = .ok dm' ∧
        symNodeProcessed dm symId node = .ok (true, clearPartitions dm' symId) ∧
        alGet (clearPartitions dm' symId).symbolDatas symId = some (some t) ∧
        t.partitions = .cleared) ∧
    (∀ m fileName p, s.partitions = .live m → node = .sourceFile fileName →
      some node ≠ s.scope → alGet m fileName = some (some p) →
      ∃ dm' t m', partitionEnd dm symId p = .ok dm' ∧
        symNodeProcessed dm symId node =
          .ok (false, setPartitionSlot dm' symId fileName none) ∧
        alGet (setPartitionSlot dm' symId fileName none).symbolDatas symId =
          some (some t) ∧
        t.partitions = .live m' ∧ alGet m' fileName = some none) ∧
    (∀ m ident, s.partitions = .live m → node = .other ident → some node ≠ s.scope →
      symNodeProcessed dm symId node = .error .badNode) ∧
    (s.partitions = .cleared →
      symNodeProcessed dm symId node = .error .partitionsCleared) := by
  refine ⟨?_, ?_, ?_, ?_⟩
  · intro f p hpart hscope
    obtain ⟨dm', s', hpe, hs', hp', _, _⟩ := partitionEnd_live p hs
    refine ⟨dm', { s' with partitions := .cleared }, hpe, ?_, ?_, rfl⟩
    · unfold symNodeProcessed
      rw [getLiveSym_eq hs]
      dsimp only [bindOk]
      rw [hpart]
      dsimp only
      rw [if_pos hscope]
      rw [hpe]
      rfl
    · unfold clearPartitions
      rw [hs']
      simp [alGet_alSet_self]
  · intro m fileName p hpart hnode hscope hslot
    obtain ⟨dm', s', hpe, hs', hp', _, _⟩ := partitionEnd_live p hs
    refine ⟨dm', { s' with partitions := .live (alSet m fileName none) },
      alSet m fileName none, hpe, ?_, ?_, rfl, alGet_alSet_self _ _ _⟩
    · unfold symNodeProcessed
      rw [getLiveSym_eq hs]
      dsimp only [bindOk]
      rw [hpart]
      dsimp only
      rw [if_neg (by exact fun h => hscope h), hnode]
      dsimp only
      rw [hslot]
      dsimp only
      rw [hpe]
      rfl
    · unfold setPartitionSlot
      rw [hs']
      dsimp only
      rw [hp', hpart]
      simp [alGet_alSet_self, updateSym]
  · intro m ident hpart hnode hscope
    unfold symNodeProcessed
    rw [getLiveSym_eq hs]
    dsimp only [bindOk]
    rw [hpart]
    dsimp only
    rw [if_neg (by exact fun h => hscope h), hnode]
    rfl
  · intro hpart
    unfold symNodeProcessed
    rw [getLiveSym_eq hs]
    dsimp only [bindOk]
    rw [hpart]
    rfl

/-! ### C3 -/

/-- C3 counterexample: when a new partition is constructed,
`getOrCreatePartition` registers the partition's source-file node with
the clear-on-node map, not the symbol's scope node: here the scope is
the non-source-file node `other 5`, the call succeeds, and afterwards
the clear-on-node map has no entry for the scope node while the
source-file node of the file argument carries the registration. -/
theorem getOrCreatePartition_registers_file_not_scope :
    getOrCreatePartition c3dm "s" "a.ts" = .ok (PartitionSt.fresh 9, c3dm') ∧
    c3sym.scope = some (.other 5) ∧
    alGet c3dm'.clearOnNode (TNode.other 5) = none ∧
    alGet c3dm'.clearOnNode (TNode.sourceFile "a.ts") = some ["s"] :=
  ⟨rfl, rfl, rfl, rfl⟩

/-- Core of the amended C3 statement, on the live map `m`. -/
theorem getOrCreatePartitionCore_amended (dm : DM) (symId fileName : String)
    (s : SymbolSt) (m : List (String × Option PartitionSt))
    (hslot : alGet m fileName = none) :
    (∀ dd, alGet dm.documentDatas fileName = some (some dd) →
      ∃ p dm', getOrCreatePartitionCore dm symId fileName s m = .ok (p, dm') ∧
        p = PartitionSt.fresh dd.document ∧
        alGet dm'.clearOnNode (.sourceFile fileName) =
          some ((alGet dm.clearOnNode (.sourceFile fileName)).getD [] ++ [symId]) ∧
        ∃ t, alGet dm'.symbolDatas symId = some (some t) ∧
          t.partitions = .live (alSet m fileName (some (PartitionSt.fresh dd.document)))) ∧
    (alGet dm.documentDatas fileName = none →
      getOrCreatePartitionCore dm symId fileName s m = .error .noDocumentData) := by
  constructor
  · intro dd hdd
    unfold getOrCreatePartitionCore
    rw [hslot]
    dsimp only
    unfold dmGetDocumentData
    rw [hdd]
    dsimp only [bindOk]
    refine ⟨PartitionSt.fresh dd.document, _, rfl, rfl, ?_, ?_⟩
    · simp [manageLifeCycle, updateSym, alGet_alSet_self]
    · refine ⟨{ s with partitions := Partitions.live (alSet m fileName (some (PartitionSt.fresh dd.document))) }, ?_, rfl⟩
      simp [manageLifeCycle, updateSym, alGet_alSet_self]
  · intro habs
    unfold getOrCreatePartitionCore
    rw [hslot]
    dsimp only
    unfold dmGetDocumentData
    rw [habs]
    rfl

/-- C3 amended: whenever `getOrCreatePartition(file)` constructs a new
partition, it registers the partition's source-file node (not the
symbol's scope node) with the DataManager's clear-on-node map, then
calls the partition's `begin` (a no-op) and stores the slot; it throws
if no DocumentData for that file is present. -/
theorem getOrCreatePartition_amended (dm : DM) (symId fileName : String) (s : SymbolSt)
    (m : List (String × Option PartitionSt))
    (hs : alGet dm.symbolDatas symId = some (some s))
    (hm : livePartMap s.partitions = some m)
    (hslot : alGet m fileName = none) :
    (∀ dd, alGet dm.documentDatas fileName = some (some dd) →
      ∃ p dm', getOrCreatePartition dm symId fileName = .ok (p, dm') ∧
        p = PartitionSt.fresh dd.document ∧
        alGet dm'.clearOnNode (.sourceFile fileName) =
          some ((alGet dm.clearOnNode (.sourceFile fileName)).getD [] ++ [symId]) ∧
        ∃ t, alGet dm'.symbolDatas symId = some (some t) ∧
          t.partitions = .live (alSet m fileName (some (PartitionSt.fresh dd.document)))) ∧
    (alGet dm.documentDatas fileName = none →
      getOrCreatePartition dm symId fileName = .error .noDocumentData) := by
  have hcall : getOrCreatePartition dm symId fileName =
      getOrCreatePartitionCore dm symId fileName s m := by
    unfold getOrCreatePartition
    rw [getLiveSym_eq hs]
    dsimp only [bindOk]
    cases hp : s.partitions with
    | undef =>
      rw [hp] at hm
      simp only [livePartMap, Option.some_inj] at hm
      rw [← hm]
    | cleared => rw [hp] at hm; simp [livePartMap] at hm
    | live m₀ =>
      rw [hp] at hm
      simp only [livePartMap, Option.some_inj] at hm
      rw [hm]
  rw [hcall]
  exact getOrCreatePartitionCore_amended dm symId fileName s m hslot

/-- Witness for the amended C3 at concrete inputs: both the successful
construction (with its registration) and the missing-document throw. -/
theorem getOrCreatePartition_amended_witness :
    (∃ p dm', getOrCreatePartition c3dm "s" "a.ts" = .ok (p, dm') ∧
      p = PartitionSt.fresh c3dd.document ∧
      alGet dm'.clearOnNode (.sourceFile "a.ts") = some ["s"] ∧
      ∃ t, alGet dm'.symbolDatas "s" = some (some t) ∧
        t.partitions = .live (alSet [] "a.ts" (some (PartitionSt.fresh c3dd.document)))) ∧
    getOrCreatePartition c3dmNoDoc "s" "a.ts" = .error .noDocumentData :=
  ⟨(getOrCreatePartition_amended c3dm "s" "a.ts" c3sym [] rfl rfl rfl).1 c3dd rfl,
    (getOrCreatePartition_amended c3dmNoDoc "s" "a.ts" c3sym [] rfl rfl rfl).2 rfl⟩

/-! ### C5 -/

theorem setPartitionSlot_symbolDatas (dm : DM) (symId f : String)
    (slot : Option PartitionSt) :
    (setPartitionSlot dm symId f slot).symbolDatas = dm.symbolDatas ∨
    ∃ s', (setPartitionSlot dm symId f slot).symbolDatas =
      alSet dm.symbolDatas symId (some s') := by
  unfold setPartitionSlot
  cases hg : alGet dm.symbolDatas symId with
  | none => left; rfl
  | some sl =>
    cases sl with
    | none => left; rfl
    | some s =>
      dsimp only
      cases hp : s.partitions with
      | undef => left; rfl
      | cleared => left; rfl
      | live m => right; exact ⟨_, rfl⟩

/-- Computation of `setPartitionSlot` on a live symbol with a live
partition map. -/
theorem setPartitionSlot_eq {dm : DM} {symId : String} {s : SymbolSt}
    {m : List (String × Option PartitionSt)} (f : String) (slot : Option PartitionSt)
    (hs : alGet dm.symbolDatas symId = some (some s)) (hp : s.partitions = .live m) :
    setPartitionSlot dm symId f slot =
      updateSym dm symId { s with partitions := .live (alSet m f slot) } := by
  unfold setPartitionSlot
  rw [hs]
  dsimp only
  rw [hp]

theorem getOrCreatePartitionCore_symbolDatas {dm : DM} {symId fileName : String}
    {s : SymbolSt} {m : List (String × Option PartitionSt)} {p : PartitionSt} {dm' : DM}
    (h : getOrCreatePartitionCore dm symId fileName s m = .ok (p, dm')) :
    dm'.symbolDatas = dm.symbolDatas ∨
    ∃ s', dm'.symbolDatas = alSet dm.symbolDatas symId (some s') := by
  unfold getOrCreatePartitionCore at h
  cases hsl : alGet m fileName with
  | some slot =>
    cases slot with
    | none => rw [hsl] at h; exact Except.noConfusion h
    | some p₀ =>
      rw [hsl] at h
      try dsimp only at h
      have hpair := Except.ok.inj h
      injection hpair with h1 h2
      left; rw [← h2]
  | none =>
    rw [hsl] at h
    dsimp only at h
    cases hdd : alGet dm.documentDatas fileName with
    | none =>
      rw [dmGetDocumentData_eq_none hdd, bindOk] at h
      exact Except.noConfusion h
    | some ddsl =>
      cases ddsl with
      | none =>
        rw [dmGetDocumentData_eq_dead hdd, bindErr] at h
        exact Except.noConfusion h
      | some dd =>
        rw [dmGetDocumentData_eq_live hdd, bindOk] at h
        try dsimp only at h
        have hpair := Except.ok.inj h
        injection hpair with h1 h2
        right
        refine ⟨{ s with partitions := Partitions.live (alSet m fileName (some (PartitionSt.fresh dd.document))) }, ?_⟩
        rw [← h2]
        rfl

theorem getOrCreatePartition_symbolDatas {dm : DM} {symId fileName : String}
    {p : PartitionSt} {dm' : DM}
    (h : getOrCreatePartition dm symId fileName = .ok (p, dm')) :
    dm'.symbolDatas = dm.symbolDatas ∨
    ∃ s', dm'.symbolDatas = alSet dm.symbolDatas symId (some s') := by
  unfold getOrCreatePartition at h
  cases hg : alGet dm.symbolDatas symId with
  | none =>
    rw [getLiveSym_fail_none hg, bindErr] at h
    exact Except.noConfusion h
  | some sl =>
    cases sl with
    | none =>
      rw [getLiveSym_fail_dead hg, bindErr] at h
      exact Except.noConfusion h
    | some s =>
      rw [getLiveSym_eq hg, bindOk] at h
      try dsimp only at h
      cases hp : s.partitions with
      | cleared => rw [hp] at h; exact Except.noConfusion h
      | undef => rw [hp] at h; exact getOrCreatePartitionCore_symbolDatas h
      | live m => rw [hp] at h; exact getOrCreatePartitionCore_symbolDatas h

theorem getOrCreatePartitionCore_post {dm : DM} {symId fileName : String}
    {s : SymbolSt} {m : List (String × Option PartitionSt)} {p : PartitionSt} {dm' : DM}
    (hs : alGet dm.symbolDatas symId = some (some s))
    (hp : s.partitions = .live m ∨ m = [])
    (h : getOrCreatePartitionCore dm symId fileName s m = .ok (p, dm')) :
    ∃ s' m', alGet dm'.symbolDatas symId = some (some s') ∧
      s'.partitions = .live m' ∧ alGet m' fileName = some (some p) := by
  unfold getOrCreatePartitionCore at h
  cases hsl : alGet m fileName with
  | some slot =>
    cases slot with
    | none => rw [hsl] at h; exact Except.noConfusion h
    | some p₀ =>
      rw [hsl] at h
      try dsimp only at h
      have hpair := Except.ok.inj h
      injection hpair with hpp hdm
      rcases hp with hp | rfl
      · refine ⟨s, m, ?_, hp, ?_⟩
        · rw [← hdm]; exact hs
        · rw [← hpp]; exact hsl
      · simp [alGet] at hsl
  | none =>
    rw [hsl] at h
    dsimp only at h
    cases hdd : alGet dm.documentDatas fileName with
    | none =>
      rw [dmGetDocumentData_eq_none hdd, bindOk] at h
      exact Except.noConfusion h
    | some ddsl =>
      cases ddsl with
      | none =>
        rw [dmGetDocumentData_eq_dead hdd, bindErr] at h
        exact Except.noConfusion h
      | some dd =>
        rw [dmGetDocumentData_eq_live hdd, bindOk] at h
        try dsimp only at h
        have hpair := Except.ok.inj h
        injection hpair with hpp hdm
        refine ⟨{ s with partitions := .live (alSet m fileName (some (PartitionSt.fresh dd.document))) },
          alSet m fileName (some (PartitionSt.fresh dd.document)), ?_, rfl, ?_⟩
        · rw [← hdm]
          simp [manageLifeCycle, updateSym, alGet_alSet_self]
        · rw [← hpp]
          exact alGet_alSet_self _ _ _

/-- After a successful `getOrCreatePartition`, the symbol holds a live
slot for the file containing exactly the returned partition. -/
theorem getOrCreatePartition_post {dm : DM} {symId fileName : String}
    {p : PartitionSt} {dm' : DM}
    (h : getOrCreatePartition dm symId fileName = .ok (p, dm')) :
    ∃ s' m', alGet dm'.symbolDatas symId = some (some s') ∧
      s'.partitions = .live m' ∧ alGet m' fileName = some (some p) := by
  unfold getOrCreatePartition at h
  cases hg : alGet dm.symbolDatas symId with
  | none =>
    rw [getLiveSym_fail_none hg, bindErr] at h
    exact Except.noConfusion h
  | some sl =>
    cases sl with
    | none =>
      rw [getLiveSym_fail_dead hg, bindErr] at h
      exact Except.noConfusion h
    | some s =>
      rw [getLiveSym_eq hg, bindOk] at h
      try dsimp only at h
      cases hp : s.partitions with
      | cleared => rw [hp] at h; exact Except.noConfusion h
      | undef =>
        rw [hp] at h
        exact getOrCreatePartitionCore_post hg (Or.inr rfl) h
      | live m => rw [hp] at h; exact getOrCreatePartitionCore_post hg (Or.inl hp) h

theorem addRefToBases_frame {dmF : DM} {bases : List String} {f : String}
    {v : RefValue} {prop : Option RefProp} {b : String} :
    ∀ {dm : DM}, addRefToBases dm bases f v prop = .ok dmF → b ∉ bases →
    alGet dmF.symbolDatas b = alGet dm.symbolDatas b := by
  induction bases with
  | nil =>
    intro dm h _
    unfold addRefToBases at h
    rw [← Except.ok.inj h]
  | cons bh rest ih =>
    intro dm h hb
    unfold addRefToBases at h
    cases hg : getOrCreatePartition dm bh f with
    | error e => rw [hg, bindErr] at h; exact Except.noConfusion h
    | ok pr =>
      obtain ⟨p, dm₁⟩ := pr
      rw [hg, bindOk] at h
      try dsimp only at h
      have hmem : b ∉ rest := fun hx => hb (List.mem_cons_of_mem _ hx)
      have hbh : b ≠ bh := fun hx => hb (hx ▸ List.mem_cons_self _ _)
      rw [ih h hmem]
      rcases setPartitionSlot_symbolDatas dm₁ bh f
          (some (partitionAddReference p v prop)) with hset | ⟨s', hset⟩
      · rw [hset]
        rcases getOrCreatePartition_symbolDatas hg with hgp | ⟨s'', hgp⟩
        · rw [hgp]
        · rw [hgp, alGet_alSet_ne _ _ _ _ (Ne.symm hbh)]
      · rw [hset, alGet_alSet_ne _ _ _ _ (Ne.symm hbh)]
        rcases getOrCreatePartition_symbolDatas hg with hgp | ⟨s'', hgp⟩
        · rw [hgp]
        · rw [hgp, alGet_alSet_ne _ _ _ _ (Ne.symm hbh)]

theorem addRefToBases_post {dmF : DM} {bases : List String} {f : String} {rid : Nat} :
    ∀ {dm : DM}, bases.Nodup →
    addRefToBases dm bases f (.rangeV rid) (some .definitions) = .ok dmF →
    ∀ b ∈ bases, baseHasDefRange dmF b f rid := by
  induction bases with
  | nil => intro dm _ h b hb; simp at hb
  | cons bh rest ih =>
    intro dm hnd h b hb
    unfold addRefToBases at h
    cases hg : getOrCreatePartition dm bh f with
    | error e => rw [hg, bindErr] at h; exact Except.noConfusion h
    | ok pr =>
      obtain ⟨p, dm₁⟩ := pr
      rw [hg, bindOk] at h
      try dsimp only at h
      rcases List.mem_cons.mp hb with rfl | hbr
      · obtain ⟨s', m', hs', hp', _⟩ := getOrCreatePartition_post hg
        have hset := setPartitionSlot_eq f
          (some (partitionAddReference p (.rangeV rid) (some .definitions))) hs' hp'
        have hfr := addRefToBases_frame h (List.nodup_cons.mp hnd).1
        refine ⟨{ s' with partitions := Partitions.live (alSet m' f (some (partitionAddReference p (.rangeV rid) (some .definitions)))) },
          alSet m' f (some (partitionAddReference p (.rangeV rid) (some .definitions))),
          partitionAddReference p (.rangeV rid) (some .definitions),
          (alGet (p.referenceRanges.getD []) .definitions).getD [] ++ [rid],
          ?_, rfl, alGet_alSet_self _ _ _, ?_, ?_⟩
        · rw [hfr, hset]
          simp [updateSym, alGet_alSet_self]
        · show alGet ((partitionAddReference p (.rangeV rid)
            (some .definitions)).referenceRanges.getD []) .definitions = _
          unfold partitionAddReference
          dsimp only
          exact alGet_alSet_self _ _ _
        · simp
      · exact ih (List.nodup_cons.mp hnd).2 h b hbr

/-- C5: `MethodSymbolData.addDefinition`: with bases absent it is exactly
the standard behaviour with `recordAsReference = true`; with a
(non-absent) bases list it is the standard behaviour with
`recordAsReference = false` followed by adding the definition range to
every base's partition for that file under the `definitions` property
(shown extensionally: after a successful call, every base's partition
bucket for `definitions` contains the range).  The constructor stores an
empty bases list as absent. -/
theorem methodAddDefinition_spec (dm : DM) (symId f : String) (rid : Nat) (s : SymbolSt)
    (hs : alGet dm.symbolDatas symId = some (some s)) :
    (s.variant = .method none →
      symAddDefinition dm symId f rid = stdAddDefinition dm symId f rid true) ∧
    (∀ bs, s.variant = .method (some bs) →
      symAddDefinition dm symId f rid =
        stdAddDefinition dm symId f rid false >>= fun dm' =>
          addRefToBases dm' bs f (.rangeV rid) (some .definitions)) ∧
    (∀ bs dmF, s.variant = .method (some bs) → bs.Nodup →
      symAddDefinition dm symId f rid = .ok dmF →
      ∀ b ∈ bs, baseHasDefRange dmF b f rid) ∧
    methodCtorBases (some []) = none := by
  have h2 : ∀ bs, s.variant = .method (some bs) →
      symAddDefinition dm symId f rid =
        stdAddDefinition dm symId f rid false >>= fun dm' =>
          addRefToBases dm' bs f (.rangeV rid) (some .definitions) := by
    intro bs hv
    unfold symAddDefinition
    rw [getLiveSym_eq hs, bindOk, hv]
    rfl
  refine ⟨?_, h2, ?_, rfl⟩
  · intro hv
    unfold symAddDefinition
    rw [getLiveSym_eq hs, bindOk, hv]
    exact bindPure _
  · intro bs dmF hv hnd hok
    rw [h2 bs hv] at hok
    cases hstd : stdAddDefinition dm symId f rid false with
    | error e => rw [hstd, bindErr] at hok; exact Except.noConfusion hok
    | ok dm₂ =>
      rw [hstd, bindOk] at hok
      exact addRefToBases_post hnd hok

/-! ### C4 -/

set_option maxRecDepth 4000 in
/-- C4 counterexample: starting from an empty buffer, 33 `addDocument`
calls emit one project `contains` edge carrying all 33 documents — more
than the 32 the claim allows (the flush triggers only once the buffer
exceeds 32). -/
theorem projAddDocument_emits_batch_of_33 :
    ((List.range 33).foldl (fun dm i => projAddDocument dm i) c4dm).emit.trace =
      [Element.edge 1 .contains 0 (List.range 33) none none] ∧
    32 < (List.range 33).length := by
  constructor
  · rfl
  · decide

theorem projAddDocument_step (dm : DM) (i : Nat)
    (hbuf : dm.projectData.documents.length ≤ 32) :
    ∃ l, (projAddDocument dm i).emit.trace = dm.emit.trace ++ l ∧
      (∀ e ∈ l, containsLe 33 e) ∧
      (projAddDocument dm i).projectData.documents.length ≤ 32 := by
  unfold projAddDocument dmEmitEdge emitEdge
  by_cases h : (dm.projectData.documents ++ [i]).length > 32
  · rw [if_pos h]
    refine ⟨[Element.edge dm.emit.nextId .contains dm.projectData.project
      (dm.projectData.documents ++ [i]) none none], rfl, ?_, by simp⟩
    intro e he
    rw [List.mem_singleton] at he
    subst he
    intro _
    simp only [List.length_append, List.length_singleton]
    omega
  · rw [if_neg h]
    refine ⟨[], by simp, by simp, ?_⟩
    simp only [List.length_append, List.length_singleton] at h ⊢
    omega

theorem projAddDocument_fold (ds : List Nat) :
    ∀ dm : DM, dm.projectData.documents.length ≤ 32 →
    ∃ l, ((ds.foldl (fun dm i => projAddDocument dm i) dm)).emit.trace =
        dm.emit.trace ++ l ∧
      (∀ e ∈ l, containsLe 33 e) ∧
      ((ds.foldl (fun dm i => projAddDocument dm i) dm)).projectData.documents.length ≤ 32 := by
  induction ds with
  | nil => intro dm hbuf; exact ⟨[], by simp, by simp, hbuf⟩
  | cons d rest ih =>
    intro dm hbuf
    obtain ⟨l₁, ht₁, hc₁, hb₁⟩ := projAddDocument_step dm d hbuf
    obtain ⟨l₂, ht₂, hc₂, hb₂⟩ := ih (projAddDocument dm d) hb₁
    refine ⟨l₁ ++ l₂, ?_, ?_, hb₂⟩
    · simp only [List.foldl_cons] at *
      rw [ht₂, ht₁, List.append_assoc]
    · intro e he
      rcases List.mem_append.mp he with he | he
      · exact hc₁ e he
      · exact hc₂ e he

theorem projEnd_bound (dm : DM) (hbuf : dm.projectData.documents.length ≤ 32) :
    ∃ l, (projEnd dm).emit.trace = dm.emit.trace ++ l ∧
      ∀ e ∈ l, containsLe 32 e := by
  unfold projEnd dmEmitEdge dmEmitVertex emitEdge emitVertex
  try dsimp only
  by_cases h₁ : dm.projectData.documents.length > 0
  · rw [if_pos h₁]
    try dsimp only
    by_cases h₂ : dm.projectData.diagnostics.length > 0
    · rw [if_pos h₂]
      try dsimp only
      refine ⟨[Element.edge dm.emit.nextId .contains dm.projectData.project
          dm.projectData.documents none none,
        Element.vertex (dm.emit.nextId + 1) .diagnosticResult,
        Element.edge (dm.emit.nextId + 2) .diagnostic dm.projectData.project
          [dm.emit.nextId + 1] none none,
        Element.vertex (dm.emit.nextId + 3) (.event false dm.projectData.project)],
        by simp, ?_⟩
      intro e he
      simp only [List.mem_cons, List.mem_singleton] at he
      rcases he with rfl | rfl | rfl | rfl | he
      · exact fun _ => hbuf
      · trivial
      · intro hx; exact absurd hx (by simp)
      · trivial
      · simp at he
    · rw [if_neg h₂]
      try dsimp only
      refine ⟨[Element.edge dm.emit.nextId .contains dm.projectData.project
          dm.projectData.documents none none,
        Element.vertex (dm.emit.nextId + 1) (.event false dm.projectData.project)],
        by simp, ?_⟩
      intro e he
      simp only [List.mem_cons, List.mem_singleton] at he
      rcases he with rfl | rfl | he
      · exact fun _ => hbuf
      · trivial
      · simp at he
  · rw [if_neg h₁]
    try dsimp only
    by_cases h₂ : dm.projectData.diagnostics.length > 0
    · rw [if_pos h₂]
      try dsimp only
      refine ⟨[Element.vertex dm.emit.nextId .diagnosticResult,
        Element.edge (dm.emit.nextId + 1) .diagnostic dm.projectData.project
          [dm.emit.nextId] none none,
        Element.vertex (dm.emit.nextId + 2) (.event false dm.projectData.project)],
        by simp, ?_⟩
      intro e he
      simp only [List.mem_cons, List.mem_singleton] at he
      rcases he with rfl | rfl | rfl | he
      · trivial
      · intro hx; exact absurd hx (by simp)
      · trivial
      · simp at he
    · rw [if_neg h₂]
      try dsimp only
      refine ⟨[Element.vertex dm.emit.nextId (.event false dm.projectData.project)],
        by simp, ?_⟩
      intro e he
      rw [List.mem_singleton] at he
      subst he
      trivial

/-- C4 amended: `ProjectData` flushes its `contains` buffer in batches of
at most 33 documents: a flush during `addDocument` happens only once the
buffer exceeds 32 entries (so it carries exactly 33), and the final
flush in `end` carries the at most 32 buffered documents.  Hence, for
any sequence of `addDocument` calls from a buffer holding at most 32
documents, every project `contains` edge emitted during the calls
carries at most 33 documents, and the edge emitted by `end` carries at
most 32. -/
theorem projAddDocument_batch_bounds (ds : List Nat) (dm : DM)
    (hbuf : dm.projectData.documents.length ≤ 32) :
    ∃ l, ((ds.foldl (fun dm i => projAddDocument dm i) dm)).emit.trace =
        dm.emit.trace ++ l ∧
      (∀ e ∈ l, containsLe 33 e) ∧
      ∃ l₂, (projEnd (ds.foldl (fun dm i => projAddDocument dm i) dm)).emit.trace =
          ((ds.foldl (fun dm i => projAddDocument dm i) dm)).emit.trace ++ l₂ ∧
        ∀ e ∈ l₂, containsLe 32 e := by
  obtain ⟨l, ht, hc, hb⟩ := projAddDocument_fold ds dm hbuf
  exact ⟨l, ht, hc, projEnd_bound _ hb⟩

/-- Witness for the amended C4 at a concrete input. -/
theorem projAddDocument_batch_bounds_witness :
    ∃ l, (((List.range 33).foldl (fun dm i => projAddDocument dm i) c4dm)).emit.trace =
        c4dm.emit.trace ++ l ∧
      (∀ e ∈ l, containsLe 33 e) ∧
      ∃ l₂, (projEnd ((List.range 33).foldl (fun dm i => projAddDocument dm i) c4dm)).emit.trace =
          (((List.range 33).foldl (fun dm i => projAddDocument dm i) c4dm)).emit.trace ++ l₂ ∧
        ∀ e ∈ l₂, containsLe 32 e :=
  projAddDocument_batch_bounds (List.range 33) c4dm (by decide)

/-- Witness for C5 at a concrete input: the delegation equation and, for
the successful call, the base's `definitions` bucket containing the
range. -/
theorem methodAddDefinition_spec_witness :
    (symAddDefinition c5dm "m" "a.ts" 42 =
      stdAddDefinition c5dm "m" "a.ts" 42 false >>= fun dm' =>
        addRefToBases dm' ["b"] "a.ts" (.rangeV 42) (some .definitions)) ∧
    baseHasDefRange c5dmF "b" "a.ts" 42 :=
  ⟨(methodAddDefinition_spec c5dm "m" "a.ts" 42 c5m rfl).2.1 ["b"] rfl,
    (methodAddDefinition_spec c5dm "m" "a.ts" 42 c5m rfl).2.2.1 ["b"] c5dmF rfl
      (by decide) (by rfl) "b" (by decide)⟩

/-! ### C6 -/

theorem materializeCache_self (st : SymbolsSt) (sym : Nat) :
    alGet (materializeCache st sym).baseMemberCache sym =
      some ((alGet st.baseMemberCache sym).getD []) := by
  unfold materializeCache
  cases h : alGet st.baseMemberCache sym with
  | some i => simp [h]
  | none => simp [alGet_alSet_self]

theorem materializeCache_eq_of_some {st : SymbolsSt} {sym : Nat}
    {i : List (String × List Nat)} (h : alGet st.baseMemberCache sym = some i) :
    materializeCache st sym = st := by
  unfold materializeCache
  rw [h]

theorem fbmWalk_ne (o : Oracle) (fuel : Nat)
    (hP : ∀ st sym name r st', findBaseMembers o fuel st sym name = some (r, st') →
      ∀ l, r = some l → l ≠ []) :
    ∀ (bases : List Nat) (st : SymbolsSt) (name : String) (acc : Option (List Nat))
      (r : Option (List Nat)) (st' : SymbolsSt),
      (∀ l, acc = some l → l ≠ []) →
      fbmWalk o fuel st bases name acc = some (r, st') →
      ∀ l, r = some l → l ≠ [] := by
  intro bases
  induction bases with
  | nil =>
    intro st name acc r st' hacc h
    unfold fbmWalk at h
    rw [Option.some_inj] at h
    injection h with h1 h2
    rw [← h1]
    exact hacc
  | cons b rest ih =>
    intro st name acc r st' hacc h
    unfold fbmWalk at h
    cases hmem : o.hasMembers b with
    | false =>
      rw [hmem] at h
      simp only [Bool.false_eq_true, if_false] at h
      exact ih st name acc r st' hacc h
    | true =>
      rw [hmem] at h
      simp only [if_true] at h
      cases hm : o.member b name with
      | some m =>
        rw [hm] at h
        refine ih st name _ r st' ?_ h
        intro l hl
        rw [Option.some_inj] at hl
        rw [← hl]
        simp
      | none =>
        rw [hm] at h
        cases hf : findBaseMembers o fuel st b name with
        | none => rw [hf] at h; exact Option.noConfusion h
        | some pr =>
          obtain ⟨baseResult, st₂⟩ := pr
          rw [hf] at h
          dsimp only at h
          cases hbr : baseResult with
          | none =>
            rw [hbr] at h
            exact ih st₂ name acc r st' hacc h
          | some l₀ =>
            rw [hbr] at h
            refine ih st₂ name _ r st' ?_ h
            intro l hl
            rw [Option.some_inj] at hl
            rw [← hl]
            have : l₀ ≠ [] := hP st b name _ st₂ hf l₀ (by rw [hbr])
            simp [this]

theorem findBaseMembers_ne (o : Oracle) : ∀ (fuel : Nat) (st : SymbolsSt) (sym : Nat)
    (name : String) (r : Option (List Nat)) (st' : SymbolsSt),
    findBaseMembers o fuel st sym name = some (r, st') →
    ∀ l, r = some l → l ≠ [] := by
  intro fuel
  induction fuel with
  | zero =>
    intro st sym name r st' h
    unfold findBaseMembers at h
    exact Option.noConfusion h
  | succ fuel ih =>
    intro st sym name r st' h
    unfold findBaseMembers at h
    dsimp only at h
    rw [materializeCache_self, Option.getD_some] at h
    cases hl : alGet ((alGet st.baseMemberCache sym).getD []) name with
    | some r₀ =>
      rw [hl] at h
      dsimp only at h
      by_cases hz : r₀.length = 0
      · rw [if_pos hz, Option.some_inj] at h
        injection h with h1 h2
        rw [← h1]
        intro l hl'
        exact Option.noConfusion hl'
      · rw [if_neg hz, Option.some_inj] at h
        injection h with h1 h2
        rw [← h1]
        intro l hl'
        rw [Option.some_inj] at hl'
        rw [← hl']
        intro he
        exact hz (by rw [he]; rfl)
    | none =>
      rw [hl] at h
      cases hgb : getBaseSymbols o (materializeCache st sym) sym with
      | mk baseSymbols st₂ =>
        rw [hgb] at h
        cases hbs : baseSymbols with
        | none =>
          rw [hbs] at h
          dsimp only at h
          rw [Option.some_inj] at h
          injection h with h1 h2
          rw [← h1]
          intro l hl'
          exact Option.noConfusion hl'
        | some bases =>
          rw [hbs] at h
          dsimp only at h
          cases hw : fbmWalk o fuel st₂ bases name none with
          | none => rw [hw] at h; exact Option.noConfusion h
          | some pr =>
            obtain ⟨res, st₃⟩ := pr
            rw [hw] at h
            dsimp only [fbmFinish] at h
            rw [Option.some_inj] at h
            injection h with h1 h2
            rw [← h1]
            exact fbmWalk_ne o fuel ih bases st₂ name none res st₃
              (fun l hl' => Option.noConfusion hl') hw

/-- After any terminating call, the member cache holds the returned
result under the key, with an absent result stored as the empty list. -/
theorem findBaseMembers_cached (o : Oracle) (fuel : Nat) (st : SymbolsSt) (sym : Nat)
    (name : String) (r : Option (List Nat)) (st' : SymbolsSt)
    (h : findBaseMembers o fuel st sym name = some (r, st')) :
    alGet ((alGet st'.baseMemberCache sym).getD []) name = some (r.getD []) := by
  cases fuel with
  | zero => unfold findBaseMembers at h; exact Option.noConfusion h
  | succ fuel =>
    unfold findBaseMembers at h
    dsimp only at h
    rw [materializeCache_self, Option.getD_some] at h
    cases hl : alGet ((alGet st.baseMemberCache sym).getD []) name with
    | some r₀ =>
      rw [hl] at h
      dsimp only at h
      by_cases hz : r₀.length = 0
      · rw [if_pos hz, Option.some_inj] at h
        injection h with h1 h2
        rw [← h2, ← h1, materializeCache_self, Option.getD_some, hl]
        rw [List.length_eq_zero] at hz
        rw [hz]
        rfl
      · rw [if_neg hz, Option.some_inj] at h
        injection h with h1 h2
        rw [← h2, ← h1, materializeCache_self, Option.getD_some, hl]
        rfl
    | none =>
      rw [hl] at h
      cases hgb : getBaseSymbols o (materializeCache st sym) sym with
      | mk baseSymbols st₂ =>
        rw [hgb] at h
        cases hbs : baseSymbols with
        | none =>
          rw [hbs] at h
          dsimp only [fbmFinish] at h
          rw [Option.some_inj] at h
          injection h with h1 h2
          rw [← h2, ← h1]
          dsimp only
          rw [alGet_alSet_self, Option.getD_some, alGet_alSet_self]
        | some bases =>
          rw [hbs] at h
          dsimp only at h
          cases hw : fbmWalk o fuel st₂ bases name none with
          | none => rw [hw] at h; exact Option.noConfusion h
          | some pr =>
            obtain ⟨res, st₃⟩ := pr
            rw [hw] at h
            dsimp only [fbmFinish] at h
            rw [Option.some_inj] at h
            injection h with h1 h2
            rw [← h2, ← h1]
            dsimp only
            rw [alGet_alSet_self, Option.getD_some, alGet_alSet_self]

/-- C6: `Symbols.findBaseMembers` is idempotent: whenever a call
terminates with result `r` and cache state `st'`, a second invocation in
state `st'` (with any fuel left) returns exactly `(r, st')`; and when the
transitive walk found no member (`r` is absent), the cache stores the
empty list under the key while the function keeps returning absent. -/
theorem findBaseMembers_idempotent (o : Oracle) (fuel fuel' : Nat) (st : SymbolsSt)
    (sym : Nat) (name : String) (r : Option (List Nat)) (st' : SymbolsSt)
    (h : findBaseMembers o fuel st sym name = some (r, st')) :
    findBaseMembers o (fuel' + 1) st' sym name = some (r, st') ∧
    (r = none → alGet ((alGet st'.baseMemberCache sym).getD []) name = some []) := by
  have hc := findBaseMembers_cached o fuel st sym name r st' h
  have hne := findBaseMembers_ne o fuel st sym name r st' h
  constructor
  · cases ho : alGet st'.baseMemberCache sym with
    | none => rw [ho] at hc; simp [alGet] at hc
    | some inner =>
      rw [ho, Option.getD_some] at hc
      unfold findBaseMembers
      dsimp only
      rw [materializeCache_eq_of_some ho, ho, Option.getD_some, hc]
      cases hr : r with
      | none => simp
      | some l =>
        have hlne : l ≠ [] := hne l hr
        simp only [Option.getD_some]
        rw [if_neg (by simpa using hlne)]
  · intro hr
    rw [hr] at hc
    exact hc

/-- Witness for C6 at concrete inputs: a positive lookup (member `m`
found in the base) and a negative lookup (`x`, cached as the empty
list, returned as absent on repeat). -/
theorem findBaseMembers_idempotent_witness :
    (findBaseMembers c6oracle 1 ⟨[(2, [1])], [(2, [("m", [5])])]⟩ 2 "m" =
      some (some [5], ⟨[(2, [1])], [(2, [("m", [5])])]⟩) ∧
      (some [5] = (none : Option (List Nat)) →
        alGet ((alGet (⟨[(2, [1])], [(2, [("m", [5])])]⟩ : SymbolsSt).baseMemberCache 2).getD [])
          "m" = some [])) ∧
    (findBaseMembers c6oracle 1 ⟨[(2, [1])], [(2, [("x", [])]), (1, [("x", [])])]⟩ 2 "x" =
      some (none, ⟨[(2, [1])], [(2, [("x", [])]), (1, [("x", [])])]⟩) ∧
      ((none : Option (List Nat)) = none →
        alGet ((alGet (⟨[(2, [1])], [(2, [("x", [])]), (1, [("x", [])])]⟩ : SymbolsSt).baseMemberCache 2).getD [])
          "x" = some [])) :=
  ⟨findBaseMembers_idempotent c6oracle 3 0 c6st 2 "m" (some [5])
      ⟨[(2, [1])], [(2, [("m", [5])])]⟩
      (by simp [findBaseMembers, fbmWalk, materializeCache, getBaseSymbols, fbmFinish,
        c6oracle, c6st, alGet, alSet]),
    findBaseMembers_idempotent c6oracle 3 0 c6st 2 "x" none
      ⟨[(2, [1])], [(2, [("x", [])]), (1, [("x", [])])]⟩
      (by simp [findBaseMembers, fbmWalk, materializeCache, getBaseSymbols, fbmFinish,
        c6oracle, c6st, alGet, alSet])⟩

/-- Witness for C2: every branch exercised at concrete inputs. -/
theorem nodeProcessed_spec_witness :
    (∃ dm' t, partitionEnd c2dm "s" c2p = .ok dm' ∧
      symNodeProcessed c2dm "s" (.other 1) = .ok (true, clearPartitions dm' "s") ∧
      alGet (clearPartitions dm' "s").symbolDatas "s" = some (some t) ∧
      t.partitions = .cleared) ∧
    (∃ dm' t m', partitionEnd c2dm "s" c2p = .ok dm' ∧
      symNodeProcessed c2dm "s" (.sourceFile "a.ts") =
        .ok (false, setPartitionSlot dm' "s" "a.ts" none) ∧
      alGet (setPartitionSlot dm' "s" "a.ts" none).symbolDatas "s" = some (some t) ∧
      t.partitions = .live m' ∧ alGet m' "a.ts" = some none) ∧
    symNodeProcessed c2dm "s" (.other 7) = .error .badNode ∧
    symNodeProcessed c2dmCleared "s" (.sourceFile "a.ts") = .error .partitionsCleared :=
  ⟨(nodeProcessed_spec c2dm "s" (.other 1) c2sym rfl).1 "a.ts" c2p rfl rfl,
    (nodeProcessed_spec c2dm "s" (.sourceFile "a.ts") c2sym rfl).2.1
      _ "a.ts" c2p rfl rfl (by decide) rfl,
    (nodeProcessed_spec c2dm "s" (.other 7) c2sym rfl).2.2.1
      _ 7 rfl rfl (by decide),
    (nodeProcessed_spec c2dmCleared "s" (.sourceFile "a.ts") c2symCleared rfl).2.2.2 rfl⟩

/-! ### C1: the emission-order invariant

The invariant `DMInv` (ids strictly increase along the trace, every
edge's references name vertices already emitted with smaller ids, and
every id stored anywhere in the manager state names an emitted vertex)
is preserved by every driver operation; C1 follows at the end of any
run. -/

theorem traceExtends_rfl (e : EmitSt) : TraceExtends e e := ⟨[], by simp⟩

theorem traceExtends_trans {e₁ e₂ e₃ : EmitSt} (h₁ : TraceExtends e₁ e₂)
    (h₂ : TraceExtends e₂ e₃) : TraceExtends e₁ e₃ := by
  obtain ⟨t₁, ht₁⟩ := h₁
  obtain ⟨t₂, ht₂⟩ := h₂
  exact ⟨t₁ ++ t₂, by rw [ht₂, ht₁, List.append_assoc]⟩

theorem goodId_mono {tr tail : List Element} {i : Nat} (h : GoodId tr i) :
    GoodId (tr ++ tail) i := by
  obtain ⟨v, hv, h1, h2⟩ := h
  exact ⟨v, List.mem_append_left _ hv, h1, h2⟩

theorem goodId_of_extends {e e' : EmitSt} {i : Nat} (hx : TraceExtends e e')
    (h : GoodId e.trace i) : GoodId e'.trace i := by
  obtain ⟨t, ht⟩ := hx
  rw [ht]
  exact goodId_mono h

theorem goodId_lt_nextId {e : EmitSt} {i : Nat} (hinv : EmitInv e)
    (h : GoodId e.trace i) : i < e.nextId := by
  obtain ⟨v, hv, _, h2⟩ := h
  rw [← h2]
  exact hinv.1 v hv

theorem docGood_of_extends {e e' : EmitSt} {dd : DocumentSt} (hx : TraceExtends e e')
    (h : DocGood e.trace dd) : DocGood e'.trace dd :=
  ⟨goodId_of_extends hx h.1, fun r hr => goodId_of_extends hx (h.2 r hr)⟩

theorem partGood_of_extends {e e' : EmitSt} {p : PartitionSt} (hx : TraceExtends e e')
    (h : PartGood e.trace p) : PartGood e'.trace p :=
  ⟨goodId_of_extends hx h.1,
    fun l hl r hr => goodId_of_extends hx (h.2.1 l hl r hr),
    fun bs hbs b hb r hr => goodId_of_extends hx (h.2.2.1 bs hbs b hb r hr),
    fun l hl r hr => goodId_of_extends hx (h.2.2.2 l hl r hr)⟩

theorem symGood_of_extends {e e' : EmitSt} {s : SymbolSt} (hx : TraceExtends e e')
    (h : SymGood e.trace s) : SymGood e'.trace s :=
  ⟨goodId_of_extends hx h.1,
    fun i hi => goodId_of_extends hx (h.2.1 i hi),
    fun i hi => goodId_of_extends hx (h.2.2.1 i hi),
    fun m hm fp hfp p hp => partGood_of_extends hx (h.2.2.2 m hm fp hfp p hp)⟩

/-- `DMInv` transports along a trace extension of the emitter alone. -/
theorem dmInvParts_of_extends {dm : DM} {e' : EmitSt} (h : DMInv dm)
    (hx : TraceExtends dm.emit e')
    (hinv : EmitInv e') : DMInv { dm with emit := e' } := by
  refine ⟨hinv, goodId_of_extends hx h.2.1, ?_, ?_, ?_⟩
  · exact fun d hd => goodId_of_extends hx (h.2.2.1 d hd)
  · exact fun fd hfd dd hdd => docGood_of_extends hx (h.2.2.2.1 fd hfd dd hdd)
  · exact fun ss hss s hs => symGood_of_extends hx (h.2.2.2.2 ss hss s hs)

/-- Emitting a vertex preserves the invariant and yields a good id. -/
theorem dmInv_emitVertex {dm : DM} (h : DMInv dm) (label : VertexLabel) :
    Inv2 dm (dmEmitVertex dm label).2 ∧
    GoodId (dmEmitVertex dm label).2.emit.trace (dmEmitVertex dm label).1 := by
  have hx : TraceExtends dm.emit (dmEmitVertex dm label).2.emit :=
    ⟨[Element.vertex dm.emit.nextId label], rfl⟩
  have hgood : GoodId (dmEmitVertex dm label).2.emit.trace (dmEmitVertex dm label).1 :=
    ⟨Element.vertex dm.emit.nextId label, by simp [dmEmitVertex, emitVertex], rfl, rfl⟩
  obtain ⟨hlt, hpw, hrefs⟩ := h.1
  have hinv : EmitInv (dmEmitVertex dm label).2.emit := by
    refine ⟨?_, ?_, ?_⟩
    · intro x hx'
      simp only [dmEmitVertex, emitVertex, List.mem_append, List.mem_singleton] at hx'
      rcases hx' with hx' | rfl
      · exact Nat.lt_succ_of_lt (hlt x hx')
      · exact Nat.lt_succ_self _
    · simp only [dmEmitVertex, emitVertex]
      rw [List.pairwise_append]
      refine ⟨hpw, by simp, ?_⟩
      intro a ha b hb
      rw [List.mem_singleton] at hb
      subst hb
      exact hlt a ha
    · intro x hx' r hr
      simp only [dmEmitVertex, emitVertex, List.mem_append, List.mem_singleton] at hx'
      rcases hx' with hx' | rfl
      · obtain ⟨hg, hlt'⟩ := hrefs x hx' r hr
        exact ⟨goodId_mono hg, hlt'⟩
      · simp [Element.refs] at hr
  exact ⟨⟨dmInvParts_of_extends h hx hinv, hx⟩, hgood⟩

/-- Emitting an edge whose references are all good preserves the
invariant. -/
theorem dmInv_emitEdge {dm : DM} (h : DMInv dm) (label : EdgeLabel) (outV : Nat)
    (inVs : List Nat) (doc : Option Nat) (prop : Option RefProp)
    (hrefs : ∀ r ∈ outV :: inVs ++ doc.toList, GoodId dm.emit.trace r) :
    Inv2 dm (dmEmitEdge dm label outV inVs doc prop) := by
  have hx : TraceExtends dm.emit (dmEmitEdge dm label outV inVs doc prop).emit :=
    ⟨[Element.edge dm.emit.nextId label outV inVs doc prop], rfl⟩
  obtain ⟨hlt, hpw, hrefs'⟩ := h.1
  have hinv : EmitInv (dmEmitEdge dm label outV inVs doc prop).emit := by
    refine ⟨?_, ?_, ?_⟩
    · intro x hx'
      simp only [dmEmitEdge, emitEdge, List.mem_append, List.mem_singleton] at hx'
      rcases hx' with hx' | rfl
      · exact Nat.lt_succ_of_lt (hlt x hx')
      · exact Nat.lt_succ_self _
    · simp only [dmEmitEdge, emitEdge]
      rw [List.pairwise_append]
      refine ⟨hpw, by simp, ?_⟩
      intro a ha b hb
      rw [List.mem_singleton] at hb
      subst hb
      exact hlt a ha
    · intro x hx' r hr
      simp only [dmEmitEdge, emitEdge, List.mem_append, List.mem_singleton] at hx'
      rcases hx' with hx' | rfl
      · obtain ⟨hg, hlt'⟩ := hrefs' x hx' r hr
        exact ⟨goodId_mono hg, hlt'⟩
      · refine ⟨goodId_mono (hrefs r hr), ?_⟩
        exact goodId_lt_nextId ⟨hlt, hpw, hrefs'⟩ (hrefs r hr)
  exact ⟨dmInvParts_of_extends h hx hinv, hx⟩

/-- Updating a symbol entry with good contents preserves the
invariant. -/
theorem dmInv_updateSym {dm : DM} {s : SymbolSt} (h : DMInv dm) (symId : String)
    (hs : SymGood dm.emit.trace s) : DMInv (updateSym dm symId s) := by
  refine ⟨h.1, h.2.1, h.2.2.1, h.2.2.2.1, ?_⟩
  intro ss hss s' hs'
  rcases mem_alSet hss with hss | hss
  · exact h.2.2.2.2 ss hss s' hs'
  · subst hss
    rw [Option.some_inj] at hs'
    rw [← hs']
    exact hs

/-- Updating a document entry with good contents preserves the
invariant. -/
theorem dmInv_updateDoc {dm : DM} {dd : DocumentSt} (h : DMInv dm) (f : String)
    (hd : DocGood dm.emit.trace dd) :
    DMInv { dm with documentDatas := alSet dm.documentDatas f (some dd) } := by
  refine ⟨h.1, h.2.1, h.2.2.1, ?_, h.2.2.2.2⟩
  intro fd hfd dd' hdd'
  rcases mem_alSet hfd with hfd | hfd
  · exact h.2.2.2.1 fd hfd dd' hdd'
  · subst hfd
    rw [Option.some_inj] at hdd'
    rw [← hdd']
    exact hd

/-- Tombstoning a document entry preserves the invariant. -/
theorem dmInv_tombstoneDoc {dm : DM} (h : DMInv dm) (f : String) :
    DMInv { dm with documentDatas := alSet dm.documentDatas f none } := by
  refine ⟨h.1, h.2.1, h.2.2.1, ?_, h.2.2.2.2⟩
  intro fd hfd dd' hdd'
  rcases mem_alSet hfd with hfd | hfd
  · exact h.2.2.2.1 fd hfd dd' hdd'
  · subst hfd
    exact Option.noConfusion hdd'

/-- Tombstoning a symbol entry preserves the invariant. -/
theorem dmInv_tombstoneSym {dm : DM} (h : DMInv dm) (symId : String) :
    DMInv { dm with symbolDatas := alSet dm.symbolDatas symId none } := by
  refine ⟨h.1, h.2.1, h.2.2.1, h.2.2.2.1, ?_⟩
  intro ss hss s' hs'
  rcases mem_alSet hss with hss | hss
  · exact h.2.2.2.2 ss hss s' hs'
  · subst hss
    exact Option.noConfusion hs'

/-- Deleting a symbol entry preserves the invariant. -/
theorem dmInv_removeSym {dm : DM} (h : DMInv dm) (symId : String) :
    DMInv { dm with symbolDatas := alRemove dm.symbolDatas symId } := by
  refine ⟨h.1, h.2.1, h.2.2.1, h.2.2.2.1, ?_⟩
  intro ss hss s' hs'
  exact h.2.2.2.2 ss (mem_alRemove hss) s' hs'

/-- Registering a lifecycle trigger preserves the invariant. -/
theorem dmInv_manageLifeCycle {dm : DM} (h : DMInv dm) (node : TNode) (symId : String) :
    DMInv (manageLifeCycle dm node symId) := by
  exact ⟨h.1, h.2.1, h.2.2.1, h.2.2.2.1, h.2.2.2.2⟩

theorem symGood_of_lookup {dm : DM} {symId : String} {s : SymbolSt} (h : DMInv dm)
    (hs : alGet dm.symbolDatas symId = some (some s)) : SymGood dm.emit.trace s :=
  h.2.2.2.2 _ (alGet_mem hs) s rfl

theorem docGood_of_lookup {dm : DM} {f : String} {dd : DocumentSt} (h : DMInv dm)
    (hd : alGet dm.documentDatas f = some (some dd)) : DocGood dm.emit.trace dd :=
  h.2.2.2.1 _ (alGet_mem hd) dd rfl

theorem partGood_of_symGood {tr : List Element} {s : SymbolSt}
    {m : List (String × Option PartitionSt)} {f : String} {p : PartitionSt}
    (hsg : SymGood tr s) (hp : s.partitions = .live m)
    (hslot : alGet m f = some (some p)) : PartGood tr p :=
  hsg.2.2.2 m hp _ (alGet_mem hslot) p rfl

theorem inv2_rfl {dm : DM} (h : DMInv dm) : Inv2 dm dm := ⟨h, traceExtends_rfl _⟩

theorem inv2_trans {dm₁ dm₂ dm₃ : DM} (h₁ : Inv2 dm₁ dm₂) (h₂ : Inv2 dm₂ dm₃) :
    Inv2 dm₁ dm₃ := ⟨h₂.1, traceExtends_trans h₁.2 h₂.2⟩

theorem dmInv_getOrCreateDefinitionResult {dm dm' : DM} {symId : String} {i : Nat}
    (h : DMInv dm) (hok : getOrCreateDefinitionResult dm symId = .ok (i, dm')) :
    Inv2 dm dm' ∧ GoodId dm'.emit.trace i := by
  unfold getOrCreateDefinitionResult at hok
  cases hg : alGet dm.symbolDatas symId with
  | none =>
    rw [getLiveSym_fail_none hg, bindErr] at hok
    exact Except.noConfusion hok
  | some sl =>
    cases sl with
    | none =>
      rw [getLiveSym_fail_dead hg, bindErr] at hok
      exact Except.noConfusion hok
    | some s =>
      have hsg := symGood_of_lookup h hg
      rw [getLiveSym_eq hg, bindOk] at hok
      try dsimp only at hok
      cases hd : s.definitionResult with
      | some i₀ =>
        rw [hd] at hok
        try dsimp only at hok
        have hpair := Except.ok.inj hok
        injection hpair with h1 h2
        rw [← h1, ← h2]
        exact ⟨inv2_rfl h, hsg.2.1 i₀ hd⟩
      | none =>
        rw [hd] at hok
        try dsimp only at hok
        obtain ⟨hv, hgood⟩ := dmInv_emitVertex h VertexLabel.definitionResult
        have hrs : GoodId (dmEmitVertex dm .definitionResult).2.emit.trace s.resultSet :=
          goodId_of_extends hv.2 hsg.1
        have he := dmInv_emitEdge hv.1 .definition s.resultSet
          [(dmEmitVertex dm .definitionResult).1] none none
          (by
            intro r hr
            simp only [Option.toList_none, List.append_nil, List.mem_cons,
              List.mem_singleton] at hr
            rcases hr with rfl | rfl | hr
            · exact hrs
            · exact hgood
            · simp at hr)
        have hxall : TraceExtends dm.emit (dmEmitEdge (dmEmitVertex dm .definitionResult).2
            .definition s.resultSet [(dmEmitVertex dm .definitionResult).1] none none).emit :=
          traceExtends_trans hv.2 he.2
        have hsg' : SymGood (dmEmitEdge (dmEmitVertex dm .definitionResult).2
            .definition s.resultSet [(dmEmitVertex dm .definitionResult).1] none
            none).emit.trace { s with definitionResult := some (dmEmitVertex dm .definitionResult).1 } := by
          refine ⟨goodId_of_extends hxall hsg.1, ?_,
            fun i hi => goodId_of_extends hxall (hsg.2.2.1 i hi),
            fun m hm fp hfp p hp => partGood_of_extends hxall (hsg.2.2.2 m hm fp hfp p hp)⟩
          intro i' hi'
          rw [Option.some_inj] at hi'
          rw [← hi']
          exact goodId_of_extends he.2 hgood
        have hfinal := dmInv_updateSym he.1 symId hsg'
        have hpair := Except.ok.inj hok
        injection hpair with h1 h2
        rw [← h1, ← h2]
        exact ⟨⟨hfinal, hxall⟩, goodId_of_extends he.2 hgood⟩

theorem dmInv_getOrCreateReferenceResult {dm dm' : DM} {symId : String} {i : Nat}
    (h : DMInv dm) (hok : getOrCreateReferenceResult dm symId = .ok (i, dm')) :
    Inv2 dm dm' ∧ GoodId dm'.emit.trace i := by
  unfold getOrCreateReferenceResult at hok
  cases hg : alGet dm.symbolDatas symId with
  | none =>
    rw [getLiveSym_fail_none hg, bindErr] at hok
    exact Except.noConfusion hok
  | some sl =>
    cases sl with
    | none =>
      rw [getLiveSym_fail_dead hg, bindErr] at hok
      exact Except.noConfusion hok
    | some s =>
      have hsg := symGood_of_lookup h hg
      rw [getLiveSym_eq hg, bindOk] at hok
      try dsimp only at hok
      cases hd : s.referenceResult with
      | some i₀ =>
        rw [hd] at hok
        try dsimp only at hok
        have hpair := Except.ok.inj hok
        injection hpair with h1 h2
        rw [← h1, ← h2]
        exact ⟨inv2_rfl h, hsg.2.2.1 i₀ hd⟩
      | none =>
        rw [hd] at hok
        try dsimp only at hok
        obtain ⟨hv, hgood⟩ := dmInv_emitVertex h VertexLabel.referenceResult
        have hrs : GoodId (dmEmitVertex dm .referenceResult).2.emit.trace s.resultSet :=
          goodId_of_extends hv.2 hsg.1
        have he := dmInv_emitEdge hv.1 .references s.resultSet
          [(dmEmitVertex dm .referenceResult).1] none none
          (by
            intro r hr
            simp only [Option.toList_none, List.append_nil, List.mem_cons,
              List.mem_singleton] at hr
            rcases hr with rfl | rfl | hr
            · exact hrs
            · exact hgood
            · simp at hr)
        have hxall : TraceExtends dm.emit (dmEmitEdge (dmEmitVertex dm .referenceResult).2
            .references s.resultSet [(dmEmitVertex dm .referenceResult).1] none none).emit :=
          traceExtends_trans hv.2 he.2
        have hsg' : SymGood (dmEmitEdge (dmEmitVertex dm .referenceResult).2
            .references s.resultSet [(dmEmitVertex dm .referenceResult).1] none
            none).emit.trace { s with referenceResult := some (dmEmitVertex dm .referenceResult).1 } := by
          refine ⟨goodId_of_extends hxall hsg.1,
            fun i hi => goodId_of_extends hxall (hsg.2.1 i hi), ?_,
            fun m hm fp hfp p hp => partGood_of_extends hxall (hsg.2.2.2 m hm fp hfp p hp)⟩
          intro i' hi'
          rw [Option.some_inj] at hi'
          rw [← hi']
          exact goodId_of_extends he.2 hgood
        have hfinal := dmInv_updateSym he.1 symId hsg'
        have hpair := Except.ok.inj hok
        injection hpair with h1 h2
        rw [← h1, ← h2]
        exact ⟨⟨hfinal, hxall⟩, goodId_of_extends he.2 hgood⟩

theorem refs_cases_doc {outV docId : Nat} {inVs : List Nat} {r : Nat}
    (hr : r ∈ outV :: inVs ++ (some docId).toList) :
    r = outV ∨ r ∈ inVs ∨ r = docId := by
  rcases List.mem_cons.mp hr with rfl | hr
  · exact Or.inl rfl
  · rcases List.mem_append.mp hr with hr | hr
    · exact Or.inr (Or.inl hr)
    · simp only [Option.toList_some, List.mem_singleton] at hr
      exact Or.inr (Or.inr hr)

theorem dmInv_foldl_item {rr docId : Nat} :
    ∀ (buckets : List (RefProp × List Nat)) (dm : DM), DMInv dm →
      GoodId dm.emit.trace rr → GoodId dm.emit.trace docId →
      (∀ b ∈ buckets, ∀ x ∈ b.2, GoodId dm.emit.trace x) →
      Inv2 dm (buckets.foldl
        (fun dm bucket => dmEmitEdge dm .item rr bucket.2 (some docId) (some bucket.1)) dm) := by
  intro buckets
  induction buckets with
  | nil => intro dm h _ _ _; exact inv2_rfl h
  | cons b rest ih =>
    intro dm h hrr hdoc hb
    rw [List.foldl_cons]
    have hstep := dmInv_emitEdge h .item rr b.2 (some docId) (some b.1)
      (by
        intro r hr
        rcases refs_cases_doc hr with rfl | hr | rfl
        · exact hrr
        · exact hb b (List.mem_cons_self _ _) r hr
        · exact hdoc)
    have hrest := ih _ hstep.1 (goodId_of_extends hstep.2 hrr)
      (goodId_of_extends hstep.2 hdoc)
      (fun b' hb' x hx =>
        goodId_of_extends hstep.2 (hb b' (List.mem_cons_of_mem _ hb') x hx))
    exact inv2_trans hstep hrest

theorem dmInv_partitionEndDefs {dm dm' : DM} {symId : String} {p : PartitionSt}
    (h : DMInv dm) (hp : PartGood dm.emit.trace p)
    (hok : partitionEndDefs dm symId p = .ok dm') : Inv2 dm dm' := by
  unfold partitionEndDefs at hok
  cases hdr : p.definitionRanges with
  | none =>
    rw [hdr] at hok
    rw [← Except.ok.inj hok]
    exact inv2_rfl h
  | some ranges =>
    rw [hdr] at hok
    try dsimp only at hok
    cases hgd : getOrCreateDefinitionResult dm symId with
    | error e => rw [hgd, bindErr] at hok; exact Except.noConfusion hok
    | ok pr =>
      obtain ⟨dr, dm₁⟩ := pr
      rw [hgd, bindOk] at hok
      try dsimp only at hok
      obtain ⟨h₁, hdr'⟩ := dmInv_getOrCreateDefinitionResult h hgd
      have hstep := dmInv_emitEdge h₁.1 .item dr ranges (some p.document) none
        (by
          intro r hr
          rcases refs_cases_doc hr with rfl | hr | rfl
          · exact hdr'
          · exact goodId_of_extends h₁.2 (hp.2.1 ranges hdr r hr)
          · exact goodId_of_extends h₁.2 hp.1)
      rw [← Except.ok.inj hok]
      exact inv2_trans h₁ hstep

theorem dmInv_partitionEndRefs {dm dm' : DM} {symId : String} {p : PartitionSt}
    (h : DMInv dm) (hp : PartGood dm.emit.trace p)
    (hok : partitionEndRefs dm symId p = .ok dm') : Inv2 dm dm' := by
  unfold partitionEndRefs at hok
  cases hrr : p.referenceRanges with
  | none =>
    rw [hrr] at hok
    rw [← Except.ok.inj hok]
    exact inv2_rfl h
  | some buckets =>
    rw [hrr] at hok
    try dsimp only at hok
    cases hgr : getOrCreateReferenceResult dm symId with
    | error e => rw [hgr, bindErr] at hok; exact Except.noConfusion hok
    | ok pr =>
      obtain ⟨rr, dm₁⟩ := pr
      rw [hgr, bindOk] at hok
      try dsimp only at hok
      obtain ⟨h₁, hrr'⟩ := dmInv_getOrCreateReferenceResult h hgr
      have hfold := dmInv_foldl_item buckets dm₁ h₁.1 hrr'
        (goodId_of_extends h₁.2 hp.1)
        (fun b hb x hx => goodId_of_extends h₁.2 (hp.2.2.1 buckets hrr b hb x hx))
      rw [← Except.ok.inj hok]
      exact inv2_trans h₁ hfold

theorem dmInv_partitionEndRRs {dm dm' : DM} {symId : String} {p : PartitionSt}
    (h : DMInv dm) (hp : PartGood dm.emit.trace p)
    (hok : partitionEndRRs dm symId p = .ok dm') : Inv2 dm dm' := by
  unfold partitionEndRRs at hok
  cases hrs : p.referenceResults with
  | none =>
    rw [hrs] at hok
    rw [← Except.ok.inj hok]
    exact inv2_rfl h
  | some rrs =>
    rw [hrs] at hok
    try dsimp only at hok
    cases hgr : getOrCreateReferenceResult dm symId with
    | error e => rw [hgr, bindErr] at hok; exact Except.noConfusion hok
    | ok pr =>
      obtain ⟨rr, dm₁⟩ := pr
      rw [hgr, bindOk] at hok
      try dsimp only at hok
      obtain ⟨h₁, hrr'⟩ := dmInv_getOrCreateReferenceResult h hgr
      have hstep := dmInv_emitEdge h₁.1 .item rr rrs (some p.document) none
        (by
          intro r hr
          rcases refs_cases_doc hr with rfl | hr | rfl
          · exact hrr'
          · exact goodId_of_extends h₁.2 (hp.2.2.2 rrs hrs r hr)
          · exact goodId_of_extends h₁.2 hp.1)
      rw [← Except.ok.inj hok]
      exact inv2_trans h₁ hstep

theorem dmInv_partitionEnd {dm dm' : DM} {symId : String} {p : PartitionSt}
    (h : DMInv dm) (hp : PartGood dm.emit.trace p)
    (hok : partitionEnd dm symId p = .ok dm') : Inv2 dm dm' := by
  unfold partitionEnd at hok
  cases h₁ : partitionEndDefs dm symId p with
  | error e => rw [h₁, bindErr] at hok; exact Except.noConfusion hok
  | ok dm₁ =>
    rw [h₁, bindOk] at hok
    have hi₁ := dmInv_partitionEndDefs h hp h₁
    cases h₂ : partitionEndRefs dm₁ symId p with
    | error e => rw [h₂, bindErr] at hok; exact Except.noConfusion hok
    | ok dm₂ =>
      rw [h₂, bindOk] at hok
      have hi₂ := dmInv_partitionEndRefs hi₁.1 (partGood_of_extends hi₁.2 hp) h₂
      have hi₃ := dmInv_partitionEndRRs hi₂.1
        (partGood_of_extends (traceExtends_trans hi₁.2 hi₂.2) hp) hok
      exact inv2_trans hi₁ (inv2_trans hi₂ hi₃)

theorem partGood_fresh {tr : List Element} {docId : Nat} (h : GoodId tr docId) :
    PartGood tr (PartitionSt.fresh docId) := by
  refine ⟨h, ?_, ?_, ?_⟩ <;> intro l hl <;> exact Option.noConfusion hl

theorem partGood_addReference {tr : List Element} {p : PartitionSt} {v : RefValue}
    {prop : Option RefProp} (hp : PartGood tr p)
    (hv : GoodId tr (match v with | .rangeV i => i | .referenceResultV i => i)) :
    PartGood tr (partitionAddReference p v prop) := by
  obtain ⟨pdoc, pdefs, prefs, prrs⟩ := p
  cases v with
  | rangeV i =>
    cases prop with
    | none => exact hp
    | some pr =>
      dsimp only [partitionAddReference]
      refine ⟨hp.1, hp.2.1, ?_, hp.2.2.2⟩
      intro bs hbs b hb r hr
      have hbs' : alSet (prefs.getD []) pr ((alGet (prefs.getD []) pr).getD [] ++ [i]) = bs :=
        Option.some_inj.mp hbs
      rw [← hbs'] at hb
      rcases mem_alSet hb with hb | hb
      · cases hrr : prefs with
        | none => simp [hrr] at hb
        | some buckets =>
          rw [hrr] at hb
          exact hp.2.2.1 buckets hrr b (by simpa using hb) r hr
      · subst hb
        rcases List.mem_append.mp hr with hr | hr
        · cases hget : alGet (prefs.getD []) pr with
          | none => simp [hget] at hr
          | some values =>
            rw [hget] at hr
            cases hrr : prefs with
            | none => simp [hrr, alGet] at hget
            | some buckets =>
              rw [hrr] at hget
              exact hp.2.2.1 buckets hrr (pr, values) (alGet_mem (by simpa using hget))
                r (by simpa using hr)
        · rw [List.mem_singleton] at hr
          subst hr
          exact hv
  | referenceResultV i =>
    dsimp only [partitionAddReference]
    refine ⟨hp.1, hp.2.1, hp.2.2.1, ?_⟩
    intro l hl r hr
    have hl' : prrs.getD [] ++ [i] = l := Option.some_inj.mp hl
    rw [← hl'] at hr
    rcases List.mem_append.mp hr with hr | hr
    · cases hrs : prrs with
      | none => simp [hrs] at hr
      | some rrs =>
        rw [hrs] at hr
        exact hp.2.2.2 rrs hrs r (by simpa using hr)
    · rw [List.mem_singleton] at hr
      subst hr
      exact hv

theorem partGood_addDefinition {tr : List Element} {p : PartitionSt} {rid : Nat}
    {recAsRef : Bool} (hp : PartGood tr p) (hv : GoodId tr rid) :
    PartGood tr (partitionAddDefinition p rid recAsRef) := by
  have hmid : PartGood tr { p with definitionRanges := some (p.definitionRanges.getD [] ++ [rid]) } := by
    refine ⟨hp.1, ?_, hp.2.2.1, hp.2.2.2⟩
    intro l hl r hr
    have hl' : p.definitionRanges.getD [] ++ [rid] = l := Option.some_inj.mp hl
    rw [← hl'] at hr
    rcases List.mem_append.mp hr with hr | hr
    · cases hdr : p.definitionRanges with
      | none => simp [hdr] at hr
      | some ranges =>
        rw [hdr] at hr
        exact hp.2.1 ranges hdr r (by simpa using hr)
    · rw [List.mem_singleton] at hr
      subst hr
      exact hv
  unfold partitionAddDefinition
  cases recAsRef with
  | false => exact hmid
  | true =>
    simp only [if_true]
    exact partGood_addReference hmid hv

theorem dmInv_setPartitionSlot {dm : DM} {symId f : String} {slot : Option PartitionSt}
    (h : DMInv dm) (hslot : ∀ p, slot = some p → PartGood dm.emit.trace p) :
    DMInv (setPartitionSlot dm symId f slot) := by
  unfold setPartitionSlot
  cases hg : alGet dm.symbolDatas symId with
  | none => exact h
  | some sl =>
    cases sl with
    | none => exact h
    | some s =>
      dsimp only
      cases hp : s.partitions with
      | undef => exact h
      | cleared => exact h
      | live m =>
        have hsg := symGood_of_lookup h hg
        refine dmInv_updateSym h symId ⟨hsg.1, hsg.2.1, hsg.2.2.1, ?_⟩
        intro m' hm' fp hfp p hpp
        rw [Partitions.live.injEq] at hm'
        rw [← hm'] at hfp
        rcases mem_alSet hfp with hfp | hfp
        · exact hsg.2.2.2 m hp fp hfp p hpp
        · subst hfp
          exact hslot p hpp

theorem dmInv_getOrCreatePartitionCore {dm dm' : DM} {symId fileName : String}
    {s : SymbolSt} {m : List (String × Option PartitionSt)} {p : PartitionSt}
    (h : DMInv dm) (hg : alGet dm.symbolDatas symId = some (some s))
    (hm : s.partitions = .live m ∨ m = [])
    (hok : getOrCreatePartitionCore dm symId fileName s m = .ok (p, dm')) :
    Inv2 dm dm' ∧ PartGood dm'.emit.trace p := by
  have hsg := symGood_of_lookup h hg
  unfold getOrCreatePartitionCore at hok
  cases hsl : alGet m fileName with
  | some slot =>
    cases slot with
    | none => rw [hsl] at hok; exact Except.noConfusion hok
    | some p₀ =>
      rw [hsl] at hok
      try dsimp only at hok
      have hpair := Except.ok.inj hok
      injection hpair with h1 h2
      rw [← h1, ← h2]
      rcases hm with hm | rfl
      · exact ⟨inv2_rfl h, partGood_of_symGood hsg hm hsl⟩
      · simp [alGet] at hsl
  | none =>
    rw [hsl] at hok
    try dsimp only at hok
    cases hdd : alGet dm.documentDatas fileName with
    | none =>
      rw [dmGetDocumentData_eq_none hdd, bindOk] at hok
      exact Except.noConfusion hok
    | some ddsl =>
      cases ddsl with
      | none =>
        rw [dmGetDocumentData_eq_dead hdd, bindErr] at hok
        exact Except.noConfusion hok
      | some dd =>
        rw [dmGetDocumentData_eq_live hdd, bindOk] at hok
        try dsimp only at hok
        have hpair := Except.ok.inj hok
        injection hpair with h1 h2
        have hddg := docGood_of_lookup h hdd
        have hfresh : PartGood dm.emit.trace (PartitionSt.fresh dd.document) :=
          partGood_fresh hddg.1
        have hml := dmInv_manageLifeCycle h (TNode.sourceFile fileName) symId
        have hsg' : SymGood (manageLifeCycle dm (TNode.sourceFile fileName) symId).emit.trace
            { s with partitions := Partitions.live (alSet m fileName (some (PartitionSt.fresh dd.document))) } := by
          refine ⟨hsg.1, hsg.2.1, hsg.2.2.1, ?_⟩
          intro m' hm' fp hfp p' hpp
          rw [Partitions.live.injEq] at hm'
          rw [← hm'] at hfp
          rcases mem_alSet hfp with hfp | hfp
          · rcases hm with hm | rfl
            · exact hsg.2.2.2 m hm fp hfp p' hpp
            · simp at hfp
          · subst hfp
            rw [Option.some_inj] at hpp
            rw [← hpp]
            exact hfresh
        have hfin := dmInv_updateSym hml symId hsg'
        rw [← h1, ← h2]
        exact ⟨⟨hfin, traceExtends_rfl _⟩, hfresh⟩

theorem dmInv_getOrCreatePartition {dm dm' : DM} {symId fileName : String}
    {p : PartitionSt} (h : DMInv dm)
    (hok : getOrCreatePartition dm symId fileName = .ok (p, dm')) :
    Inv2 dm dm' ∧ PartGood dm'.emit.trace p := by
  unfold getOrCreatePartition at hok
  cases hg : alGet dm.symbolDatas symId with
  | none =>
    rw [getLiveSym_fail_none hg, bindErr] at hok
    exact Except.noConfusion hok
  | some sl =>
    cases sl with
    | none =>
      rw [getLiveSym_fail_dead hg, bindErr] at hok
      exact Except.noConfusion hok
    | some s =>
      rw [getLiveSym_eq hg, bindOk] at hok
      try dsimp only at hok
      cases hp : s.partitions with
      | cleared => rw [hp] at hok; exact Except.noConfusion hok
      | undef =>
        rw [hp] at hok
        exact dmInv_getOrCreatePartitionCore h hg (Or.inr rfl) hok
      | live m =>
        rw [hp] at hok
        exact dmInv_getOrCreatePartitionCore h hg (Or.inl hp) hok

theorem dmInv_stdAddDefinition {dm dm' : DM} {symId fileName : String} {rid : Nat}
    {recAsRef : Bool} (h : DMInv dm) (hrid : GoodId dm.emit.trace rid)
    (hok : stdAddDefinition dm symId fileName rid recAsRef = .ok dm') : Inv2 dm dm' := by
  unfold stdAddDefinition at hok
  cases hg : alGet dm.symbolDatas symId with
  | none =>
    rw [getLiveSym_fail_none hg, bindErr] at hok
    exact Except.noConfusion hok
  | some sl =>
    cases sl with
    | none =>
      rw [getLiveSym_fail_dead hg, bindErr] at hok
      exact Except.noConfusion hok
    | some s =>
      have hsg := symGood_of_lookup h hg
      rw [getLiveSym_eq hg, bindOk] at hok
      try dsimp only at hok
      have hnext := dmInv_emitEdge h .next rid [s.resultSet] none none
        (by
          intro r hr
          simp only [Option.toList_none, List.append_nil, List.mem_cons,
            List.mem_singleton] at hr
          rcases hr with rfl | rfl | hr
          · exact hrid
          · exact hsg.1
          · simp at hr)
      cases hgp : getOrCreatePartition (dmEmitEdge dm .next rid [s.resultSet] none none)
          symId fileName with
      | error e => rw [hgp, bindErr] at hok; exact Except.noConfusion hok
      | ok pr =>
        obtain ⟨p, dm₂⟩ := pr
        rw [hgp, bindOk] at hok
        try dsimp only at hok
        obtain ⟨h₂, hpg⟩ := dmInv_getOrCreatePartition hnext.1 hgp
        have hx := traceExtends_trans hnext.2 h₂.2
        have hset := @dmInv_setPartitionSlot dm₂ symId fileName
          (some (partitionAddDefinition p rid recAsRef)) h₂.1
          (by
            intro p' hp'
            rw [Option.some_inj] at hp'
            rw [← hp']
            exact partGood_addDefinition hpg (goodId_of_extends hx hrid))
        rw [← Except.ok.inj hok]
        refine ⟨hset, ?_⟩
        have : (setPartitionSlot dm₂ symId fileName
            (some (partitionAddDefinition p rid recAsRef))).emit = dm₂.emit := by
          unfold setPartitionSlot
          cases alGet dm₂.symbolDatas symId with
          | none => rfl
          | some sl' =>
            cases sl' with
            | none => rfl
            | some s' =>
              dsimp only
              cases s'.partitions <;> rfl
        rw [this]
        exact hx

theorem dmInv_stdAddReference {dm dm' : DM} {symId fileName : String} {v : RefValue}
    {prop : Option RefProp} (h : DMInv dm)
    (hv : GoodId dm.emit.trace (match v with | .rangeV i => i | .referenceResultV i => i))
    (hok : stdAddReference dm symId fileName v prop = .ok dm') : Inv2 dm dm' := by
  unfold stdAddReference at hok
  cases hg : alGet dm.symbolDatas symId with
  | none =>
    rw [getLiveSym_fail_none hg, bindErr] at hok
    exact Except.noConfusion hok
  | some sl =>
    cases sl with
    | none =>
      rw [getLiveSym_fail_dead hg, bindErr] at hok
      exact Except.noConfusion hok
    | some s =>
      have hsg := symGood_of_lookup h hg
      rw [getLiveSym_eq hg, bindOk] at hok
      try dsimp only at hok
      set dm₁ := (match v with
        | RefValue.rangeV i => dmEmitEdge dm .next i [s.resultSet] none none
        | RefValue.referenceResultV _ => dm) with hdm₁
      have hstep : Inv2 dm dm₁ := by
        rw [hdm₁]
        cases v with
        | rangeV i =>
          exact dmInv_emitEdge h .next i [s.resultSet] none none
            (by
              intro r hr
              simp only [Option.toList_none, List.append_nil, List.mem_cons,
                List.mem_singleton] at hr
              rcases hr with rfl | rfl | hr
              · exact hv
              · exact hsg.1
              · simp at hr)
        | referenceResultV i => exact inv2_rfl h
      cases hgp : getOrCreatePartition dm₁ symId fileName with
      | error e => rw [hgp, bindErr] at hok; exact Except.noConfusion hok
      | ok pr =>
        obtain ⟨p, dm₂⟩ := pr
        rw [hgp, bindOk] at hok
        try dsimp only at hok
        obtain ⟨h₂, hpg⟩ := dmInv_getOrCreatePartition hstep.1 hgp
        have hx := traceExtends_trans hstep.2 h₂.2
        have hset := @dmInv_setPartitionSlot dm₂ symId fileName
          (some (partitionAddReference p v prop)) h₂.1
          (by
            intro p' hp'
            rw [Option.some_inj] at hp'
            rw [← hp']
            exact partGood_addReference hpg (goodId_of_extends hx hv))
        rw [← Except.ok.inj hok]
        refine ⟨hset, ?_⟩
        have hemit : (setPartitionSlot dm₂ symId fileName
            (some (partitionAddReference p v prop))).emit = dm₂.emit := by
          unfold setPartitionSlot
          cases alGet dm₂.symbolDatas symId with
          | none => rfl
          | some sl' =>
            cases sl' with
            | none => rfl
            | some s' =>
              dsimp only
              cases s'.partitions <;> rfl
        rw [hemit]
        exact hx

theorem dmInv_addRefToBases {dmF : DM} {bases : List String} {fileName : String}
    {v : RefValue} {prop : Option RefProp} :
    ∀ {dm : DM}, DMInv dm →
    GoodId dm.emit.trace (match v with | .rangeV i => i | .referenceResultV i => i) →
    addRefToBases dm bases fileName v prop = .ok dmF → Inv2 dm dmF := by
  induction bases with
  | nil =>
    intro dm h _ hok
    unfold addRefToBases at hok
    rw [← Except.ok.inj hok]
    exact inv2_rfl h
  | cons b rest ih =>
    intro dm h hv hok
    unfold addRefToBases at hok
    cases hgp : getOrCreatePartition dm b fileName with
    | error e => rw [hgp, bindErr] at hok; exact Except.noConfusion hok
    | ok pr =>
      obtain ⟨p, dm₁⟩ := pr
      rw [hgp, bindOk] at hok
      try dsimp only at hok
      obtain ⟨h₁, hpg⟩ := dmInv_getOrCreatePartition h hgp
      have hset := @dmInv_setPartitionSlot dm₁ b fileName
        (some (partitionAddReference p v prop)) h₁.1
        (by
          intro p' hp'
          rw [Option.some_inj] at hp'
          rw [← hp']
          exact partGood_addReference hpg (goodId_of_extends h₁.2 hv))
      have hemit : (setPartitionSlot dm₁ b fileName
          (some (partitionAddReference p v prop))).emit = dm₁.emit := by
        unfold setPartitionSlot
        cases alGet dm₁.symbolDatas b with
        | none => rfl
        | some sl' =>
          cases sl' with
          | none => rfl
          | some s' =>
            dsimp only
            cases s'.partitions <;> rfl
      have hstep : Inv2 dm (setPartitionSlot dm₁ b fileName
          (some (partitionAddReference p v prop))) := by
        refine ⟨hset, ?_⟩
        rw [hemit]
        exact h₁.2
      have hrest := ih hstep.1 (by rw [hemit]; exact goodId_of_extends h₁.2 hv) hok
      exact inv2_trans hstep hrest

theorem dmInv_symAddDefinition {dm dm' : DM} {symId fileName : String} {rid : Nat}
    (h : DMInv dm) (hrid : GoodId dm.emit.trace rid)
    (hok : symAddDefinition dm symId fileName rid = .ok dm') : Inv2 dm dm' := by
  unfold symAddDefinition at hok
  cases hg : alGet dm.symbolDatas symId with
  | none =>
    rw [getLiveSym_fail_none hg, bindErr] at hok
    exact Except.noConfusion hok
  | some sl =>
    cases sl with
    | none =>
      rw [getLiveSym_fail_dead hg, bindErr] at hok
      exact Except.noConfusion hok
    | some s =>
      have hsg := symGood_of_lookup h hg
      rw [getLiveSym_eq hg, bindOk] at hok
      try dsimp only at hok
      cases hvar : s.variant with
      | standard =>
        rw [hvar] at hok
        exact dmInv_stdAddDefinition h hrid hok
      | method bases =>
        rw [hvar] at hok
        try dsimp only at hok
        cases hstd : stdAddDefinition dm symId fileName rid bases.isNone with
        | error e => rw [hstd, bindErr] at hok; exact Except.noConfusion hok
        | ok dm₁ =>
          rw [hstd, bindOk] at hok
          have h₁ := dmInv_stdAddDefinition h hrid hstd
          cases hbs : bases with
          | none =>
            rw [hbs] at hok
            rw [← Except.ok.inj hok]
            exact h₁
          | some bs =>
            rw [hbs] at hok
            try dsimp only at hok
            have h₂ := dmInv_addRefToBases h₁.1 (goodId_of_extends h₁.2 hrid) hok
            exact inv2_trans h₁ h₂
      | aliased a rename =>
        rw [hvar] at hok
        try dsimp only at hok
        cases rename with
        | true =>
          rw [if_pos rfl] at hok
          exact dmInv_stdAddDefinition h hrid hok
        | false =>
          rw [if_neg Bool.false_ne_true] at hok
          try dsimp only at hok
          have hnext := dmInv_emitEdge h .next rid [s.resultSet] none none
            (by
              intro r hr
              simp only [Option.toList_none, List.append_nil, List.mem_cons,
                List.mem_singleton] at hr
              rcases hr with rfl | rfl | hr
              · exact hrid
              · exact hsg.1
              · simp at hr)
          cases hgp : getOrCreatePartition
              (dmEmitEdge dm .next rid [s.resultSet] none none) a fileName with
          | error e => rw [hgp, bindErr] at hok; exact Except.noConfusion hok
          | ok pr =>
            obtain ⟨p, dm₂⟩ := pr
            rw [hgp, bindOk] at hok
            try dsimp only at hok
            obtain ⟨h₂, hpg⟩ := dmInv_getOrCreatePartition hnext.1 hgp
            have hx := traceExtends_trans hnext.2 h₂.2
            have hset := @dmInv_setPartitionSlot dm₂ a fileName
              (some (partitionAddReference p (.rangeV rid) (some .references))) h₂.1
              (by
                intro p' hp'
                rw [Option.some_inj] at hp'
                rw [← hp']
                exact partGood_addReference hpg (goodId_of_extends hx hrid))
            have hemit : (setPartitionSlot dm₂ a fileName
                (some (partitionAddReference p (.rangeV rid) (some .references)))).emit
                = dm₂.emit := by
              unfold setPartitionSlot
              cases alGet dm₂.symbolDatas a with
              | none => rfl
              | some sl' =>
                cases sl' with
                | none => rfl
                | some s' =>
                  dsimp only
                  cases s'.partitions <;> rfl
            rw [← Except.ok.inj hok]
            refine ⟨hset, ?_⟩
            rw [hemit]
            exact hx
      | unionOrIntersection elems =>
        rw [hvar] at hok
        rw [← Except.ok.inj hok]
        exact inv2_rfl h

theorem dmInv_symAddReference {dm dm' : DM} {symId fileName : String} {v : RefValue}
    {prop : Option RefProp} (h : DMInv dm)
    (hv : GoodId dm.emit.trace (match v with | .rangeV i => i | .referenceResultV i => i))
    (hok : symAddReference dm symId fileName v prop = .ok dm') : Inv2 dm dm' := by
  unfold symAddReference at hok
  cases hg : alGet dm.symbolDatas symId with
  | none =>
    rw [getLiveSym_fail_none hg, bindErr] at hok
    exact Except.noConfusion hok
  | some sl =>
    cases sl with
    | none =>
      rw [getLiveSym_fail_dead hg, bindErr] at hok
      exact Except.noConfusion hok
    | some s =>
      have hsg := symGood_of_lookup h hg
      rw [getLiveSym_eq hg, bindOk] at hok
      try dsimp only at hok
      cases hvar : s.variant with
      | standard =>
        rw [hvar] at hok
        exact dmInv_stdAddReference h hv hok
      | method bases =>
        rw [hvar] at hok
        cases hbs : bases with
        | none =>
          rw [hbs] at hok
          exact dmInv_stdAddReference h hv hok
        | some bs =>
          rw [hbs] at hok
          try dsimp only at hok
          set dm₁ := (match v with
            | RefValue.rangeV i => dmEmitEdge dm .next i [s.resultSet] none none
            | RefValue.referenceResultV _ => dm) with hdm₁
          have hstep : Inv2 dm dm₁ := by
            rw [hdm₁]
            cases v with
            | rangeV i =>
              exact dmInv_emitEdge h .next i [s.resultSet] none none
                (by
                  intro r hr
                  simp only [Option.toList_none, List.append_nil, List.mem_cons,
                    List.mem_singleton] at hr
                  rcases hr with rfl | rfl | hr
                  · exact hv
                  · exact hsg.1
                  · simp at hr)
            | referenceResultV i => exact inv2_rfl h
          have hrest := dmInv_addRefToBases hstep.1
            (goodId_of_extends hstep.2 hv) hok
          exact inv2_trans hstep hrest
      | aliased a r =>
        rw [hvar] at hok
        try dsimp only at hok
        set dm₁ := (match v with
          | RefValue.rangeV i => dmEmitEdge dm .next i [s.resultSet] none none
          | RefValue.referenceResultV _ => dm) with hdm₁
        have hstep : Inv2 dm dm₁ := by
          rw [hdm₁]
          cases v with
          | rangeV i =>
            exact dmInv_emitEdge h .next i [s.resultSet] none none
              (by
                intro r' hr
                simp only [Option.toList_none, List.append_nil, List.mem_cons,
                  List.mem_singleton] at hr
                rcases hr with rfl | rfl | hr
                · exact hv
                · exact hsg.1
                · simp at hr)
          | referenceResultV i => exact inv2_rfl h
        cases hgp : getOrCreatePartition dm₁ a fileName with
        | error e => rw [hgp, bindErr] at hok; exact Except.noConfusion hok
        | ok pr =>
          obtain ⟨p, dm₂⟩ := pr
          rw [hgp, bindOk] at hok
          try dsimp only at hok
          obtain ⟨h₂, hpg⟩ := dmInv_getOrCreatePartition hstep.1 hgp
          have hx := traceExtends_trans hstep.2 h₂.2
          have hset := @dmInv_setPartitionSlot dm₂ a fileName
            (some (partitionAddReference p v prop)) h₂.1
            (by
              intro p' hp'
              rw [Option.some_inj] at hp'
              rw [← hp']
              exact partGood_addReference hpg (goodId_of_extends hx hv))
          have hemit : (setPartitionSlot dm₂ a fileName
              (some (partitionAddReference p v prop))).emit = dm₂.emit := by
            unfold setPartitionSlot
            cases alGet dm₂.symbolDatas a with
            | none => rfl
            | some sl' =>
              cases sl' with
              | none => rfl
              | some s' =>
                dsimp only
                cases s'.partitions <;> rfl
          rw [← Except.ok.inj hok]
          refine ⟨hset, ?_⟩
          rw [hemit]
          exact hx
      | unionOrIntersection elems =>
        rw [hvar] at hok
        try dsimp only at hok
        set dm₁ := (match v with
          | RefValue.rangeV i => dmEmitEdge dm .next i [s.resultSet] none none
          | RefValue.referenceResultV _ => dm) with hdm₁
        have hstep : Inv2 dm dm₁ := by
          rw [hdm₁]
          cases v with
          | rangeV i =>
            exact dmInv_emitEdge h .next i [s.resultSet] none none
              (by
                intro r' hr
                simp only [Option.toList_none, List.append_nil, List.mem_cons,
                  List.mem_singleton] at hr
                rcases hr with rfl | rfl | hr
                · exact hv
                · exact hsg.1
                · simp at hr)
          | referenceResultV i => exact inv2_rfl h
        have hrest := dmInv_addRefToBases hstep.1
          (goodId_of_extends hstep.2 hv) hok
        exact inv2_trans hstep hrest

theorem setPartitionSlot_emit (dm : DM) (symId f : String) (slot : Option PartitionSt) :
    (setPartitionSlot dm symId f slot).emit = dm.emit := by
  unfold setPartitionSlot
  cases alGet dm.symbolDatas symId with
  | none => rfl
  | some sl =>
    cases sl with
    | none => rfl
    | some s =>
      dsimp only
      cases s.partitions <;> rfl

theorem clearPartitions_emit (dm : DM) (symId : String) :
    (clearPartitions dm symId).emit = dm.emit := by
  unfold clearPartitions
  cases alGet dm.symbolDatas symId with
  | none => rfl
  | some sl =>
    cases sl with
    | none => rfl
    | some s => rfl

theorem dmInv_clearPartitions {dm : DM} (h : DMInv dm) (symId : String) :
    DMInv (clearPartitions dm symId) := by
  unfold clearPartitions
  cases hg : alGet dm.symbolDatas symId with
  | none => exact h
  | some sl =>
    cases sl with
    | none => exact h
    | some s =>
      have hsg := symGood_of_lookup h hg
      exact dmInv_updateSym h symId
        ⟨hsg.1, hsg.2.1, hsg.2.2.1, fun m hm => Partitions.noConfusion hm⟩

theorem inv2_clearPartitions {dm : DM} (h : DMInv dm) (symId : String) :
    Inv2 dm (clearPartitions dm symId) := by
  refine ⟨dmInv_clearPartitions h symId, ?_⟩
  rw [clearPartitions_emit]
  exact traceExtends_rfl _

theorem dmInv_symNodeProcessed {dm dm' : DM} {symId : String} {node : TNode} {b : Bool}
    (h : DMInv dm) (hok : symNodeProcessed dm symId node = .ok (b, dm')) : Inv2 dm dm' := by
  unfold symNodeProcessed at hok
  cases hg : alGet dm.symbolDatas symId with
  | none =>
    rw [getLiveSym_fail_none hg, bindErr] at hok
    exact Except.noConfusion hok
  | some sl =>
    cases sl with
    | none =>
      rw [getLiveSym_fail_dead hg, bindErr] at hok
      exact Except.noConfusion hok
    | some s =>
      have hsg := symGood_of_lookup h hg
      rw [getLiveSym_eq hg, bindOk] at hok
      try dsimp only at hok
      cases hpart : s.partitions with
      | undef =>
        rw [hpart] at hok
        have hpair := Except.ok.inj hok
        injection hpair with h1 h2
        rw [← h2]
        exact inv2_rfl h
      | cleared =>
        rw [hpart] at hok
        exact Except.noConfusion hok
      | live m =>
        rw [hpart] at hok
        try dsimp only at hok
        by_cases hsc : some node = s.scope
        · rw [if_pos hsc] at hok
          cases m with
          | nil => exact Except.noConfusion hok
          | cons hd tl =>
            obtain ⟨k, slot⟩ := hd
            cases tl with
            | cons hd' tl' =>
              cases slot with
              | none => exact Except.noConfusion hok
              | some p => exact Except.noConfusion hok
            | nil =>
              cases slot with
              | none =>
                try dsimp only at hok
                have hpair := Except.ok.inj hok
                injection hpair with h1 h2
                rw [← h2]
                exact inv2_clearPartitions h symId
              | some p =>
                try dsimp only at hok
                have hp : PartGood dm.emit.trace p :=
                  hsg.2.2.2 _ hpart (k, some p) (List.mem_singleton.mpr rfl) p rfl
                cases hpe : partitionEnd dm symId p with
                | error e =>
                  rw [hpe, bindErr] at hok
                  exact Except.noConfusion hok
                | ok dm₁ =>
                  rw [hpe, bindOk] at hok
                  have h₁ := dmInv_partitionEnd h hp hpe
                  have hpair := Except.ok.inj hok
                  injection hpair with h1 h2
                  rw [← h2]
                  exact inv2_trans h₁ (inv2_clearPartitions h₁.1 symId)
        · rw [if_neg hsc] at hok
          cases node with
          | other n => exact Except.noConfusion hok
          | sourceFile fileName =>
            try dsimp only at hok
            cases hslot : alGet m fileName with
            | none =>
              rw [hslot] at hok
              exact Except.noConfusion hok
            | some pslot =>
              cases pslot with
              | none =>
                rw [hslot] at hok
                exact Except.noConfusion hok
              | some p =>
                rw [hslot] at hok
                try dsimp only at hok
                have hp := partGood_of_symGood hsg hpart hslot
                cases hpe : partitionEnd dm symId p with
                | error e =>
                  rw [hpe, bindErr] at hok
                  exact Except.noConfusion hok
                | ok dm₁ =>
                  rw [hpe, bindOk] at hok
                  have h₁ := dmInv_partitionEnd h hp hpe
                  have hpair := Except.ok.inj hok
                  injection hpair with h1 h2
                  rw [← h2]
                  refine inv2_trans h₁ ⟨?_, ?_⟩
                  · exact dmInv_setPartitionSlot h₁.1
                      (fun p' hp' => Option.noConfusion hp')
                  · rw [setPartitionSlot_emit]
                    exact traceExtends_rfl _

theorem dmInv_symEndEntries {symId : String} {keys : List String} :
    ∀ {dm dm' : DM}, DMInv dm → symEndEntries dm symId keys = .ok dm' → Inv2 dm dm' := by
  induction keys with
  | nil =>
    intro dm dm' h hok
    unfold symEndEntries at hok
    rw [← Except.ok.inj hok]
    exact inv2_rfl h
  | cons k rest ih =>
    intro dm dm' h hok
    unfold symEndEntries at hok
    cases hg : alGet dm.symbolDatas symId with
    | none =>
      rw [getLiveSym_fail_none hg, bindErr] at hok
      exact Except.noConfusion hok
    | some sl =>
      cases sl with
      | none =>
        rw [getLiveSym_fail_dead hg, bindErr] at hok
        exact Except.noConfusion hok
      | some s =>
        have hsg := symGood_of_lookup h hg
        rw [getLiveSym_eq hg, bindOk] at hok
        try dsimp only at hok
        cases hpart : s.partitions with
        | undef =>
          rw [hpart] at hok
          exact ih h hok
        | cleared =>
          rw [hpart] at hok
          exact ih h hok
        | live m =>
          rw [hpart] at hok
          try dsimp only at hok
          cases hslot : alGet m k with
          | none =>
            rw [hslot] at hok
            exact ih h hok
          | some pslot =>
            cases pslot with
            | none =>
              rw [hslot] at hok
              exact ih h hok
            | some p =>
              rw [hslot] at hok
              try dsimp only at hok
              have hp := partGood_of_symGood hsg hpart hslot
              cases hpe : partitionEnd dm symId p with
              | error e =>
                rw [hpe, bindErr] at hok
                exact Except.noConfusion hok
              | ok dm₁ =>
                rw [hpe, bindOk] at hok
                have h₁ := dmInv_partitionEnd h hp hpe
                have hset : DMInv (setPartitionSlot dm₁ symId k none) :=
                  dmInv_setPartitionSlot h₁.1 (fun p' hp' => Option.noConfusion hp')
                have hstep : Inv2 dm (setPartitionSlot dm₁ symId k none) := by
                  refine inv2_trans h₁ ⟨hset, ?_⟩
                  rw [setPartitionSlot_emit]
                  exact traceExtends_rfl _
                exact inv2_trans hstep (ih hset hok)

theorem dmInv_symEnd {dm dm' : DM} {symId : String} (h : DMInv dm)
    (hok : symEnd dm symId = .ok dm') : Inv2 dm dm' := by
  unfold symEnd at hok
  cases hg : alGet dm.symbolDatas symId with
  | none =>
    rw [getLiveSym_fail_none hg, bindErr] at hok
    exact Except.noConfusion hok
  | some sl =>
    cases sl with
    | none =>
      rw [getLiveSym_fail_dead hg, bindErr] at hok
      exact Except.noConfusion hok
    | some s =>
      rw [getLiveSym_eq hg, bindOk] at hok
      try dsimp only at hok
      cases hpart : s.partitions with
      | undef =>
        rw [hpart] at hok
        rw [← Except.ok.inj hok]
        exact inv2_rfl h
      | cleared =>
        rw [hpart] at hok
        exact Except.noConfusion hok
      | live m =>
        rw [hpart] at hok
        exact dmInv_symEndEntries h hok

theorem dmInv_processDatas {node : TNode} {datas : List String} :
    ∀ {dm dm' : DM}, DMInv dm → processDatas dm node datas = .ok dm' → Inv2 dm dm' := by
  induction datas with
  | nil =>
    intro dm dm' h hok
    unfold processDatas at hok
    rw [← Except.ok.inj hok]
    exact inv2_rfl h
  | cons symId rest ih =>
    intro dm dm' h hok
    unfold processDatas at hok
    cases hnp : symNodeProcessed dm symId node with
    | error e =>
      rw [hnp, bindErr] at hok
      exact Except.noConfusion hok
    | ok pr =>
      obtain ⟨done, dm₁⟩ := pr
      rw [hnp, bindOk] at hok
      try dsimp only at hok
      have h₁ := dmInv_symNodeProcessed h hnp
      cases done with
      | true =>
        try dsimp only at hok
        have hrm : DMInv { dm₁ with symbolDatas := alRemove dm₁.symbolDatas symId } :=
          dmInv_removeSym h₁.1 symId
        have hstep : Inv2 dm { dm₁ with symbolDatas := alRemove dm₁.symbolDatas symId } :=
          inv2_trans h₁ ⟨hrm, traceExtends_rfl _⟩
        exact inv2_trans hstep (ih hrm hok)
      | false =>
        try dsimp only at hok
        exact inv2_trans h₁ (ih h₁.1 hok)

theorem dmInv_dmNodeProcessed {dm dm' : DM} {node : TNode} (h : DMInv dm)
    (hok : dmNodeProcessed dm node = .ok dm') : Inv2 dm dm' := by
  unfold dmNodeProcessed at hok
  cases hcl : alGet dm.clearOnNode node with
  | none =>
    rw [hcl] at hok
    rw [← Except.ok.inj hok]
    exact inv2_rfl h
  | some datas =>
    rw [hcl] at hok
    try dsimp only at hok
    cases hpd : processDatas dm node datas with
    | error e =>
      rw [hpd, bindErr] at hok
      exact Except.noConfusion hok
    | ok dm₁ =>
      rw [hpd, bindOk] at hok
      have h₁ := dmInv_processDatas h hpd
      rw [← Except.ok.inj hok]
      exact inv2_trans h₁ ⟨⟨h₁.1.1, h₁.1.2.1, h₁.1.2.2.1, h₁.1.2.2.2.1, h₁.1.2.2.2.2⟩,
        traceExtends_rfl _⟩

theorem dmInv_projAddDocument {dm : DM} {docId : Nat} (h : DMInv dm)
    (hd : GoodId dm.emit.trace docId) : Inv2 dm (projAddDocument dm docId) := by
  have hedge := dmInv_emitEdge h .contains dm.projectData.project
    (dm.projectData.documents ++ [docId]) none none
    (by
      intro r hr
      simp only [Option.toList_none, List.append_nil, List.mem_cons, List.mem_append,
        List.mem_singleton] at hr
      rcases hr with rfl | hr | rfl | h0
      · exact h.2.1
      · exact h.2.2.1 r hr
      · exact hd
      · exact absurd h0 (List.not_mem_nil r))
  unfold projAddDocument
  dsimp only
  by_cases hc : (dm.projectData.documents ++ [docId]).length > 32
  · rw [if_pos hc]
    refine ⟨⟨hedge.1.1, hedge.1.2.1, ?_, hedge.1.2.2.2.1, hedge.1.2.2.2.2⟩, hedge.2⟩
    intro d hdm
    exact absurd hdm (List.not_mem_nil d)
  · rw [if_neg hc]
    refine ⟨⟨h.1, h.2.1, ?_, h.2.2.2.1, h.2.2.2.2⟩, traceExtends_rfl _⟩
    intro d hdm
    rcases List.mem_append.mp hdm with hdm | hdm
    · exact h.2.2.1 d hdm
    · rw [List.mem_singleton] at hdm
      subst hdm
      exact hd

theorem inv2_condStep {dm₀ dm : DM} (h0 : Inv2 dm₀ dm) (cond : Bool)
    (vlabel : VertexLabel) (elabel : EdgeLabel) {outV : Nat}
    (hout : GoodId dm₀.emit.trace outV) :
    Inv2 dm₀ (if cond then
        dmEmitEdge (dmEmitVertex dm vlabel).2 elabel outV
          [(dmEmitVertex dm vlabel).1] none none
      else dm) := by
  cases cond with
  | false => exact h0
  | true =>
    have hout' := goodId_of_extends h0.2 hout
    obtain ⟨hv, hgood⟩ := dmInv_emitVertex h0.1 vlabel
    have he := dmInv_emitEdge hv.1 elabel outV [(dmEmitVertex dm vlabel).1] none none
      (by
        intro r hr
        simp only [Option.toList_none, List.append_nil, List.mem_cons,
          List.mem_singleton] at hr
        rcases hr with rfl | rfl | hr
        · exact goodId_of_extends hv.2 hout'
        · exact hgood
        · simp at hr)
    exact inv2_trans h0 (inv2_trans hv he)

theorem dmInv_docEnd {dm : DM} {dd : DocumentSt} (h : DMInv dm)
    (hdd : DocGood dm.emit.trace dd) : Inv2 dm (docEnd dm dd) := by
  have h₁ : Inv2 dm (dmEmitEdge dm .contains dd.document dd.ranges none none) :=
    dmInv_emitEdge h .contains dd.document dd.ranges none none
      (by
        intro r hr
        simp only [Option.toList_none, List.append_nil, List.mem_cons] at hr
        rcases hr with rfl | hr
        · exact hdd.1
        · exact hdd.2 r hr)
  have h₂ := inv2_condStep h₁ dd.diagnostics.isSome .diagnosticResult .diagnostic hdd.1
  have h₃ := inv2_condStep h₂ dd.foldingRanges.isSome .foldingRangeResult
    .foldingRange hdd.1
  have h₄ := inv2_condStep h₃ dd.documentSymbols.isSome .documentSymbolResult
    .documentSymbols hdd.1
  have h₅ := (dmInv_emitVertex h₄.1 (.event false dd.document)).1
  exact inv2_trans h₄ h₅

theorem dmInv_dmDocumentProcessed {dm dm' : DM} {fileName : String} (h : DMInv dm)
    (hok : dmDocumentProcessed dm fileName = .ok dm') : Inv2 dm dm' := by
  unfold dmDocumentProcessed at hok
  cases halg : alGet dm.documentDatas fileName with
  | none =>
    rw [dmGetDocumentData_eq_none halg, bindOk] at hok
    try dsimp only at hok
    exact Except.noConfusion hok
  | some sl =>
    cases sl with
    | none =>
      rw [dmGetDocumentData_eq_dead halg, bindErr] at hok
      exact Except.noConfusion hok
    | some dd =>
      rw [dmGetDocumentData_eq_live halg, bindOk] at hok
      try dsimp only at hok
      have hdg := docGood_of_lookup h halg
      have h₁ := dmInv_docEnd h hdg
      rw [← Except.ok.inj hok]
      exact inv2_trans h₁ ⟨dmInv_tombstoneDoc h₁.1 fileName, traceExtends_rfl _⟩

/-- Appending an already-allocated vertex whose id is larger than every
emitted id and below the counter keeps the invariant. -/
theorem dmInv_emitExistingVertex {dm : DM} {i : Nat} (label : VertexLabel) (h : DMInv dm)
    (hfresh : ∀ x ∈ dm.emit.trace, x.id < i) (hlt : i < dm.emit.nextId) :
    Inv2 dm { dm with emit := emitExisting dm.emit (Element.vertex i label) } ∧
    GoodId (emitExisting dm.emit (Element.vertex i label)).trace i := by
  have hx : TraceExtends dm.emit (emitExisting dm.emit (Element.vertex i label)) :=
    ⟨[Element.vertex i label], rfl⟩
  have hgood : GoodId (emitExisting dm.emit (Element.vertex i label)).trace i :=
    ⟨Element.vertex i label, by simp [emitExisting], rfl, rfl⟩
  obtain ⟨hl, hpw, hrefs⟩ := h.1
  have hinv : EmitInv (emitExisting dm.emit (Element.vertex i label)) := by
    refine ⟨?_, ?_, ?_⟩
    · intro x hx'
      simp only [emitExisting, List.mem_append, List.mem_singleton] at hx'
      rcases hx' with hx' | rfl
      · exact hl x hx'
      · exact hlt
    · simp only [emitExisting]
      rw [List.pairwise_append]
      refine ⟨hpw, by simp, ?_⟩
      intro a ha b hb
      rw [List.mem_singleton] at hb
      subst hb
      exact hfresh a ha
    · intro x hx' r hr
      simp only [emitExisting, List.mem_append, List.mem_singleton] at hx'
      rcases hx' with hx' | rfl
      · obtain ⟨hg, hl'⟩ := hrefs x hx' r hr
        exact ⟨goodId_mono hg, hl'⟩
      · simp [Element.refs] at hr
  exact ⟨⟨dmInvParts_of_extends h hx hinv, hx⟩, hgood⟩

/-- Allocating an id without emitting keeps the invariant. -/
theorem dmInv_alloc {dm : DM} (h : DMInv dm) :
    DMInv { dm with emit := (allocId dm.emit).2 } := by
  refine ⟨⟨?_, h.1.2.1, h.1.2.2⟩, h.2.1, h.2.2.1, h.2.2.2.1, h.2.2.2.2⟩
  intro x hx
  exact Nat.lt_succ_of_lt (h.1.1 x hx)

theorem dmInv_dmGetOrCreateDocumentData {dm dm' : DM} {fileName : String} {docId : Nat}
    {mp : Option String} {ext : Bool} {dd : DocumentSt} (h : DMInv dm)
    (hfresh : ∀ x ∈ dm.emit.trace, x.id < docId) (hlt : docId < dm.emit.nextId)
    (hok : dmGetOrCreateDocumentData dm fileName docId mp ext = .ok (dd, dm')) :
    Inv2 dm dm' ∧ DocGood dm'.emit.trace dd := by
  unfold dmGetOrCreateDocumentData at hok
  cases halg : alGet dm.documentDatas fileName with
  | some sl =>
    cases sl with
    | none =>
      rw [dmGetDocumentData_eq_dead halg, bindErr] at hok
      exact Except.noConfusion hok
    | some dd0 =>
      rw [dmGetDocumentData_eq_live halg, bindOk] at hok
      try dsimp only at hok
      have hpair := Except.ok.inj hok
      injection hpair with h1 h2
      subst h1
      subst h2
      exact ⟨inv2_rfl h, docGood_of_lookup h halg⟩
  | none =>
    rw [dmGetDocumentData_eq_none halg, bindOk] at hok
    try dsimp only at hok
    have hvE := @dmInv_emitExistingVertex dm docId VertexLabel.document h hfresh hlt
    have hdg : DocGood (emitExisting dm.emit (Element.vertex docId .document)).trace
        { document := docId, monikerPath := mp, externalLibrary := ext, ranges := [],
          diagnostics := none, foldingRanges := none, documentSymbols := none } :=
      ⟨hvE.2, fun r hr => absurd hr (List.not_mem_nil r)⟩
    have h₂ := dmInv_updateDoc hvE.1.1 fileName hdg
    have h₃ := dmInv_emitVertex h₂ (.event true docId)
    have hd₃ := goodId_of_extends h₃.1.2 hvE.2
    have h₄ := dmInv_projAddDocument h₃.1.1 hd₃
    have hpair := Except.ok.inj hok
    injection hpair with h1 h2
    subst h1
    subst h2
    refine ⟨inv2_trans ⟨h₂, hvE.1.2⟩ (inv2_trans h₃.1 h₄), ?_⟩
    exact docGood_of_extends h₄.2 (docGood_of_extends h₃.1.2 hdg)

theorem dmInv_visitorGetOrCreateDocumentData {dm dm' : DM} {fileName : String}
    {mp : Option String} {ext : Bool} {dd : DocumentSt} (h : DMInv dm)
    (hok : visitorGetOrCreateDocumentData dm fileName mp ext = .ok (dd, dm')) :
    Inv2 dm dm' ∧ DocGood dm'.emit.trace dd := by
  unfold visitorGetOrCreateDocumentData at hok
  cases halg : alGet dm.documentDatas fileName with
  | some sl =>
    cases sl with
    | none =>
      rw [dmGetDocumentData_eq_dead halg, bindErr] at hok
      exact Except.noConfusion hok
    | some dd0 =>
      rw [dmGetDocumentData_eq_live halg, bindOk] at hok
      try dsimp only at hok
      have hpair := Except.ok.inj hok
      injection hpair with h1 h2
      subst h1
      subst h2
      exact ⟨inv2_rfl h, docGood_of_lookup h halg⟩
  | none =>
    rw [dmGetDocumentData_eq_none halg, bindOk] at hok
    try dsimp only at hok
    have hA : DMInv { dm with emit := (allocId dm.emit).2 } := dmInv_alloc h
    have h₂ := dmInv_dmGetOrCreateDocumentData hA
      (fun x hx => h.1.1 x hx) (Nat.lt_succ_self _) hok
    exact ⟨⟨h₂.1.1, h₂.1.2⟩, h₂.2⟩

theorem dmInv_createDocDatas {files : List String} :
    ∀ {dm dm' : DM}, DMInv dm → createDocDatas dm files = .ok dm' → Inv2 dm dm' := by
  induction files with
  | nil =>
    intro dm dm' h hok
    unfold createDocDatas at hok
    rw [← Except.ok.inj hok]
    exact inv2_rfl h
  | cons f rest ih =>
    intro dm dm' h hok
    unfold createDocDatas at hok
    cases hv : visitorGetOrCreateDocumentData dm f none false with
    | error e =>
      rw [hv, bindErr] at hok
      exact Except.noConfusion hok
    | ok pr =>
      obtain ⟨dd, dm₁⟩ := pr
      rw [hv, bindOk] at hok
      try dsimp only at hok
      have h₁ := (dmInv_visitorGetOrCreateDocumentData h hv).1
      exact inv2_trans h₁ (ih h₁.1 hok)

theorem dmGetSymbolData_eq_none {dm : DM} {symId : String}
    (h : alGet dm.symbolDatas symId = none) : dmGetSymbolData dm symId = .ok none := by
  unfold dmGetSymbolData
  rw [h]
  rfl

theorem dmGetSymbolData_eq_live {dm : DM} {symId : String} {s : SymbolSt}
    (h : alGet dm.symbolDatas symId = some (some s)) :
    dmGetSymbolData dm symId = .ok (some s) := by
  unfold dmGetSymbolData
  rw [h]
  rfl

theorem dmGetSymbolData_eq_dead {dm : DM} {symId : String}
    (h : alGet dm.symbolDatas symId = some none) :
    dmGetSymbolData dm symId = .error .symAlreadyManaged := by
  unfold dmGetSymbolData
  rw [h]
  rfl

theorem dmInv_symGetOrCreateReferenceResult {dm dm' : DM} {symId : String} {i : Nat}
    (h : DMInv dm) (hok : symGetOrCreateReferenceResult dm symId = .ok (i, dm')) :
    Inv2 dm dm' ∧ GoodId dm'.emit.trace i := by
  unfold symGetOrCreateReferenceResult at hok
  cases hg : alGet dm.symbolDatas symId with
  | none =>
    rw [getLiveSym_fail_none hg, bindErr] at hok
    exact Except.noConfusion hok
  | some sl =>
    cases sl with
    | none =>
      rw [getLiveSym_fail_dead hg, bindErr] at hok
      exact Except.noConfusion hok
    | some s =>
      rw [getLiveSym_eq hg, bindOk] at hok
      try dsimp only at hok
      cases hvar : s.variant with
      | standard =>
        rw [hvar] at hok
        exact dmInv_getOrCreateReferenceResult h hok
      | method bases =>
        rw [hvar] at hok
        exact dmInv_getOrCreateReferenceResult h hok
      | aliased a r =>
        rw [hvar] at hok
        exact Except.noConfusion hok
      | unionOrIntersection elems =>
        rw [hvar] at hok
        exact dmInv_getOrCreateReferenceResult h hok

theorem dmInv_methodBeginBases {symId sourceFile : String} {bases : List String} :
    ∀ {dm dm' : DM}, DMInv dm → methodBeginBases dm symId sourceFile bases = .ok dm' →
    Inv2 dm dm' := by
  induction bases with
  | nil =>
    intro dm dm' h hok
    unfold methodBeginBases at hok
    rw [← Except.ok.inj hok]
    exact inv2_rfl h
  | cons b rest ih =>
    intro dm dm' h hok
    unfold methodBeginBases at hok
    cases hrr : symGetOrCreateReferenceResult dm b with
    | error e =>
      rw [hrr, bindErr] at hok
      exact Except.noConfusion hok
    | ok pr =>
      obtain ⟨rr, dm₁⟩ := pr
      rw [hrr, bindOk] at hok
      try dsimp only at hok
      obtain ⟨h₁, hrg⟩ := dmInv_symGetOrCreateReferenceResult h hrr
      cases hsa : stdAddReference dm₁ symId sourceFile (.referenceResultV rr) none with
      | error e =>
        rw [hsa, bindErr] at hok
        exact Except.noConfusion hok
      | ok dm₂ =>
        rw [hsa, bindOk] at hok
        have h₂ := dmInv_stdAddReference h₁.1 hrg hsa
        exact inv2_trans h₁ (inv2_trans h₂ (ih h₂.1 hok))

theorem inv2_aliasBeginEdge {dm₀ S dm' : DM} {a : String} {rsId : Nat}
    (hS : Inv2 dm₀ S) (hrs : GoodId S.emit.trace rsId)
    (hok : (getLiveSym S a >>= fun sa =>
      pure (dmEmitEdge S .next rsId [sa.resultSet] none none)) = Except.ok dm') :
    Inv2 dm₀ dm' := by
  cases hga : alGet S.symbolDatas a with
  | none =>
    rw [getLiveSym_fail_none hga, bindErr] at hok
    exact Except.noConfusion hok
  | some sl =>
    cases sl with
    | none =>
      rw [getLiveSym_fail_dead hga, bindErr] at hok
      exact Except.noConfusion hok
    | some sa =>
      have hsag := symGood_of_lookup hS.1 hga
      rw [getLiveSym_eq hga, bindOk] at hok
      try dsimp only at hok
      have he := dmInv_emitEdge hS.1 .next rsId [sa.resultSet] none none
        (by
          intro r hr
          simp only [Option.toList_none, List.append_nil, List.mem_cons,
            List.mem_singleton] at hr
          rcases hr with rfl | rfl | hr
          · exact hrs
          · exact hsag.1
          · simp at hr)
      rw [← Except.ok.inj hok]
      exact inv2_trans hS he

theorem dmInv_createSymbol {dm dm' : DM} {symId : String} {scope : Option TNode}
    {variant : SymbolVariant} {files : List String} (h : DMInv dm)
    (hok : createSymbol dm symId scope variant files = .ok dm') : Inv2 dm dm' := by
  unfold createSymbol at hok
  cases hg : alGet dm.symbolDatas symId with
  | some sl =>
    cases sl with
    | none =>
      rw [dmGetSymbolData_eq_dead hg, bindErr] at hok
      exact Except.noConfusion hok
    | some s0 =>
      rw [dmGetSymbolData_eq_live hg, bindOk] at hok
      try dsimp only at hok
      rw [← Except.ok.inj hok]
      exact inv2_rfl h
  | none =>
    rw [dmGetSymbolData_eq_none hg, bindOk] at hok
    try dsimp only at hok
    cases hcd : createDocDatas dm files with
    | error e =>
      rw [hcd, bindErr] at hok
      exact Except.noConfusion hok
    | ok dm₁ =>
      rw [hcd, bindOk] at hok
      try dsimp only at hok
      have h₁ := dmInv_createDocDatas h hcd
      have hA : DMInv { dm₁ with emit := (allocId dm₁.emit).2 } := dmInv_alloc h₁.1
      have hvE := @dmInv_emitExistingVertex { dm₁ with emit := (allocId dm₁.emit).2 }
        ((allocId dm₁.emit).1) VertexLabel.resultSet hA
        (fun x hx => h₁.1.1.1 x hx) (Nat.lt_succ_self _)
      have hs : ∀ sc : Option TNode,
          SymGood (emitExisting ({ dm₁ with emit := (allocId dm₁.emit).2 }).emit
          (Element.vertex (allocId dm₁.emit).1 .resultSet)).trace
          { resultSet := (allocId dm₁.emit).1, scope := sc, variant := variant,
            definitionResult := none, referenceResult := none, partitions := .undef } :=
        fun sc =>
          ⟨hvE.2, fun i hi => Option.noConfusion hi, fun i hi => Option.noConfusion hi,
            fun m hm => Partitions.noConfusion hm⟩
      have hS2 : ∀ sc : Option TNode,
          Inv2 dm₁ (updateSym { { dm₁ with emit := (allocId dm₁.emit).2 } with
          emit := emitExisting ({ dm₁ with emit := (allocId dm₁.emit).2 }).emit
            (Element.vertex (allocId dm₁.emit).1 .resultSet) } symId
          { resultSet := (allocId dm₁.emit).1, scope := sc, variant := variant,
            definitionResult := none, referenceResult := none, partitions := .undef }) :=
        fun sc => ⟨dmInv_updateSym hvE.1.1 symId (hs sc), hvE.1.2⟩
      cases variant with
      | standard =>
        try dsimp only at hok
        rw [← Except.ok.inj hok]
        exact inv2_trans h₁ (hS2 _)
      | method bases =>
        cases bases with
        | none =>
          try dsimp only at hok
          rw [← Except.ok.inj hok]
          exact inv2_trans h₁ (hS2 _)
        | some bs =>
          try dsimp only at hok
          cases files with
          | nil => exact Except.noConfusion hok
          | cons f0 rest =>
            try dsimp only at hok
            have hmb := dmInv_methodBeginBases (hS2 scope).1 hok
            exact inv2_trans h₁ (inv2_trans (hS2 scope) hmb)
      | aliased a rn =>
        try dsimp only at hok
        exact inv2_trans h₁ (inv2_aliasBeginEdge (hS2 scope) hvE.2 hok)
      | unionOrIntersection elems =>
        try dsimp only at hok
        cases files with
        | nil => exact Except.noConfusion hok
        | cons f0 rest =>
          try dsimp only at hok
          have hmb := dmInv_methodBeginBases (hS2 none).1 hok
          exact inv2_trans h₁ (inv2_trans (hS2 none) hmb)

theorem inv2_flushDocs {dm₀ dmE : DM} (hE : Inv2 dm₀ dmE) :
    Inv2 dm₀ { dmE with projectData := { dmE.projectData with documents := [] } } :=
  ⟨⟨hE.1.1, hE.1.2.1, fun d hd => absurd hd (List.not_mem_nil d), hE.1.2.2.2.1,
    hE.1.2.2.2.2⟩, hE.2⟩

theorem inv2_condStepCur {dm₀ dm : DM} (h0 : Inv2 dm₀ dm) (c : Prop) [inst : Decidable c]
    (vlabel : VertexLabel) (elabel : EdgeLabel) {outV : Nat}
    (hout : GoodId dm.emit.trace outV) :
    Inv2 dm₀ (if c then
        dmEmitEdge (dmEmitVertex dm vlabel).2 elabel outV
          [(dmEmitVertex dm vlabel).1] none none
      else dm) := by
  by_cases hc : c
  · rw [if_pos hc]
    obtain ⟨hv, hgood⟩ := dmInv_emitVertex h0.1 vlabel
    have he := dmInv_emitEdge hv.1 elabel outV [(dmEmitVertex dm vlabel).1] none none
      (by
        intro r hr
        simp only [Option.toList_none, List.append_nil, List.mem_cons,
          List.mem_singleton] at hr
        rcases hr with rfl | rfl | hr
        · exact goodId_of_extends hv.2 hout
        · exact hgood
        · simp at hr)
    exact inv2_trans h0 (inv2_trans hv he)
  · rw [if_neg hc]
    exact h0

theorem dmInv_recordDefinitionOp {dm dm' : DM} {symId fileName : String} (h : DMInv dm)
    (hok : recordDefinitionOp dm symId fileName = .ok dm') : Inv2 dm dm' := by
  unfold recordDefinitionOp at hok
  cases hv : visitorGetOrCreateDocumentData dm fileName none false with
  | error e =>
    rw [hv, bindErr] at hok
    exact Except.noConfusion hok
  | ok pr =>
    obtain ⟨dd, dm₁⟩ := pr
    rw [hv, bindOk] at hok
    try dsimp only at hok
    obtain ⟨h₁, hdg⟩ := dmInv_visitorGetOrCreateDocumentData h hv
    obtain ⟨h₂, hrg⟩ := dmInv_emitVertex h₁.1 .range
    have hdg₂ : DocGood (dmEmitVertex dm₁ .range).2.emit.trace
        { dd with ranges := dd.ranges ++ [(dmEmitVertex dm₁ .range).1] } := by
      refine ⟨goodId_of_extends h₂.2 hdg.1, ?_⟩
      intro r hr
      rcases List.mem_append.mp hr with hr | hr
      · exact goodId_of_extends h₂.2 (hdg.2 r hr)
      · rw [List.mem_singleton] at hr
        subst hr
        exact hrg
    have h₃ := dmInv_updateDoc h₂.1 fileName hdg₂
    have h₄ := dmInv_symAddDefinition h₃ hrg hok
    exact inv2_trans h₁ (inv2_trans h₂ (inv2_trans ⟨h₃, traceExtends_rfl _⟩ h₄))

theorem dmInv_recordReferenceOp {dm dm' : DM} {symId fileName : String} (h : DMInv dm)
    (hok : recordReferenceOp dm symId fileName = .ok dm') : Inv2 dm dm' := by
  unfold recordReferenceOp at hok
  cases halg : alGet dm.documentDatas fileName with
  | none =>
    rw [halg] at hok
    exact Except.noConfusion hok
  | some sl =>
    cases sl with
    | none =>
      rw [halg] at hok
      exact Except.noConfusion hok
    | some dd =>
      rw [halg] at hok
      try dsimp only at hok
      have hdg := docGood_of_lookup h halg
      obtain ⟨h₂, hrg⟩ := dmInv_emitVertex h .range
      have hdg₂ : DocGood (dmEmitVertex dm .range).2.emit.trace
          { dd with ranges := dd.ranges ++ [(dmEmitVertex dm .range).1] } := by
        refine ⟨goodId_of_extends h₂.2 hdg.1, ?_⟩
        intro r hr
        rcases List.mem_append.mp hr with hr | hr
        · exact goodId_of_extends h₂.2 (hdg.2 r hr)
        · rw [List.mem_singleton] at hr
          subst hr
          exact hrg
      have h₃ := dmInv_updateDoc h₂.1 fileName hdg₂
      have h₄ := dmInv_symAddReference h₃ hrg hok
      exact inv2_trans h₂ (inv2_trans ⟨h₃, traceExtends_rfl _⟩ h₄)

theorem dmInv_addHoverOp {dm dm' : DM} {symId : String} (h : DMInv dm)
    (hok : addHoverOp dm symId = .ok dm') : Inv2 dm dm' := by
  unfold addHoverOp at hok
  cases hg : alGet dm.symbolDatas symId with
  | none =>
    rw [getLiveSym_fail_none hg, bindErr] at hok
    exact Except.noConfusion hok
  | some sl =>
    cases sl with
    | none =>
      rw [getLiveSym_fail_dead hg, bindErr] at hok
      exact Except.noConfusion hok
    | some s =>
      have hsg := symGood_of_lookup h hg
      rw [getLiveSym_eq hg, bindOk] at hok
      try dsimp only at hok
      rw [← Except.ok.inj hok]
      exact inv2_condStep (inv2_rfl h) true .hoverResult .hover hsg.1

theorem dmInv_addMonikerOp {dm dm' : DM} {symId : String} (h : DMInv dm)
    (hok : addMonikerOp dm symId = .ok dm') : Inv2 dm dm' := by
  unfold addMonikerOp at hok
  cases hg : alGet dm.symbolDatas symId with
  | none =>
    rw [getLiveSym_fail_none hg, bindErr] at hok
    exact Except.noConfusion hok
  | some sl =>
    cases sl with
    | none =>
      rw [getLiveSym_fail_dead hg, bindErr] at hok
      exact Except.noConfusion hok
    | some s =>
      have hsg := symGood_of_lookup h hg
      rw [getLiveSym_eq hg, bindOk] at hok
      try dsimp only at hok
      rw [← Except.ok.inj hok]
      exact inv2_condStep (inv2_rfl h) true .moniker .moniker hsg.1

theorem dmInv_documentDoneOp {dm dm' : DM} {fileName : String}
    {diag foldingR docSyms : Bool} (h : DMInv dm)
    (hok : documentDoneOp dm fileName diag foldingR docSyms = .ok dm') : Inv2 dm dm' := by
  unfold documentDoneOp at hok
  cases halg : alGet dm.documentDatas fileName with
  | none =>
    rw [halg] at hok
    try dsimp only at hok
    exact dmInv_dmDocumentProcessed h hok
  | some sl =>
    cases sl with
    | none =>
      rw [halg] at hok
      try dsimp only at hok
      exact dmInv_dmDocumentProcessed h hok
    | some dd =>
      rw [halg] at hok
      try dsimp only at hok
      have hdg := docGood_of_lookup h halg
      have hdg' : DocGood dm.emit.trace { dd with
          diagnostics := if diag then some () else dd.diagnostics,
          foldingRanges := if foldingR then some () else dd.foldingRanges,
          documentSymbols := if docSyms then some () else dd.documentSymbols } :=
        ⟨hdg.1, hdg.2⟩
      have h₁ := dmInv_updateDoc h fileName hdg'
      have h₂ := dmInv_dmDocumentProcessed h₁ hok
      exact inv2_trans ⟨h₁, traceExtends_rfl _⟩ h₂

theorem dmInv_endSymbols {keys : List String} :
    ∀ {dm dm' : DM}, DMInv dm → endSymbols dm keys = .ok dm' → Inv2 dm dm' := by
  induction keys with
  | nil =>
    intro dm dm' h hok
    unfold endSymbols at hok
    rw [← Except.ok.inj hok]
    exact inv2_rfl h
  | cons k rest ih =>
    intro dm dm' h hok
    unfold endSymbols at hok
    cases hg : alGet dm.symbolDatas k with
    | none =>
      rw [hg] at hok
      try dsimp only at hok
      exact ih h hok
    | some sl =>
      cases sl with
      | none =>
        rw [hg] at hok
        try dsimp only at hok
        exact ih h hok
      | some s =>
        rw [hg] at hok
        try dsimp only at hok
        cases hse : symEnd dm k with
        | error e =>
          rw [hse, bindErr] at hok
          exact Except.noConfusion hok
        | ok dm₁ =>
          rw [hse, bindOk] at hok
          have h₁ := dmInv_symEnd h hse
          have h₂ : DMInv { dm₁ with symbolDatas := alSet dm₁.symbolDatas k none } :=
            dmInv_tombstoneSym h₁.1 k
          have hstep := inv2_trans h₁ (⟨h₂, traceExtends_rfl _⟩ :
            Inv2 dm₁ { dm₁ with symbolDatas := alSet dm₁.symbolDatas k none })
          exact inv2_trans hstep (ih h₂ hok)

theorem dmInv_endDocuments (keys : List String) :
    ∀ {dm : DM}, DMInv dm → Inv2 dm (endDocuments dm keys) := by
  induction keys with
  | nil =>
    intro dm h
    exact inv2_rfl h
  | cons k rest ih =>
    intro dm h
    unfold endDocuments
    cases hg : alGet dm.documentDatas k with
    | none => exact ih h
    | some sl =>
      cases sl with
      | none => exact ih h
      | some dd =>
        have hdg := docGood_of_lookup h hg
        have h₁ := dmInv_docEnd h hdg
        exact inv2_trans h₁ (ih h₁.1)

theorem dmInv_projEnd {dm : DM} (h : DMInv dm) : Inv2 dm (projEnd dm) := by
  have hrefs : ∀ r ∈ dm.projectData.project :: dm.projectData.documents ++
      (none : Option Nat).toList, GoodId dm.emit.trace r := by
    intro r hr
    simp only [Option.toList_none, List.append_nil, List.mem_cons] at hr
    rcases hr with rfl | hr
    · exact h.2.1
    · exact h.2.2.1 r hr
  unfold projEnd
  dsimp only
  by_cases hc1 : dm.projectData.documents.length > 0
  · rw [if_pos hc1]
    have e1 := inv2_flushDocs (dmInv_emitEdge h .contains dm.projectData.project
      dm.projectData.documents none none hrefs)
    try dsimp only
    have e2 := inv2_condStepCur e1 (dm.projectData.diagnostics.length > 0)
      .diagnosticResult .diagnostic e1.1.2.1
    exact inv2_trans e2 (dmInv_emitVertex e2.1 _).1
  · rw [if_neg hc1]
    have e2 := inv2_condStepCur (inv2_rfl h) (dm.projectData.diagnostics.length > 0)
      .diagnosticResult .diagnostic h.2.1
    exact inv2_trans e2 (dmInv_emitVertex e2.1 _).1

theorem dmInv_dmProjectProcessed {dm dm' : DM} (h : DMInv dm)
    (hok : dmProjectProcessed dm = .ok dm') : Inv2 dm dm' := by
  unfold dmProjectProcessed at hok
  cases hes : endSymbols dm (dm.symbolDatas.map Prod.fst) with
  | error e =>
    rw [hes, bindErr] at hok
    exact Except.noConfusion hok
  | ok dm₁ =>
    rw [hes, bindOk] at hok
    try dsimp only at hok
    have h₁ := dmInv_endSymbols h hes
    have h₂ := dmInv_endDocuments (dm₁.documentDatas.map Prod.fst) h₁.1
    have h₃ := dmInv_projEnd h₂.1
    rw [← Except.ok.inj hok]
    exact inv2_trans h₁ (inv2_trans h₂ h₃)

theorem dmInv_opStep {dm dm' : DM} {op : Op} (h : DMInv dm)
    (hok : opStep dm op = .ok dm') : Inv2 dm dm' := by
  cases op with
  | createDocument f mp ext =>
    unfold opStep at hok
    try dsimp only at hok
    cases hv : visitorGetOrCreateDocumentData dm f mp ext with
    | error e =>
      rw [hv, bindErr] at hok
      exact Except.noConfusion hok
    | ok pr =>
      obtain ⟨dd, dm₁⟩ := pr
      rw [hv, bindOk] at hok
      try dsimp only at hok
      rw [← Except.ok.inj hok]
      exact (dmInv_visitorGetOrCreateDocumentData h hv).1
  | createSym symId scope variant files => exact dmInv_createSymbol h hok
  | recordDefinition symId f => exact dmInv_recordDefinitionOp h hok
  | recordReference symId f => exact dmInv_recordReferenceOp h hok
  | addHover symId => exact dmInv_addHoverOp h hok
  | addMoniker symId => exact dmInv_addMonikerOp h hok
  | addProjectDiagnostic =>
    unfold opStep at hok
    rw [← Except.ok.inj hok]
    exact ⟨⟨h.1, h.2.1, h.2.2.1, h.2.2.2.1, h.2.2.2.2⟩, traceExtends_rfl _⟩
  | nodeDone node => exact dmInv_dmNodeProcessed h hok
  | documentDone f d fr ds => exact dmInv_documentDoneOp h hok
  | projectDone => exact dmInv_dmProjectProcessed h hok

theorem dmInv_runFrom (ops : List Op) :
    ∀ {dm : DM}, DMInv dm → Inv2 dm (runFrom dm ops) := by
  induction ops with
  | nil =>
    intro dm h
    exact inv2_rfl h
  | cons op rest ih =>
    intro dm h
    unfold runFrom
    cases hstep : opStep dm op with
    | ok dm₁ =>
      have h₁ := dmInv_opStep h hstep
      exact inv2_trans h₁ (ih h₁.1)
    | error e =>
      exact inv2_rfl h

theorem dmInv_initDM : DMInv initDM := by
  unfold DMInv EmitInv
  refine ⟨⟨by decide, by decide, by decide⟩, by decide, ?_, ?_, ?_⟩
  · intro d hd
    exact absurd hd (List.not_mem_nil d)
  · intro fd hfd
    exact absurd hfd (List.not_mem_nil fd)
  · intro ss hss
    exact absurd hss (List.not_mem_nil ss)

set_option maxHeartbeats 1000000 in
/-- **C1.** During one indexing run (any sequence of driver operations
applied to the initial state), for any two elements A and B emitted in
program order, A's id is strictly less than B's id, and every edge that
refers to a vertex by id (including item edges emitted at partition end)
is emitted strictly after that vertex: every referenced id belongs to a
vertex occurring at a strictly earlier position of the trace. -/
theorem runOps_ids_increasing_refs_before (ops : List Op) :
    (∀ i j (hi : i < (runOps ops).emit.trace.length)
        (hj : j < (runOps ops).emit.trace.length), i < j →
      ((runOps ops).emit.trace.get ⟨i, hi⟩).id <
        ((runOps ops).emit.trace.get ⟨j, hj⟩).id) ∧
    (∀ j (hj : j < (runOps ops).emit.trace.length),
      ∀ r ∈ ((runOps ops).emit.trace.get ⟨j, hj⟩).refs,
      ∃ i, ∃ hi : i < (runOps ops).emit.trace.length, i < j ∧
        ((runOps ops).emit.trace.get ⟨i, hi⟩).isVertex = true ∧
        ((runOps ops).emit.trace.get ⟨i, hi⟩).id = r) := by
  have hinv : DMInv (runOps ops) := (dmInv_runFrom ops dmInv_initDM).1
  obtain ⟨hlt, hpw, hrefs⟩ := hinv.1
  constructor
  · intro i j hi hj hij
    exact List.pairwise_iff_get.mp hpw ⟨i, hi⟩ ⟨j, hj⟩ hij
  · intro j hj r hr
    have hx := hrefs _ (List.get_mem _ _ _) r hr
    obtain ⟨⟨v, hv, hvvert, hvid⟩, hrlt⟩ := hx
    obtain ⟨⟨i, hi⟩, hvi⟩ := List.mem_iff_get.mp hv
    refine ⟨i, hi, ?_, ?_, ?_⟩
    · by_contra hge
      push_neg at hge
      have hvr : ((runOps ops).emit.trace.get ⟨i, hi⟩).id = r := by
        rw [hvi]
        exact hvid
      rcases Nat.eq_or_lt_of_le hge with heq | hlt'
      · have hfin : (⟨j, hj⟩ : Fin (runOps ops).emit.trace.length) = ⟨i, hi⟩ :=
          Fin.mk_eq_mk.mpr heq
        rw [hfin] at hrlt
        rw [hvr] at hrlt
        exact Nat.lt_irrefl r hrlt
      · have hpij := List.pairwise_iff_get.mp hpw ⟨j, hj⟩ ⟨i, hi⟩ hlt'
        rw [hvr] at hpij
        exact Nat.lt_irrefl r (Nat.lt_trans hrlt hpij)
    · rw [hvi]
      exact hvvert
    · rw [hvi]
      exact hvid

/-- Witness: on the empty run the trace is the three initial vertices;
the ordering part of the theorem applies at positions 0 and 1. -/
theorem runOps_ids_increasing_refs_before_witness :
    ((runOps []).emit.trace.get ⟨0, by decide⟩).id <
      ((runOps []).emit.trace.get ⟨1, by decide⟩).id :=
  (runOps_ids_increasing_refs_before []).1 0 1 (by decide) (by decide) (by decide)

end Lsif
